import Mathlib

/-!
Verification of the Thor web framework's core request-processing engine
against its natural-language specification.

The Python sources are shallowly embedded: strings are lists of
characters (`Str`), Python dictionaries are association lists with
Python's insertion-order/overwrite semantics, fallible code returns
`Option`/`Except`, and the random/crypto primitives that a claim does
not depend on (HMAC digests, `secrets.token_urlsafe`) are passed in as
explicit inputs so that every definition stays executable.
-/

namespace Thor

/-- Python strings, embedded as lists of characters. -/
abbrev Str := List Char

/-- Coerce a Lean string literal to the embedded string type. -/
def strOf (s : String) : Str := s.toList

/-- Python `str.upper()` restricted to ASCII (HTTP method tokens). -/
def strUpper (s : Str) : Str := s.map Char.toUpper

/-- Python `str.split(sep)` for a one-character separator: every
occurrence splits, empty fields are kept. -/
def splitOnChar (c : Char) : Str → List Str
  | [] => [[]]
  | d :: rest =>
    let r := splitOnChar c rest
    if d = c then [] :: r
    else
      match r with
      | s :: ss => (d :: s) :: ss
      | [] => [[d]]

/-- Python dict lookup on an insertion-ordered association list. -/
def dictGet {α : Type} (m : List (Str × α)) (k : Str) : Option α :=
  (m.find? (fun e => e.1 = k)).map (·.2)

/-- Python dict assignment `m[k] = v`: overwrite in place if the key is
present, otherwise append (insertion order preserved). -/
def dictSet {α : Type} (m : List (Str × α)) (k : Str) (v : α) :
    List (Str × α) :=
  if m.any (fun e => e.1 = k) then
    m.map (fun e => if e.1 = k then (k, v) else e)
  else
    m ++ [(k, v)]

/-- Python truthiness of a string: non-empty. -/
def strTruthy (s : Str) : Bool := !s.isEmpty

/-- Python `int()` applied to a rational: truncation toward zero
(`Int.tdiv` on the reduced numerator and denominator). -/
def pyInt (q : ℚ) : Int := q.num.tdiv q.den

/-- Decimal rendering of a non-negative integer (used for header
values such as `Retry-After`). -/
def natToStr (n : Nat) : Str := strOf (toString n)

/-- Decimal rendering of an integer. -/
def intToStr (n : Int) : Str := strOf (toString n)

/-! ### Secure token codec (`thor/cookies.py`) and the application
secret-key check (`thor/app.py`) -/

/-- State built by `SecureCookie.__init__`: the constructor only stores
the UTF-8 encoded key and the hash algorithm; it performs no
validation of any kind (`cookies.py` lines 58-62). -/
structure SCState where
  secretKey : Str
  deriving Repr, DecidableEq

/-- `SecureCookie.__init__(secret_key)`: total — every key, of any
length, is accepted and stored. -/
def secureCookieInit (key : Str) : SCState := { secretKey := key }

/-- `SecureCookie.sign(value)` with the HMAC-SHA256 digest abstracted
as an explicit function argument `mac : key → message → digest` and the
wall-clock timestamp passed in: returns `"{ts}:{value}:{signature}"`
(`cookies.py` lines 64-69).  No key-length guard exists on this path. -/
def scSign (mac : Str → Str → Str) (st : SCState) (timestamp : Nat)
    (value : Str) : Str :=
  let valueWithTs := natToStr timestamp ++ [':'] ++ value
  valueWithTs ++ [':'] ++ mac st.secretKey valueWithTs

/-- The secret-key validation performed by `Thor.__init__`
(`app.py` lines 58-64): a provided key shorter than
`_MIN_SECRET_KEY_LENGTH = 16` characters raises `ValueError`. -/
def thorSecretKeyCheck (secretKey : Option Str) : Except Str (Option Str) :=
  match secretKey with
  | some s =>
    if s.length < 16 then
      .error (strOf "secret_key must be at least 16 characters")
    else .ok (some s)
  | none => .ok none

/-! ### Rate limiter (`thor/middleware/ratelimit.py`) -/

/-- Configuration of `RateLimitMiddleware.__init__`. -/
structure RLConfig where
  maxRequests : Nat
  windowSeconds : Nat
  deriving Repr, DecidableEq

/-- Body of the 429 JSON response: the three fields of the `content`
dict, in construction order. -/
structure RLRejectBody where
  errorMsg : Str
  statusCodeField : Nat
  retryAfter : Int
  deriving Repr, DecidableEq

/-- Result of one `RateLimitMiddleware.process` call. -/
inductive RLOutcome where
  /-- Short-circuit 429: the response content, its status and the
  explicit `Retry-After` header; downstream is not invoked. -/
  | reject (body : RLRejectBody) (status : Nat) (headers : List (Str × Str))
  /-- Downstream invoked; the new timestamp list stored for the client
  and the three `X-RateLimit-*` header values injected on start. -/
  | forward (newTimestamps : List ℚ) (limit remaining reset : Nat)
  /-- `timestamps[0]` on an empty list: `IndexError` (reachable only
  when `max_requests = 0`). -/
  | indexError
  deriving Repr, DecidableEq

/-- `RateLimitMiddleware.process` (`ratelimit.py` lines 41-91), with
`time.monotonic()` passed in as `now` and the per-client map as
explicit state.  Timestamps are rationals (Python floats carry no
claim-relevant rounding here). -/
def rlProcess (cfg : RLConfig) (stored : List ℚ) (now : ℚ) : RLOutcome :=
  let windowStart := now - (cfg.windowSeconds : ℚ)
  let timestamps := stored.filter (fun t => windowStart < t)
  if cfg.maxRequests ≤ timestamps.length then
    match timestamps.head? with
    | none => .indexError
    | some oldest =>
      let retryAfter := pyInt ((cfg.windowSeconds : ℚ) - (now - oldest)) + 1
      .reject
        { errorMsg := strOf "Too Many Requests"
          statusCodeField := 429
          retryAfter := retryAfter }
        429
        [(strOf "Retry-After", intToStr retryAfter)]
  else
    let newTs := timestamps ++ [now]
    .forward newTs cfg.maxRequests (cfg.maxRequests - newTs.length)
      cfg.windowSeconds

/-! ### Request body reading (`thor/request.py`, `Request.body`) -/

/-- One ASGI `http.request` message: `message.get("body", b"")` and
`message.get("more_body", False)`.  Bytes are naturals. -/
structure BodyMsg where
  body : List Nat
  moreBody : Bool
  deriving Repr, DecidableEq

/-- Result of `Request.body()`. `tooLarge k` records that the
`PayloadTooLarge` exception was raised after `k` calls to `receive`;
`ok b k` returns the complete body after `k` calls; `starved` marks a
message stream that ended while `more_body` was still true (the Python
coroutine would block in `receive()` forever). -/
inductive BodyResult where
  | tooLarge (consumed : Nat)
  | ok (body : List Nat) (consumed : Nat)
  | starved
  deriving Repr, DecidableEq

/-- The `while True` receive loop of `Request.body`
(`request.py` lines 161-181): skip falsy chunks, add the chunk length
to the running total, raise as soon as the total exceeds a positive
cap, append the chunk, and stop at the first message without
`more_body`. -/
def readLoop (cap : Nat) : Nat → List (List Nat) → Nat → List BodyMsg →
    BodyResult
  | _, _, _, [] => .starved
  | total, acc, consumed, m :: rest =>
    let consumed' := consumed + 1
    if m.body.isEmpty then
      if m.moreBody then readLoop cap total acc consumed' rest
      else .ok acc.flatten consumed'
    else
      let total' := total + m.body.length
      if 0 < cap ∧ cap < total' then .tooLarge consumed'
      else
        let acc' := acc ++ [m.body]
        if m.moreBody then readLoop cap total' acc' consumed' rest
        else .ok acc'.flatten consumed'

/-- `Request.body()` on a fresh request (`request.py` lines 135-181):
the early `Content-Length` rejection happens before any `receive`
call, then the chunk loop runs. -/
def requestBody (cap : Nat) (contentLength : Option Nat)
    (msgs : List BodyMsg) : BodyResult :=
  match contentLength with
  | some cl =>
    if 0 < cap ∧ cap < cl then .tooLarge 0
    else readLoop cap 0 [] 0 msgs
  | none => readLoop cap 0 [] 0 msgs

/-- The messages actually consumed by a complete read: everything up to
and including the first message with `more_body = false`. -/
def effectiveMsgs : List BodyMsg → List BodyMsg
  | [] => []
  | m :: rest => if m.moreBody then m :: effectiveMsgs rest else [m]

/-- Total number of body bytes in a message list. -/
def chunkSum (msgs : List BodyMsg) : Nat :=
  (msgs.map (fun m => m.body.length)).sum

/-- Whether some message terminates the stream (`more_body = false`). -/
def hasTerminator (msgs : List BodyMsg) : Bool :=
  msgs.any (fun m => !m.moreBody)

/-- The concatenated full body of a terminated stream. -/
def fullBody (msgs : List BodyMsg) : List Nat :=
  ((effectiveMsgs msgs).map (·.body)).flatten

/-! ### Lifespan protocol handler (`thor/lifespan.py`) -/

/-- Messages received on the lifespan channel. -/
inductive LsMsg where
  | startup
  | shutdown
  deriving Repr, DecidableEq

/-- Observable events of `LifespanProtocolHandler._handle_lifespan`,
in execution order. -/
inductive LsEvent where
  | ranStartupHandler (i : Nat)
  | ranShutdownHandler (i : Nat)
  | sentStartupComplete
  | markedShuttingDown
  | drained
  | sentShutdownComplete
  deriving Repr, DecidableEq

/-- The message loop body of `_handle_lifespan`
(`lifespan.py` lines 193-217): acknowledges `lifespan.startup`,
and on `lifespan.shutdown` sets `shutting_down`, drains in-flight
requests (up to the timeout), sends `lifespan.shutdown.complete` and
returns out of the loop.  Returns the events plus whether the loop
(and hence the surrounding `async with`) exited. -/
def lsLoop : List LsMsg → List LsEvent × Bool
  | [] => ([], false)
  | .startup :: rest =>
    let (evs, done) := lsLoop rest
    (.sentStartupComplete :: evs, done)
  | .shutdown :: _ =>
    ([.markedShuttingDown, .drained, .sentShutdownComplete], true)

/-- `_handle_lifespan` under the default `Lifespan` (no context
manager, `lifespan.py` lines 121-133 and 185-217): entering
`async with self._lifespan(self.state)` runs the startup handlers in
registration order; the shutdown handlers run in reverse order when
the `with` block exits, i.e. only after the loop has returned.
Handlers are identified by their registration index. -/
def handleLifespan (nStartup nShutdown : Nat) (msgs : List LsMsg) :
    List LsEvent :=
  let (loopEvs, done) := lsLoop msgs
  (List.range nStartup).map .ranStartupHandler ++ loopEvs ++
    (if done then ((List.range nShutdown).reverse).map .ranShutdownHandler
     else [])

/-! ### String helpers shared by the cookie and CSRF models -/

/-- Python `str.isspace` characters relevant to header parsing. -/
def pyIsSpace (c : Char) : Bool :=
  c = ' ' || c = '\t' || c = '\n' || c = '\r' ||
    c.toNat = 11 || c.toNat = 12

/-- Python `str.strip()`. -/
def stripWs (s : Str) : Str :=
  ((s.dropWhile pyIsSpace).reverse.dropWhile pyIsSpace).reverse

/-- Python `str.lower()` restricted to ASCII (HTTP header names). -/
def lowerStr (s : Str) : Str := s.map Char.toLower

/-- Python `str.partition(sep)` for a one-character separator,
returning the pieces before and after the first occurrence. -/
def splitFirst (c : Char) (s : Str) : Str × Str :=
  (s.takeWhile (· ≠ c), (s.dropWhile (· ≠ c)).drop 1)

/-- Python `needle in haystack` on strings. -/
def strContainsSub (needle hay : Str) : Bool :=
  (List.range (hay.length + 1)).any fun i => needle.isPrefixOf (hay.drop i)

/-- Capitalize as in Python `str.capitalize()` (ASCII). -/
def capitalizeStr : Str → Str
  | [] => []
  | c :: rest => c.toUpper :: rest.map Char.toLower

/-- Hexadecimal digit value, if any. -/
def hexVal (c : Char) : Option Nat :=
  if '0' ≤ c ∧ c ≤ '9' then some (c.toNat - '0'.toNat)
  else if 'a' ≤ c ∧ c ≤ 'f' then some (c.toNat - 'a'.toNat + 10)
  else if 'A' ≤ c ∧ c ≤ 'F' then some (c.toNat - 'A'.toNat + 10)
  else none

/-- `urllib.parse.unquote` restricted to single-byte escapes: decode
`%hh` pairs, leave malformed escapes untouched. -/
def pctDecode : Str → Str
  | [] => []
  | '%' :: a :: b :: rest =>
    match hexVal a, hexVal b with
    | some ha, some hb => Char.ofNat (ha * 16 + hb) :: pctDecode rest
    | _, _ => '%' :: pctDecode (a :: b :: rest)
  | c :: rest => c :: pctDecode rest

/-- `unquote(s.replace('+', ' '))` as used by `parse_qs`. -/
def unquotePlus (s : Str) : Str :=
  pctDecode (s.map fun c => if c = '+' then ' ' else c)

/-! ### Cookie codec (`thor/cookies.py`) -/

/-- `parse_cookies` (`cookies.py` lines 140-153): split the header on
`;`, keep items containing `=`, take the first `=`, strip both
sides. -/
def parseCookies (header : Str) : List (Str × Str) :=
  if header.isEmpty then []
  else
    (splitOnChar ';' header).foldl
      (fun m item0 =>
        let item := stripWs item0
        if item.contains '=' then
          let (k, v) := splitFirst '=' item
          dictSet m (stripWs k) (stripWs v)
        else m)
      []

/-- `CookieOptions` (`cookies.py` lines 16-26). -/
structure CookieOpts where
  maxAge : Option Int := none
  expires : Option Str := none
  path : Str := strOf "/"
  domain : Option Str := none
  secure : Bool := true
  httponly : Bool := true
  samesite : Str := strOf "lax"
  deriving Repr, DecidableEq

/-- `CookieOptions.to_header_string` (`cookies.py` lines 28-47):
attribute parts in source order, joined by `"; "`. -/
def cookieOptsHeaderStr (o : CookieOpts) : Str :=
  let parts : List Str :=
    (match o.maxAge with
     | some n => [strOf "Max-Age=" ++ intToStr n]
     | none => []) ++
    (match o.expires with
     | some e => if strTruthy e then [strOf "Expires=" ++ e] else []
     | none => []) ++
    (if strTruthy o.path then [strOf "Path=" ++ o.path] else []) ++
    (match o.domain with
     | some d => if strTruthy d then [strOf "Domain=" ++ d] else []
     | none => []) ++
    (if o.secure then [strOf "Secure"] else []) ++
    (if o.httponly then [strOf "HttpOnly"] else []) ++
    (if strTruthy o.samesite then
      [strOf "SameSite=" ++ capitalizeStr o.samesite] else [])
  List.intercalate (strOf "; ") parts

/-- `format_set_cookie` (`cookies.py` lines 156-169). -/
def formatSetCookie (name value : Str) (opts : CookieOpts) : Str :=
  let cookie := name ++ ['='] ++ value
  let optsStr := cookieOptsHeaderStr opts
  if strTruthy optsStr then cookie ++ strOf "; " ++ optsStr else cookie

/-! ### Request accessors used by the CSRF middleware
(`thor/request.py`) -/

/-- A JSON-able leaf value appearing in response bodies. -/
inductive JVal where
  | jstr (s : Str)
  | jint (n : Int)
  deriving Repr, DecidableEq

/-- A `Response` as constructed by middleware short-circuits: content
object, status code, extra headers and pending cookies
(`response.py` lines 25-34 and 138-152). -/
structure PyResp where
  content : List (Str × JVal)
  status : Nat
  headers : List (Str × Str) := []
  cookies : List Str := []
  deriving Repr, DecidableEq

/-- `Response._build_headers` (`response.py` lines 79-94) for a JSON
response: content-type (with charset, since the media type contains
"json"), then custom headers lowercased, then one `set-cookie` entry
per pending cookie. -/
def respBuildHeaders (r : PyResp) : List (Str × Str) :=
  (strOf "content-type", strOf "application/json; charset=utf-8") ::
    (r.headers.map fun e => (lowerStr e.1, e.2)) ++
    (r.cookies.map fun c => (strOf "set-cookie", c))

/-- A form value as returned by `Request.form`: a single string when
the field occurred once, a list otherwise. -/
inductive FormVal where
  | single (s : Str)
  | multi (vs : List Str)
  deriving Repr, DecidableEq

/-- The inbound request data consulted by the CSRF middleware.
`multipartFields` stands for what the multipart parser would return
for this body — the CSRF claims never reach that parser, so its
output is carried as data rather than recomputed. -/
structure CsrfReq where
  method : Str
  path : Str
  rawHeaders : List (Str × Str)
  body : Str
  multipartFields : List (Str × FormVal) := []
  deriving Repr, DecidableEq

/-- `Request.headers` (`request.py` lines 69-80): a dict built from
the raw header pairs with lowercased names (later pairs overwrite). -/
def reqHeaders (req : CsrfReq) : List (Str × Str) :=
  req.rawHeaders.foldl (fun m e => dictSet m (lowerStr e.1) e.2) []

/-- `Request.get_header(name)` (`request.py` lines 244-246). -/
def reqGetHeader (req : CsrfReq) (name : Str) : Option Str :=
  dictGet (reqHeaders req) (lowerStr name)

/-- `Request.content_type` (`request.py` lines 88-91). -/
def reqContentType (req : CsrfReq) : Str :=
  (reqGetHeader req (strOf "content-type")).getD []

/-- `Request.get_cookie(name)` (`request.py` lines 82-86, 255-257). -/
def reqGetCookie (req : CsrfReq) (name : Str) : Option Str :=
  dictGet (parseCookies ((reqGetHeader req (strOf "cookie")).getD []))
    name

/-- `urllib.parse.parse_qs(body, keep_blank_values=True)`: split on
`&`, skip empty items, split each on the first `=` (missing `=` gives
a blank value), percent-decode with `+` as space, and aggregate
repeated names in first-occurrence order. -/
def parseQs (s : Str) : List (Str × List Str) :=
  (splitOnChar '&' s).foldl
    (fun acc item =>
      if item.isEmpty then acc
      else
        let (k0, v0) :=
          if item.contains '=' then splitFirst '=' item else (item, [])
        let k := unquotePlus k0
        let v := unquotePlus v0
        if acc.any (fun e => e.1 = k) then
          acc.map (fun e => if e.1 = k then (e.1, e.2 ++ [v]) else e)
        else acc ++ [(k, [v])])
    []

/-- `Request.form` (`request.py` lines 193-209): multipart bodies go
to the multipart parser, everything else is URL-decoded; single-value
fields collapse to plain strings. -/
def reqForm (req : CsrfReq) : List (Str × FormVal) :=
  if strContainsSub (strOf "multipart/form-data") (reqContentType req) then
    req.multipartFields
  else
    (parseQs req.body).map fun e =>
      match e.2 with
      | [v] => (e.1, .single v)
      | vs => (e.1, .multi vs)

/-! ### CSRF middleware (`thor/middleware/csrf.py`) -/

/-- The safe-method set `SAFE_METHODS` (`csrf.py` line 15). -/
def csrfSafeMethods : List Str :=
  [strOf "GET", strOf "HEAD", strOf "OPTIONS", strOf "TRACE"]

/-- Configuration stored by `CSRFMiddleware.__init__`
(`csrf.py` lines 45-71). -/
structure CsrfCfg where
  secretKey : Str
  cookieName : Str := strOf "thor_csrf"
  headerName : Str := strOf "x-csrf-token"
  formField : Str := strOf "_csrf_token"
  tokenLength : Nat := 32
  safeMethods : List Str := csrfSafeMethods
  excludePaths : List Str := []
  deriving Repr, DecidableEq

/-- The cookie options used for the CSRF cookie: JS-readable
(`csrf.py` lines 65-71). -/
def csrfCookieOpts : CookieOpts :=
  { httponly := false, samesite := strOf "lax", secure := true,
    path := strOf "/" }

/-- `CSRFMiddleware._tokens_match` (`csrf.py` lines 133-136):
`hmac.compare_digest` of the UTF-8 encodings, i.e. string equality
(the constant-time aspect is a timing property outside the
embedding). -/
def tokensMatch (expected submitted : Str) : Bool :=
  expected = submitted

/-- `CSRFMiddleware._get_form_token` (`csrf.py` lines 138-147): only
URL-encoded bodies are consulted, and the field read is the module
constant `DEFAULT_FORM_FIELD = "_csrf_token"` — not the configured
`form_field`. -/
def getFormToken (req : CsrfReq) : Option Str :=
  if strContainsSub (strOf "application/x-www-form-urlencoded")
      (reqContentType req) then
    match (reqForm req).find? (fun e => e.1 = strOf "_csrf_token") with
    | some (_, .single s) => some s
    | some (_, .multi vs) => vs.head?
    | none => none
  else none

/-- The cookie token the middleware validates against
(`csrf.py` lines 89-92): the request's CSRF cookie if truthy,
otherwise a freshly generated token (the `secrets.token_urlsafe` draw
is passed in as `freshTok`). -/
def cookieTokenOf (cfg : CsrfCfg) (freshTok : Str) (req : CsrfReq) : Str :=
  match reqGetCookie req cfg.cookieName with
  | some t => if strTruthy t then t else freshTok
  | none => freshTok

/-- The submitted token (`csrf.py` lines 99-101): the header value if
truthy, otherwise the form fallback. -/
def submittedTokenOf (cfg : CsrfCfg) (req : CsrfReq) : Option Str :=
  match reqGetHeader req cfg.headerName with
  | some h => if strTruthy h then some h else getFormToken req
  | none => getFormToken req

/-- The 403 response built on validation failure
(`csrf.py` lines 106-112). -/
def csrf403Resp : PyResp :=
  { content :=
      [(strOf "error", .jstr (strOf "CSRF token missing or invalid")),
       (strOf "status_code", .jint 403)]
    status := 403 }

/-- Result of one `CSRFMiddleware.process` call. -/
inductive CsrfOutcome where
  /-- Excluded path: downstream invoked with the original `send`. -/
  | passUnchecked
  /-- Downstream invoked with `send` wrapped by `send_with_csrf`;
  `csrfToken` is the token exposed on the scope and refreshed on the
  response. -/
  | pass (csrfToken : Str)
  /-- Validation failed: the 403 response is sent with the original
  `send` and downstream is never invoked. -/
  | reject (resp : PyResp)
  deriving Repr, DecidableEq

/-- `CSRFMiddleware.process` (`csrf.py` lines 77-131). -/
def csrfProcess (cfg : CsrfCfg) (freshTok : Str) (req : CsrfReq) :
    CsrfOutcome :=
  if cfg.excludePaths.any (fun p => p.isPrefixOf req.path) then
    .passUnchecked
  else
    let tok := cookieTokenOf cfg freshTok req
    if req.method ∈ cfg.safeMethods then .pass tok
    else
      match submittedTokenOf cfg req with
      | none => .reject csrf403Resp
      | some s =>
        if !strTruthy s then .reject csrf403Resp
        else if tokensMatch tok s then .pass tok
        else .reject csrf403Resp

/-- The headers of the single `http.response.start` message that
reaches the server for one request processed by the CSRF middleware:
short-circuit responses are sent through the original `send`
(`csrf.py` line 113), while downstream responses pass through
`send_with_csrf`, which appends the `Set-Cookie` header
(`csrf.py` lines 117-128). -/
def csrfStartHeaders (cfg : CsrfCfg) (freshTok : Str) (req : CsrfReq)
    (downstreamHeaders : List (Str × Str)) : List (Str × Str) :=
  match csrfProcess cfg freshTok req with
  | .passUnchecked => downstreamHeaders
  | .pass tok =>
    downstreamHeaders ++
      [(strOf "set-cookie", formatSetCookie cfg.cookieName tok csrfCookieOpts)]
  | .reject resp => respBuildHeaders resp

/-! ### Routing (`thor/routing.py`) -/

/-- The parameter types of `TYPE_PATTERNS` (`routing.py` lines 22-28). -/
inductive PatId where
  | pInt
  | pStr
  | pPath
  | pUuid
  | pSlug
  deriving Repr, DecidableEq

/-- `TYPE_PATTERNS` key lookup. -/
def typeIdOf (s : Str) : Option PatId :=
  if s = strOf "int" then some .pInt
  else if s = strOf "str" then some .pStr
  else if s = strOf "path" then some .pPath
  else if s = strOf "uuid" then some .pUuid
  else if s = strOf "slug" then some .pSlug
  else none

/-- ASCII decimal digit (the embedding of `\d`; Python's Unicode
digits are outside the model's scope). -/
def isAsciiDigit (c : Char) : Bool := '0' ≤ c && c ≤ '9'

/-- Hexadecimal digit, as in the uuid pattern's `[0-9a-fA-F]`. -/
def isHexDigitChar (c : Char) : Bool := (hexVal c).isSome

/-- A `[a-z0-9]` character of the slug pattern. -/
def isSlugChar (c : Char) : Bool :=
  ('a' ≤ c && c ≤ 'z') || isAsciiDigit c

/-- Language of the slug regex `[a-z0-9]+(?:-[a-z0-9]+)*`: nonempty
`[a-z0-9]` runs joined by single dashes. -/
def slugMatch (s : Str) : Bool :=
  !s.isEmpty &&
    (splitOnChar '-' s).all fun g => !g.isEmpty && g.all isSlugChar

/-- Language of the uuid regex: hex groups of sizes 8-4-4-4-12 joined
by dashes. -/
def uuidMatch (s : Str) : Bool :=
  let gs := splitOnChar '-' s
  gs.map List.length = [8, 4, 4, 4, 12] &&
    gs.all (fun g => g.all isHexDigitChar)

/-- Full-string membership in each `TYPE_PATTERNS` regex:
`int` = `\d+`, `str` = `[^/]+`, `path` = `.+` (`.` excludes the
newline), `uuid` and `slug` as above. -/
def typeMatch : PatId → Str → Bool
  | .pInt, s => !s.isEmpty && s.all isAsciiDigit
  | .pStr, s => !s.isEmpty && s.all (· ≠ '/')
  | .pPath, s => !s.isEmpty && s.all (· ≠ '\n')
  | .pUuid, s => uuidMatch s
  | .pSlug, s => slugMatch s

/-- Converted parameter value: `TYPE_CONVERTERS` sends `int` to the
integer value, every other type to the string itself
(`routing.py` lines 31-37). -/
inductive PVal where
  | pvInt (n : Nat)
  | pvStr (s : Str)
  deriving Repr, DecidableEq

/-- `int()` on a string of decimal digits. -/
def digitsToNat (s : Str) : Nat :=
  s.foldl (fun a c => a * 10 + (c.toNat - '0'.toNat)) 0

/-- Apply the type's converter (total here because every argument has
already matched the type's regex, so `int()` cannot fail). -/
def convertVal (t : PatId) (s : Str) : PVal :=
  match t with
  | .pInt => .pvInt (digitsToNat s)
  | _ => .pvStr s

/-- A `\w` character (ASCII scope). -/
def isWordChar (c : Char) : Bool :=
  c.isAlpha || isAsciiDigit c || c = '_'

/-- `PATH_PARAM_PATTERN.fullmatch(segment)` for the template pattern
`\{(\w+)(?::(\w+))?\}` (`routing.py` line 19): returns the parameter
name and the optional type annotation. -/
def parseParamSeg (s : Str) : Option (Str × Option Str) :=
  match s with
  | '{' :: rest =>
    let name := rest.takeWhile isWordChar
    if name.isEmpty then none
    else
      match rest.dropWhile isWordChar with
      | ['}'] => some (name, none)
      | ':' :: rest2 =>
        let ty := rest2.takeWhile isWordChar
        if ty.isEmpty then none
        else
          match rest2.dropWhile isWordChar with
          | ['}'] => some (name, some ty)
          | _ => none
      | _ => none
  | _ => none

/-- `RadixTree._is_param` (`routing.py` lines 230-232):
`segment.startswith("{") and segment.endswith("}")`. -/
def isParamSeg (s : Str) : Bool :=
  match s with
  | [] => false
  | c :: _ => c = '{' && s.getLast? = some '}'

/-- `RadixTree._split` (`routing.py` lines 225-228): split on `/` and
drop the empty fields. -/
def splitSegs (p : Str) : List Str :=
  (splitOnChar '/' p).filter (fun s => !s.isEmpty)

/-- A registered `Route` (`routing.py` lines 40-53): the handler is
identified by a number, the compiled pattern and parameter types are
recomputed from `path` where needed. -/
structure MRoute where
  path : Str
  methods : List Str
  handlerId : Nat
  name : Option Str := none
  deriving Repr, DecidableEq

/-- One element of the compiled route pattern: a literal character or
a named capturing group of the given type. -/
inductive RTok where
  | lit (c : Char)
  | grp (name : Str) (t : PatId)
  deriving Repr, DecidableEq

/-- The leftmost-match scan of `PATH_PARAM_PATTERN.sub` inside
`Route._compile_pattern` (`routing.py` lines 59-76): parameter
references become groups, every other character stays literal, and an
unknown parameter type aborts compilation (`RoutingError`).  The
result is `none` exactly when `Route.__post_init__` would raise, so a
`Route` with such a path never exists. -/
def compileAuxF : Nat → Str → Option (List RTok)
  | _, [] => some []
  | 0, _ :: _ => none
  | fuel + 1, '{' :: rest =>
    if (rest.takeWhile isWordChar).isEmpty then
      (compileAuxF fuel rest).map (.lit '{' :: ·)
    else
      match rest.dropWhile isWordChar with
      | '}' :: rem =>
        (compileAuxF fuel rem).map
          (.grp (rest.takeWhile isWordChar) .pStr :: ·)
      | ':' :: rest2 =>
        if (rest2.takeWhile isWordChar).isEmpty then
          (compileAuxF fuel rest).map (.lit '{' :: ·)
        else
          match rest2.dropWhile isWordChar with
          | '}' :: rem2 =>
            match typeIdOf (rest2.takeWhile isWordChar) with
            | some t =>
              (compileAuxF fuel rem2).map
                (.grp (rest.takeWhile isWordChar) t :: ·)
            | none => none
          | _ => (compileAuxF fuel rest).map (.lit '{' :: ·)
      | _ => (compileAuxF fuel rest).map (.lit '{' :: ·)
  | fuel + 1, c :: rest => (compileAuxF fuel rest).map (.lit c :: ·)

/-- The substitution scan, with enough fuel for the whole string (each
step consumes at least one character, so `s.length` suffices; the
zero-fuel branch is unreachable). -/
def compileAux (s : Str) : Option (List RTok) :=
  compileAuxF s.length s

/-- The group names of a compiled pattern, in definition order. -/
def tokNames (toks : List RTok) : List Str :=
  toks.filterMap fun t =>
    match t with
    | .grp n _ => some n
    | .lit _ => none

/-- Full compilation of a route path: the scan above plus the
duplicate-group-name check that `re.compile` performs (a duplicate
`(?P<name>…)` raises, so such a `Route` never exists either). -/
def compileToks (p : Str) : Option (List RTok) :=
  (compileAux p).bind fun toks =>
    if (tokNames toks).Nodup then some toks else none

/-- Greedy anchored matching of a compiled pattern against a string:
a group tries the longest type-matching prefix first (Python's greedy
quantifiers), and each capture records name, type and matched text. -/
def matchToks : List RTok → Str → Option (List (Str × PatId × Str))
  | [], cs => if cs.isEmpty then some [] else none
  | .lit c :: ts, cs =>
    match cs with
    | [] => none
    | d :: ds => if d = c then matchToks ts ds else none
  | .grp name t :: ts, cs =>
    ((List.range (cs.length + 1)).reverse).findSome? fun k =>
      let pre := cs.take k
      if typeMatch t pre then
        (matchToks ts (cs.drop k)).map ((name, t, pre) :: ·)
      else none

/-- `pattern.match` on the anchored pattern `^…$`: Python's `$` also
matches just before one final newline. -/
def matchFullPy (toks : List RTok) (p : Str) :
    Option (List (Str × PatId × Str)) :=
  match matchToks toks p with
  | some caps => some caps
  | none =>
    if p.getLast? = some '\n' then matchToks toks p.dropLast else none

/-- `Route.match` (`routing.py` lines 78-99): match the compiled
pattern, then convert each named capture by its parameter type. -/
def routeMatch (r : MRoute) (p : Str) : Option (List (Str × PVal)) :=
  match compileToks r.path with
  | none => none
  | some toks =>
    (matchFullPy toks p).map fun caps =>
      caps.map fun cap => (cap.1, convertVal cap.2.1 cap.2.2)

/-- `_RadixNode` (`routing.py` lines 107-119): static children are an
insertion-ordered dict keyed by the segment, plus at most one
parametric child and the terminal routes. -/
inductive RNode where
  | node (segment : Str) (children : List (Str × RNode))
      (paramChild : Option RNode) (routes : List MRoute)

/-- The node's path segment. -/
def RNode.segment : RNode → Str
  | .node s _ _ _ => s

/-- The node's static children. -/
def RNode.children : RNode → List (Str × RNode)
  | .node _ c _ _ => c

/-- The node's parametric child. -/
def RNode.paramChild : RNode → Option RNode
  | .node _ _ p _ => p

/-- The routes terminating at this node. -/
def RNode.routes : RNode → List MRoute
  | .node _ _ _ r => r

/-- `_RadixNode(segment)`: a fresh node. -/
def RNode.empty (seg : Str) : RNode := .node seg [] none []

/-- `RadixTree.insert` walking a segment list
(`routing.py` lines 141-156). -/
def insertNode : RNode → List Str → MRoute → RNode
  | .node sg ch pc rts, [], r => .node sg ch pc (rts ++ [r])
  | .node sg ch pc rts, seg :: rest, r =>
    if isParamSeg seg then
      let child := pc.getD (RNode.empty seg)
      .node sg ch (some (insertNode child rest r)) rts
    else
      match ch.find? (fun e => e.1 = seg) with
      | some e =>
        let nc := insertNode e.2 rest r
        .node sg (ch.map fun e' => if e'.1 = seg then (seg, nc) else e')
          pc rts
      | none =>
        .node sg (ch ++ [(seg, insertNode (RNode.empty seg) rest r)]) pc rts

/-- `RadixTree.insert(route)`. -/
def treeInsert (root : RNode) (r : MRoute) : RNode :=
  insertNode root (splitSegs r.path) r

/-- `Router._rebuild_tree` / a fresh `RadixTree` populated by a list
of routes in registration order. -/
def buildTree (routes : List MRoute) : RNode :=
  routes.foldl treeInsert (RNode.empty [])

/-- Result of `RadixTree.search`: success, or one of the two failure
exceptions. -/
inductive SearchOutcome where
  | found (r : MRoute) (params : List (Str × PVal))
  | methodNotAllowed
  | notFound
  deriving Repr, DecidableEq

/-- The scan of a node's terminal routes (`routing.py` lines 180-186):
the first route whose method set contains the request method wins;
otherwise `method_matched_route` keeps its first non-`None` value. -/
def scanRoutes (method : Str) (params : List (Str × PVal)) :
    List MRoute → Option MRoute →
    Except (Option MRoute) (MRoute × List (Str × PVal))
  | [], acc => .error acc
  | r :: rest, acc =>
    if method ∈ r.methods then .ok (r, params)
    else scanRoutes method params rest (acc <|> some r)

/-- The depth-first exploration of `RadixTree.search`
(`routing.py` lines 162-219), written recursively: the source pushes
the parametric branch before the static branch onto an explicit LIFO
stack, so the static branch (and its whole subtree) is explored
first, then the parametric branch.  The threaded
`method_matched_route` accumulator travels in exploration order; a
`.ok` result aborts the walk exactly like the source's `return`. -/
def searchRec (method : Str) : RNode → List Str → List (Str × PVal) →
    Option MRoute → Except (Option MRoute) (MRoute × List (Str × PVal))
  | nd, [], params, acc => scanRoutes method params nd.routes acc
  | nd, seg :: rest, params, acc =>
    let afterStatic :=
      match nd.children.find? (fun e => e.1 = seg) with
      | some e => searchRec method e.2 rest params acc
      | none => .error acc
    match afterStatic with
    | .ok res => .ok res
    | .error acc' =>
      match nd.paramChild with
      | none => .error acc'
      | some pnode =>
        match parseParamSeg pnode.segment with
        | none => .error acc'
        | some (pname, oty) =>
          let t := (typeIdOf (oty.getD (strOf "str"))).getD .pStr
          if typeMatch t seg then
            searchRec method pnode rest
              (dictSet params pname (convertVal t seg)) acc'
          else .error acc'

/-- `RadixTree.search(path, method)`. -/
def searchTree (root : RNode) (path method : Str) : SearchOutcome :=
  match searchRec method root (splitSegs path) [] none with
  | .ok (r, params) => .found r params
  | .error (some _) => .methodNotAllowed
  | .error none => .notFound

/-! ### The linear-scan specification of route resolution

The specification resolves a request by scanning the registered
routes with `Route.match`, visiting static alternatives before
parametric ones (position by position) and earlier registrations
before later ones on equal shapes. -/

/-- The static/parametric shape of a route's template (one flag per
segment, `true` = parametric). -/
def segKinds (r : MRoute) : List Bool :=
  (splitSegs r.path).map isParamSeg

/-- All linear-scan matches of a path: registration index, route and
extracted parameters. -/
def matchCandidates (routes : List MRoute) (path : Str) :
    List (Nat × MRoute × List (Str × PVal)) :=
  routes.enum.filterMap fun p =>
    (routeMatch p.2 path).map fun ps => (p.1, p.2, ps)

/-- Lexicographic order on shapes: static (`false`) before parametric
(`true`), a shorter shape before its extensions. -/
def kindsLt : List Bool → List Bool → Bool
  | [], [] => false
  | [], _ :: _ => true
  | _ :: _, [] => false
  | a :: as, b :: bs => (!a && b) || (a == b && kindsLt as bs)

/-- The scan order of the specification: shape order first,
registration order on ties. -/
def candLt (x y : Nat × MRoute × List (Str × PVal)) : Bool :=
  kindsLt (segKinds x.2.1) (segKinds y.2.1) ||
    (segKinds x.2.1 == segKinds y.2.1 && x.1 < y.1)

/-- Insert into a sorted list (insertion sort step). -/
def insSorted {α : Type} (lt : α → α → Bool) (x : α) : List α → List α
  | [] => [x]
  | y :: ys => if lt x y then x :: y :: ys else y :: insSorted lt x ys

/-- Insertion sort by a strict comparison. -/
def sortByLt {α : Type} (lt : α → α → Bool) (l : List α) : List α :=
  l.foldr (insSorted lt) []

/-- The linear-scan resolution of the specification: try every
registered route in specification order; the first whose pattern
matches the path and whose method set contains the method wins.  If
some route matched the path but none matched the method the result is
`method-not-allowed`, otherwise `not-found`. -/
def linearResolve (routes : List MRoute) (path method : Str) :
    SearchOutcome :=
  let cands := sortByLt candLt (matchCandidates routes path)
  match cands.find? (fun c => method ∈ c.2.1.methods) with
  | some c => .found c.2.1 c.2.2
  | none => if cands.isEmpty then .notFound else .methodNotAllowed

/-! ### Router registration (`Router`, `routing.py` lines 235-312) -/

/-- `str.rstrip("/")`. -/
def rstripSlash (s : Str) : Str :=
  (s.reverse.dropWhile (· = '/')).reverse

/-- A `Router`: path prefix, directly registered routes, included
sub-routers with their prefixes, the incremental radix tree and the
dirty flag. -/
inductive MRouter where
  | mk (pathPrefix : Str) (routes : List MRoute)
      (subrouters : List (Str × MRouter)) (tree : RNode) (dirty : Bool)

/-- The router's (r-stripped) prefix. -/
def MRouter.pathPrefix : MRouter → Str
  | .mk p _ _ _ _ => p

/-- The router's directly registered routes. -/
def MRouter.ownRoutes : MRouter → List MRoute
  | .mk _ r _ _ _ => r

/-- The router's included sub-routers. -/
def MRouter.subrouters : MRouter → List (Str × MRouter)
  | .mk _ _ s _ _ => s

/-- The router's incremental tree. -/
def MRouter.tree : MRouter → RNode
  | .mk _ _ _ t _ => t

/-- The router's dirty flag. -/
def MRouter.dirty : MRouter → Bool
  | .mk _ _ _ _ d => d

/-- `Router.__init__(prefix)` (`routing.py` lines 243-248). -/
def routerInit (pfx : Str) : MRouter :=
  .mk (rstripSlash pfx) [] [] (RNode.empty []) false

/-- `Router.add_route` (`routing.py` lines 267-287): build the route
from the prefixed path and uppercased methods, append it, insert it
into the tree, and unconditionally clear the dirty flag. -/
def routerAddRoute (rt : MRouter) (path : Str)
    (methods : Option (List Str)) (hid : Nat) : MRouter :=
  let fullPath :=
    if strTruthy rt.pathPrefix then rt.pathPrefix ++ path else path
  let methodsSet := (methods.getD [strOf "GET"]).map strUpper
  let r : MRoute := { path := fullPath, methods := methodsSet,
                      handlerId := hid }
  .mk rt.pathPrefix (rt.ownRoutes ++ [r]) rt.subrouters
    (treeInsert rt.tree r) false

/-- `Router.include_router` (`routing.py` lines 289-293): record the
sub-router under the combined prefix and mark the tree dirty. -/
def routerInclude (rt : MRouter) (sub : MRouter) (pfx : Str) : MRouter :=
  .mk rt.pathPrefix rt.ownRoutes
    (rt.subrouters ++ [(rt.pathPrefix ++ pfx, sub)]) rt.tree true

mutual
/-- `Router.routes` (`routing.py` lines 250-265): own routes followed
by every sub-router's routes re-based under the sub-router's prefix. -/
def MRouter.allRoutes : MRouter → List MRoute
  | .mk _ rts subs _ _ => rts ++ allRoutesSubs subs

/-- Flattening of the sub-router list, in registration order. -/
def allRoutesSubs : List (Str × MRouter) → List MRoute
  | [] => []
  | (pfx, sr) :: rest =>
    (MRouter.allRoutes sr).map (fun r => { r with path := pfx ++ r.path })
      ++ allRoutesSubs rest
end

/-- `Router.match` (`routing.py` lines 303-312): rebuild the tree from
the flattened route list when dirty, then search with the uppercased
method. -/
def routerMatch (rt : MRouter) (path method : Str) : SearchOutcome :=
  let t := if rt.dirty then buildTree rt.allRoutes else rt.tree
  searchTree t path (strUpper method)

/-! ### Fixtures and auxiliary definitions used in the theorems -/

/-- Literal text of a `{name}` / `{name:type}` template segment. -/
def pSegStr (name : Str) (ty : Option Str) : Str :=
  '{' ::
    (name ++ (match ty with | some t => ':' :: t | none => []) ++ ['}'])

/-- `_get_form_token`'s extraction generalized over the field name it
reads, for comparison with the configured `form_field`. -/
def formFieldLookup (req : CsrfReq) (fld : Str) : Option Str :=
  if strContainsSub (strOf "application/x-www-form-urlencoded")
      (reqContentType req) then
    match (reqForm req).find? (fun e => e.1 = fld) with
    | some (_, .single s) => some s
    | some (_, .multi vs) => vs.head?
    | none => none
  else none

/-- Fixture: a sub-router with one directly registered `GET /a`. -/
def subRouterEx : MRouter := routerAddRoute (routerInit []) (strOf "/a") none 1

/-- Fixture: a root router that includes `subRouterEx` and then
registers `GET /b` directly (the interleaving named by the claim). -/
def mainRouterEx : MRouter :=
  routerAddRoute (routerInclude (routerInit []) subRouterEx []) (strOf "/b")
    none 2

/-- Fixture: a CSRF middleware configuration with the default cookie,
header and form-field names. -/
def csrfCfgEx : CsrfCfg := { secretKey := strOf "csrf-test-secret-key-1234" }

/-- Fixture: a POST request carrying no CSRF cookie and no submitted
token. -/
def csrfReqNoTok : CsrfReq :=
  { method := strOf "POST", path := strOf "/submit", rawHeaders := [],
    body := [] }

/-- Fixture: a plain GET request. -/
def csrfReqGet : CsrfReq :=
  { method := strOf "GET", path := strOf "/page", rawHeaders := [],
    body := [] }

/-- Fixture: a static route `GET /a`. -/
def slashARoute : MRoute :=
  { path := strOf "/a", methods := [strOf "GET"], handlerId := 1 }

/-- Fixture: `GET /files/{p:path}` — a multi-segment-capable
parameter. -/
def filesPathRoute : MRoute :=
  { path := strOf "/files/" ++ pSegStr (strOf "p") (some (strOf "path")),
    methods := [strOf "GET"], handlerId := 2 }

/-- Fixture: `GET /{x:int}`. -/
def paramIntRoute : MRoute :=
  { path := '/' :: pSegStr (strOf "x") (some (strOf "int")),
    methods := [strOf "GET"], handlerId := 3 }

/-- Fixture: `GET /{y}`. -/
def paramStrRoute : MRoute :=
  { path := '/' :: pSegStr (strOf "y") none,
    methods := [strOf "GET"], handlerId := 4 }

/-! ### Normalization predicates and the alignment/DFS machinery for
the radix-tree/linear-scan equivalence -/

/-- A literal template segment: non-empty, no slash, no braces, no
newline. -/
def goodStaticSeg (s : Str) : Bool :=
  !s.isEmpty &&
    s.all fun c => c ≠ '/' && c ≠ '{' && c ≠ '}' && c ≠ '\n'

/-- A parameter template segment whose declared type is known and is
not the multi-segment `path` type. -/
def goodParamSeg (s : Str) : Bool :=
  match parseParamSeg s with
  | some (_, oty) =>
    match typeIdOf (oty.getD (strOf "str")) with
    | some .pPath => false
    | some _ => true
    | none => false
  | none => false

/-- A well-formed template segment. -/
def goodSeg (s : Str) : Bool := goodStaticSeg s || goodParamSeg s

/-- Rebuild a normalized path from its segments (`/` for the empty
segment list). -/
def pathOfSegs (segs : List Str) : Str :=
  if segs.isEmpty then strOf "/" else segs.flatMap fun s => '/' :: s

/-- The parameter names of a route template, in order. -/
def routeParamNames (r : MRoute) : List Str :=
  (splitSegs r.path).filterMap fun s => (parseParamSeg s).map (·.1)

/-- A normalized route template: well-formed slash-separated segments
that reconstruct the path, with pairwise distinct parameter names. -/
def normRouteB (r : MRoute) : Bool :=
  (splitSegs r.path).all goodSeg &&
  r.path == pathOfSegs (splitSegs r.path) &&
  decide (routeParamNames r).Nodup

/-- A normalized request path: slash-separated non-empty segments
that reconstruct the path, without newlines. -/
def normPathB (p : Str) : Bool :=
  p == pathOfSegs (splitSegs p) &&
  (splitSegs p).all fun s => s.all (· ≠ '\n')

/-- Two template segments make the same branching choice: both
parametric, or the same literal. -/
def branchEquivB (s t : Str) : Bool :=
  (isParamSeg s && isParamSeg t) || s == t

/-- Segment lists that descend to the same tree node. -/
def branchPrefixEquivB (a b : List Str) : Bool :=
  a.length == b.length && (a.zip b).all fun e => branchEquivB e.1 e.2

/-- Route sets whose templates agree on the parameter segment
whenever two routes reach the same tree position parametrically (the
radix tree keeps a single `param_child` whose segment is fixed by the
first insertion). -/
def paramConsistentB (routes : List MRoute) : Bool :=
  routes.all fun r1 => routes.all fun r2 =>
    let s1 := splitSegs r1.path
    let s2 := splitSegs r2.path
    (List.range (min s1.length s2.length)).all fun i =>
      !branchPrefixEquivB (s1.take i) (s2.take i) ||
      !isParamSeg (s1.getD i []) || !isParamSeg (s2.getD i []) ||
      s1.getD i [] == s2.getD i []

/-- Per-segment alignment of a template suffix against a path suffix,
accumulating converted parameters with Python-dict assignment. -/
def alignAcc : List Str → List Str → List (Str × PVal) →
    Option (List (Str × PVal))
  | [], [], params => some params
  | [], _ :: _, _ => none
  | _ :: _, [], _ => none
  | t :: ts, p :: ps, params =>
    match parseParamSeg t with
    | some (nm, oty) =>
      let tid := (typeIdOf (oty.getD (strOf "str"))).getD .pStr
      if typeMatch tid p then
        alignAcc ts ps (dictSet params nm (convertVal tid p))
      else none
    | none => if t = p then alignAcc ts ps params else none

/-- Raw per-segment alignment: the captures (name, type, text) a
successful anchored regex match produces, in group order. -/
def alignRaw : List Str → List Str → Option (List (Str × PatId × Str))
  | [], [] => some []
  | [], _ :: _ => none
  | _ :: _, [] => none
  | t :: ts, p :: ps =>
    match parseParamSeg t with
    | some (nm, oty) =>
      let tid := (typeIdOf (oty.getD (strOf "str"))).getD .pStr
      if typeMatch tid p then
        (alignRaw ts ps).map ((nm, tid, p) :: ·)
      else none
    | none => if t = p then alignRaw ts ps else none

/-- Tokens compiled for one template segment. -/
def segToks (s : Str) : List RTok :=
  match parseParamSeg s with
  | some (nm, oty) =>
    [.grp nm ((typeIdOf (oty.getD (strOf "str"))).getD .pStr)]
  | none => s.map .lit

/-- Tokens compiled for a nonempty normalized template. -/
def routeToks (segs : List Str) : List RTok :=
  segs.flatMap fun s => .lit '/' :: segToks s

/-- A pending insertion: registration index, route, and the template
segments still to be consumed below the current node. -/
abbrev PendEntry := Nat × MRoute × List Str

/-- Insert all pending entries below a base node, in order. -/
def foldIns (n : RNode) (P : List PendEntry) : RNode :=
  P.foldl (fun nd e => insertNode nd e.2.2 e.2.1) n

/-- The pending entries of a whole route list at the root. -/
def entriesOf (routes : List MRoute) : List PendEntry :=
  routes.enum.map fun p => (p.1, p.2, splitSegs p.2.path)

/-- The entries that descend into the static child keyed `seg`. -/
def stTails (P : List PendEntry) (seg : Str) : List PendEntry :=
  P.filterMap fun e =>
    match e.2.2 with
    | h :: t => if !isParamSeg h && h = seg then some (e.1, e.2.1, t)
                else none
    | [] => none

/-- The entries that descend into the parametric child. -/
def pmTails (P : List PendEntry) : List PendEntry :=
  P.filterMap fun e =>
    match e.2.2 with
    | h :: t => if isParamSeg h then some (e.1, e.2.1, t) else none
    | [] => none

/-- The parametric segment that names the parametric child: the first
parametric head among the pending entries (its string becomes the
child's `segment`). -/
def pmHead (P : List PendEntry) : Option Str :=
  P.findSome? fun e =>
    match e.2.2 with
    | h :: _ => if isParamSeg h then some h else none
    | [] => none

/-- The match candidates produced by the depth-first walk, in
exploration order: static subtree first, then the parametric
subtree. -/
def dfsCands : List PendEntry → List Str → List (Str × PVal) →
    List (Nat × MRoute × List (Str × PVal))
  | P, [], params =>
    (P.filter fun e => e.2.2.isEmpty).map fun e => (e.1, e.2.1, params)
  | P, seg :: rest, params =>
    dfsCands (stTails P seg) rest params ++
    (match pmHead P with
     | some h =>
       match parseParamSeg h with
       | some (pname, oty) =>
         let t := (typeIdOf (oty.getD (strOf "str"))).getD .pStr
         if typeMatch t seg then
           dfsCands (pmTails P) rest
             (dictSet params pname (convertVal t seg))
         else []
       | none => []
     | none => [])

/-- The scan of a candidate list: the first candidate whose method
set contains the method wins; otherwise the accumulator keeps the
first candidate's route. -/
def scanCands (method : Str) :
    List (Nat × MRoute × List (Str × PVal)) → Option MRoute →
    Except (Option MRoute) (MRoute × List (Str × PVal))
  | [], acc => .error acc
  | c :: rest, acc =>
    if method ∈ c.2.1.methods then .ok (c.2.1, c.2.2)
    else scanCands method rest (acc <|> some c.2.1)

/-- Suffix form of the parameter-consistency condition: whenever two
template suffixes are reached through branch-equivalent segment
prefixes and both continue parametrically, they continue with the same
parameter segment. -/
def tailsCons (a b : List Str) : Prop :=
  ∀ i, branchPrefixEquivB (a.take i) (b.take i) = true →
    isParamSeg (a.getD i []) = true → isParamSeg (b.getD i []) = true →
    a.getD i [] = b.getD i []

/-- The per-entry alignment candidates of a pending list, in pending
order. -/
def alignCands (P : List PendEntry) (psegs : List Str)
    (params : List (Str × PVal)) :
    List (Nat × MRoute × List (Str × PVal)) :=
  P.filterMap fun e =>
    (alignAcc e.2.2 psegs params).map fun ps => (e.1, e.2.1, ps)

/-! ## Theorems -/

/-- Python `int()` agrees with the floor on non-negative rationals. -/
theorem pyInt_eq_floor (q : ℚ) (h : 0 ≤ q) : pyInt q = ⌊q⌋ := by
  have hnum : 0 ≤ q.num := Rat.num_nonneg.mpr h
  have hden : (0 : ℤ) ≤ (q.den : ℤ) := Int.ofNat_nonneg q.den
  unfold pyInt
  rw [Int.tdiv_eq_ediv hnum hden]
  rw [← Rat.floor_intCast_div_natCast q.num q.den, Rat.num_div_den]

/-- C7 counterexample: constructing the secure token codec with the
5-character key `"short"` does not fail — `SecureCookie.__init__`
just stores the key — and `sign` then produces a token with that key
(shown at one concrete MAC function; no code path consults the key
length). -/
theorem c7_short_key_codec_counterexample :
    secureCookieInit (strOf "short") = { secretKey := strOf "short" } ∧
    scSign (fun k m => k ++ m) (secureCookieInit (strOf "short")) 123
        (strOf "v") =
      strOf "123:v:short123:v" := by
  exact ⟨rfl, by decide⟩

/-- C7 (amended): the ≥16-character secret-key validation lives in
`Thor.__init__`, not in the codec — a provided application secret key
shorter than 16 characters is rejected with `ValueError`, a key of at
least 16 characters is accepted, and `SecureCookie.__init__` accepts
and stores a key of any length unchanged. -/
theorem c7_secret_key_validated_at_app (s key : Str) :
    (s.length < 16 →
      thorSecretKeyCheck (some s) =
        .error (strOf "secret_key must be at least 16 characters")) ∧
    (16 ≤ s.length → thorSecretKeyCheck (some s) = .ok (some s)) ∧
    secureCookieInit key = { secretKey := key } := by
  refine ⟨fun h => ?_, fun h => ?_, rfl⟩
  · simp [thorSecretKeyCheck, h]
  · simp only [thorSecretKeyCheck, if_neg (by omega : ¬ s.length < 16)]

/-- C7 witness: the amended validation evaluated at concrete keys. -/
theorem c7_secret_key_validated_at_app_witness :
    ((strOf "shortkey").length < 16 ∧
      thorSecretKeyCheck (some (strOf "shortkey")) =
        .error (strOf "secret_key must be at least 16 characters")) ∧
    (16 ≤ (strOf "sixteen-chars-key").length ∧
      thorSecretKeyCheck (some (strOf "sixteen-chars-key")) =
        .ok (some (strOf "sixteen-chars-key"))) :=
  ⟨⟨by decide,
    (c7_secret_key_validated_at_app (strOf "shortkey") (strOf "k")).1
      (by decide)⟩,
   ⟨by decide,
    (c7_secret_key_validated_at_app (strOf "sixteen-chars-key")
        (strOf "k")).2.1 (by decide)⟩⟩

/-- C8 counterexample: with `max_requests = 1`, `window = 60`, one
stored timestamp `1/2` and `now = 1`, the code responds 429 with
`retry_after = int(60 − (1 − 1/2)) + 1 = 60` in body and header,
whereas the claimed value `⌈60 − (1 − 1/2)⌉ + 1` is `61`. -/
theorem c8_retry_after_counterexample :
    rlProcess { maxRequests := 1, windowSeconds := 60 } [mkRat 1 2] 1 =
      .reject { errorMsg := strOf "Too Many Requests",
                statusCodeField := 429, retryAfter := 60 }
        429 [(strOf "Retry-After", strOf "60")] ∧
    (⌈(60 : ℚ) - ((1 : ℚ) - mkRat 1 2)⌉ + 1 : ℤ) = 61 ∧
    (60 : ℤ) ≠ 61 := by
  refine ⟨?_, ?_, by decide⟩
  · have h1 : ((1 : ℚ) - (60 : ℚ) < mkRat 1 2) := by
      norm_num [Rat.mkRat_eq_divInt, Rat.divInt_eq_div]
    have h2 : pyInt ((119 : ℚ) / 2) = 59 := by
      norm_num [pyInt]
      decide
    simp only [rlProcess, List.filter, h1, decide_eq_true_eq, if_pos]
    norm_num [h2, intToStr]
    decide
  · have h : ((60 : ℚ) - ((1 : ℚ) - mkRat 1 2)) = 119 / 2 := by
      norm_num [Rat.mkRat_eq_divInt, Rat.divInt_eq_div]
    rw [h]
    have h2 : (⌈(119 : ℚ) / 2⌉ : ℤ) = 60 := by
      rw [Int.ceil_eq_iff]
      norm_num
    rw [h2]
    decide

/-- C8 (amended): whenever pruning leaves at least `max_requests`
(≥ 1) in-window timestamps, the middleware short-circuits with a 429
whose body field and `Retry-After` header both carry
`⌊window − (now − oldest)⌋ + 1` — the floor (Python `int()`
truncation of this positive quantity), not the ceiling. -/
theorem c8_rate_limit_429 (cfg : RLConfig) (stored : List ℚ) (now : ℚ)
    (hmax : 1 ≤ cfg.maxRequests)
    (hcount : cfg.maxRequests ≤
      (stored.filter fun t => now - (cfg.windowSeconds : ℚ) < t).length) :
    ∃ oldest,
      (stored.filter fun t => now - (cfg.windowSeconds : ℚ) < t).head? =
        some oldest ∧
      rlProcess cfg stored now =
        .reject { errorMsg := strOf "Too Many Requests",
                  statusCodeField := 429,
                  retryAfter :=
                    ⌊(cfg.windowSeconds : ℚ) - (now - oldest)⌋ + 1 }
          429
          [(strOf "Retry-After",
            intToStr (⌊(cfg.windowSeconds : ℚ) - (now - oldest)⌋ + 1))] := by
  set pruned := stored.filter fun t => now - (cfg.windowSeconds : ℚ) < t
    with hpruned
  have hne : pruned ≠ [] := by
    intro hnil
    rw [hnil] at hcount
    simp at hcount
    omega
  obtain ⟨oldest, tl, hcons⟩ := List.exists_cons_of_ne_nil hne
  have hhead : pruned.head? = some oldest := by rw [hcons]; rfl
  have hmem : oldest ∈ pruned := by rw [hcons]; exact List.mem_cons_self _ _
  have holdlt : now - (cfg.windowSeconds : ℚ) < oldest := by
    have := List.of_mem_filter hmem
    exact of_decide_eq_true this
  have hpos : (0 : ℚ) ≤ (cfg.windowSeconds : ℚ) - (now - oldest) := by
    linarith
  refine ⟨oldest, hhead, ?_⟩
  simp only [rlProcess, ← hpruned, hhead, if_pos hcount]
  rw [pyInt_eq_floor _ hpos]

/-- C8 witness: the amended 429 shape evaluated at a concrete state. -/
theorem c8_rate_limit_429_witness :
    1 ≤ 1 ∧
    1 ≤ (([mkRat 1 2] : List ℚ).filter
          fun t => (1 : ℚ) - ((60 : ℕ) : ℚ) < t).length ∧
    (∃ oldest,
      (([mkRat 1 2] : List ℚ).filter
          fun t => (1 : ℚ) - ((60 : ℕ) : ℚ) < t).head? = some oldest ∧
      rlProcess { maxRequests := 1, windowSeconds := 60 } [mkRat 1 2] 1 =
        .reject { errorMsg := strOf "Too Many Requests",
                  statusCodeField := 429,
                  retryAfter := ⌊((60 : ℕ) : ℚ) - (1 - oldest)⌋ + 1 }
          429
          [(strOf "Retry-After",
            intToStr (⌊((60 : ℕ) : ℚ) - (1 - oldest)⌋ + 1))]) :=
  ⟨le_refl 1,
   by norm_num [Rat.mkRat_eq_divInt, Rat.divInt_eq_div],
   c8_rate_limit_429 { maxRequests := 1, windowSeconds := 60 }
     [mkRat 1 2] 1 (le_refl 1)
     (by norm_num [Rat.mkRat_eq_divInt, Rat.divInt_eq_div])⟩

/-- C9: on `lifespan.shutdown` the handler marks shutting-down,
drains, and then emits `lifespan.shutdown.complete` *before* the
shutdown handlers run — the handlers only run when the surrounding
`async with` exits — contradicting the claimed ordering. -/
theorem c9_shutdown_complete_before_handlers :
    handleLifespan 0 1 [.shutdown] =
      [.markedShuttingDown, .drained, .sentShutdownComplete,
       .ranShutdownHandler 0] ∧
    (handleLifespan 0 1 [.shutdown]).indexOf .sentShutdownComplete <
      (handleLifespan 0 1 [.shutdown]).indexOf (.ranShutdownHandler 0) := by
  decide

/-- C2: after `include_router` (tree marked dirty) followed by a
direct `add_route` (which unconditionally clears the dirty flag and
only inserts the new route), `Router.match` misses the sub-router's
route even though it is present in the flattened route list and the
linear scan resolves it. -/
theorem c2_add_route_clears_dirty_flag :
    routerMatch mainRouterEx (strOf "/a") (strOf "GET") = .notFound ∧
    mainRouterEx.allRoutes =
      [{ path := strOf "/b", methods := [strOf "GET"], handlerId := 2 },
       { path := strOf "/a", methods := [strOf "GET"], handlerId := 1 }] ∧
    linearResolve mainRouterEx.allRoutes (strOf "/a") (strOf "GET") =
      .found { path := strOf "/a", methods := [strOf "GET"],
               handlerId := 1 } [] ∧
    routerMatch mainRouterEx (strOf "/b") (strOf "GET") =
      .found { path := strOf "/b", methods := [strOf "GET"],
               handlerId := 2 } [] := by
  decide

/-- C6: the 403 short-circuit response of the CSRF middleware is sent
through the original `send`, not through `send_with_csrf`, so its
`http.response.start` headers contain no `Set-Cookie` — while a
passed-through response does get the CSRF cookie appended. -/
theorem c6_short_circuit_lacks_set_cookie :
    csrfProcess csrfCfgEx (strOf "fresh") csrfReqNoTok =
      .reject csrf403Resp ∧
    csrfStartHeaders csrfCfgEx (strOf "fresh") csrfReqNoTok [] =
      [(strOf "content-type", strOf "application/json; charset=utf-8")] ∧
    ((csrfStartHeaders csrfCfgEx (strOf "fresh") csrfReqNoTok []).all
      fun h => h.1 ≠ strOf "set-cookie") = true ∧
    ((csrfStartHeaders csrfCfgEx (strOf "fresh") csrfReqGet []).any
      fun h => h.1 = strOf "set-cookie") = true := by
  decide

/-- C10: the form token is always read from the module-default field
`_csrf_token`; the configured `form_field` value is never consulted —
changing it does not change the middleware's result. -/
theorem c10_form_field_config_ignored (cfg : CsrfCfg) (ff freshTok : Str)
    (req : CsrfReq) :
    csrfProcess { cfg with formField := ff } freshTok req =
      csrfProcess cfg freshTok req ∧
    getFormToken req = formFieldLookup req (strOf "_csrf_token") := by
  exact ⟨rfl, rfl⟩

/-- C1 counterexample: three divergences between radix-tree search
and the linear `Route.match` scan.  (1) Trailing slash: for the route
`GET /a`, the tree (which splits both sides into non-empty segments)
matches the request `/a/`, while the anchored regex does not, so the
linear scan yields not-found.  (2) A `{p:path}` parameter matches
across segments in the regex but only a single segment in the tree.
(3) Two routes whose first segments are parameters of different types
share the single `param_child` slot, whose segment (and type) is fixed
by the first insertion, making the second route unreachable in the
tree although the linear scan matches it. -/
theorem c1_radix_vs_linear_counterexample :
    (searchTree (buildTree [slashARoute]) (strOf "/a/") (strOf "GET") =
        .found slashARoute [] ∧
      routeMatch slashARoute (strOf "/a/") = none ∧
      linearResolve [slashARoute] (strOf "/a/") (strOf "GET") =
        .notFound) ∧
    (routeMatch filesPathRoute (strOf "/files/a/b") =
        some [(strOf "p", .pvStr (strOf "a/b"))] ∧
      linearResolve [filesPathRoute] (strOf "/files/a/b") (strOf "GET") =
        .found filesPathRoute [(strOf "p", .pvStr (strOf "a/b"))] ∧
      searchTree (buildTree [filesPathRoute]) (strOf "/files/a/b")
        (strOf "GET") = .notFound) ∧
    (linearResolve [paramIntRoute, paramStrRoute] (strOf "/abc")
        (strOf "GET") =
        .found paramStrRoute [(strOf "y", .pvStr (strOf "abc"))] ∧
      searchTree (buildTree [paramIntRoute, paramStrRoute]) (strOf "/abc")
        (strOf "GET") = .notFound) := by
  decide

/-- C5: with the default safe-method set and header/cookie names, a
non-safe-method request on a non-excluded path whose submitted token
(header first, then URL-encoded form field) is absent or different
from the cookie token is answered with the
`{error: "CSRF token missing or invalid", status_code: 403}` response
and the downstream handler is never invoked; safe-method requests
skip validation and are forwarded. -/
theorem c5_csrf_rejects_bad_token (excl : List Str) (ff sk freshTok : Str)
    (req : CsrfReq)
    (hEx : (excl.any fun p => p.isPrefixOf req.path) = false) :
    (req.method ∉ csrfSafeMethods →
      (∀ s,
        submittedTokenOf
            { secretKey := sk, formField := ff, excludePaths := excl } req =
          some s →
        s ≠ cookieTokenOf
            { secretKey := sk, formField := ff, excludePaths := excl }
            freshTok req) →
      csrfProcess { secretKey := sk, formField := ff, excludePaths := excl }
          freshTok req = .reject csrf403Resp) ∧
    (req.method ∈ csrfSafeMethods →
      csrfProcess { secretKey := sk, formField := ff, excludePaths := excl }
          freshTok req =
        .pass (cookieTokenOf
          { secretKey := sk, formField := ff, excludePaths := excl }
          freshTok req)) := by
  constructor
  · intro hm htok
    simp only [csrfProcess, hEx, Bool.false_eq_true, if_false]
    rw [if_neg hm]
    cases hsub : submittedTokenOf
        { secretKey := sk, formField := ff, excludePaths := excl } req with
    | none => rfl
    | some s =>
      have hne := htok s hsub
      by_cases hs : strTruthy s = true
      · simp only [hs, Bool.not_true, Bool.false_eq_true, if_false]
        have hmatch : tokensMatch
            (cookieTokenOf
              { secretKey := sk, formField := ff, excludePaths := excl }
              freshTok req) s = false := by
          simp only [tokensMatch, decide_eq_false_iff_not]
          exact fun h => hne h.symm
        rw [hmatch]
        rfl
      · simp only [Bool.not_eq_true] at hs
        simp [hs]
  · intro hm
    simp only [csrfProcess, hEx, Bool.false_eq_true, if_false]
    rw [if_pos hm]

/-- C5 witness: a POST with no cookie and no submitted token is
rejected with the 403 body; a GET with the same (lack of) tokens is
forwarded. -/
theorem c5_csrf_rejects_bad_token_witness :
    (([] : List Str).any fun p => p.isPrefixOf csrfReqNoTok.path) = false ∧
    csrfReqNoTok.method ∉ csrfSafeMethods ∧
    csrfProcess
        { secretKey := strOf "csrf-test-secret-key-1234",
          formField := strOf "_csrf_token", excludePaths := [] }
        (strOf "fresh") csrfReqNoTok = .reject csrf403Resp ∧
    csrfReqGet.method ∈ csrfSafeMethods ∧
    csrfProcess
        { secretKey := strOf "csrf-test-secret-key-1234",
          formField := strOf "_csrf_token", excludePaths := [] }
        (strOf "fresh") csrfReqGet =
      .pass (cookieTokenOf
        { secretKey := strOf "csrf-test-secret-key-1234",
          formField := strOf "_csrf_token", excludePaths := [] }
        (strOf "fresh") csrfReqGet) := by
  refine ⟨by decide, by decide, ?_, by decide, ?_⟩
  · refine (c5_csrf_rejects_bad_token [] (strOf "_csrf_token")
      (strOf "csrf-test-secret-key-1234") (strOf "fresh") csrfReqNoTok
      (by decide)).1 (by decide) ?_
    intro s hs
    have e : submittedTokenOf
        { secretKey := strOf "csrf-test-secret-key-1234",
          formField := strOf "_csrf_token", excludePaths := [] }
        csrfReqNoTok = none := by decide
    rw [e] at hs
    cases hs
  · exact (c5_csrf_rejects_bad_token [] (strOf "_csrf_token")
      (strOf "csrf-test-secret-key-1234") (strOf "fresh") csrfReqGet
      (by decide)).2 (by decide)

/-- The receive loop on an oversize terminated stream raises
`PayloadTooLarge` exactly at the first message that pushes the
running total of chunk bytes past the cap. -/
theorem readLoop_oversize (msgs : List BodyMsg) :
    ∀ (cap total : Nat) (acc : List (List Nat)) (consumed : Nat),
    0 < cap → total ≤ cap → hasTerminator msgs = true →
    cap < total + chunkSum (effectiveMsgs msgs) →
    ∃ k, 1 ≤ k ∧
      readLoop cap total acc consumed msgs = .tooLarge (consumed + k) ∧
      cap < total + chunkSum (msgs.take k) ∧
      total + chunkSum (msgs.take (k - 1)) ≤ cap := by
  induction msgs with
  | nil =>
    intro cap total acc consumed _ _ hterm _
    simp [hasTerminator] at hterm
  | cons m rest ih =>
    intro cap total acc consumed hcap htot hterm hover
    by_cases hb : m.body.isEmpty
    · have hblen : m.body.length = 0 := by
        simpa using congrArg List.length (List.isEmpty_iff.mp hb)
      by_cases hmore : m.moreBody = true
      · have hterm' : hasTerminator rest = true := by
          simpa [hasTerminator, hmore] using hterm
        have hover' : cap < total + chunkSum (effectiveMsgs rest) := by
          simpa [effectiveMsgs, hmore, chunkSum, hblen] using hover
        obtain ⟨k, hk1, hrec, hgt, hle⟩ :=
          ih cap total acc (consumed + 1) hcap htot hterm' hover'
        refine ⟨k + 1, by omega, ?_, ?_, ?_⟩
        · simpa [readLoop, hb, hmore, Nat.add_assoc,
            Nat.add_comm 1 k] using hrec
        · simpa [List.take, chunkSum, hblen] using hgt
        · have : (m :: rest).take (k + 1 - 1) = m :: rest.take (k - 1) := by
            have : k + 1 - 1 = (k - 1) + 1 := by omega
            simp [this]
          rw [this]
          simpa [chunkSum, hblen] using hle
      · exfalso
        have : effectiveMsgs (m :: rest) = [m] := by
          simp [effectiveMsgs, hmore]
        rw [this] at hover
        simp [chunkSum, hblen] at hover
        omega
    · by_cases hover1 : cap < total + m.body.length
      · refine ⟨1, le_refl 1, ?_, ?_, ?_⟩
        · simp [readLoop, hb, hover1, hcap]
        · simpa [List.take, chunkSum] using hover1
        · simpa [chunkSum] using htot
      · have htot' : total + m.body.length ≤ cap := by omega
        by_cases hmore : m.moreBody = true
        · have hterm' : hasTerminator rest = true := by
            simpa [hasTerminator, hmore] using hterm
          have hover' :
              cap < total + m.body.length + chunkSum (effectiveMsgs rest) := by
            have : effectiveMsgs (m :: rest) = m :: effectiveMsgs rest := by
              simp [effectiveMsgs, hmore]
            rw [this] at hover
            simp [chunkSum] at hover ⊢
            omega
          obtain ⟨k, hk1, hrec, hgt, hle⟩ :=
            ih cap (total + m.body.length) (acc ++ [m.body]) (consumed + 1)
              hcap htot' hterm' hover'
          refine ⟨k + 1, by omega, ?_, ?_, ?_⟩
          · have hnot : ¬ (0 < cap ∧ cap < total + m.body.length) := by
              omega
            simpa [readLoop, hb, hmore, hnot, Nat.add_assoc,
              Nat.add_comm 1 k] using hrec
          · simp [List.take, chunkSum] at hgt ⊢
            omega
          · have he : (m :: rest).take (k + 1 - 1) = m :: rest.take (k - 1) := by
              have : k + 1 - 1 = (k - 1) + 1 := by omega
              simp [this]
            rw [he]
            simp [chunkSum] at hle ⊢
            omega
        · exfalso
          have : effectiveMsgs (m :: rest) = [m] := by
            simp [effectiveMsgs, hmore]
          rw [this] at hover
          simp [chunkSum] at hover
          omega

/-- A successful receive loop returns the accumulated chunks followed
by the complete remaining body, and (under a positive cap) the whole
body fits in the cap. -/
theorem readLoop_ok (msgs : List BodyMsg) :
    ∀ (cap total : Nat) (acc : List (List Nat)) (consumed : Nat)
      (b : List Nat) (k : Nat),
    readLoop cap total acc consumed msgs = .ok b k →
    b = acc.flatten ++ fullBody msgs ∧
    (0 < cap → total ≤ cap → total + chunkSum (effectiveMsgs msgs) ≤ cap) := by
  induction msgs with
  | nil =>
    intro cap total acc consumed b k h
    simp [readLoop] at h
  | cons m rest ih =>
    intro cap total acc consumed b k h
    by_cases hb : m.body.isEmpty
    · have hbnil : m.body = [] := List.isEmpty_iff.mp hb
      by_cases hmore : m.moreBody = true
      · rw [show readLoop cap total acc consumed (m :: rest) =
            readLoop cap total acc (consumed + 1) rest by
          simp [readLoop, hb, hmore]] at h
        obtain ⟨hbody, hsum⟩ := ih cap total acc (consumed + 1) b k h
        refine ⟨?_, ?_⟩
        · simp [hbody, fullBody, effectiveMsgs, hmore, hbnil]
        · intro h1 h2
          have := hsum h1 h2
          simpa [effectiveMsgs, hmore, chunkSum, hbnil] using this
      · have he : readLoop cap total acc consumed (m :: rest) =
            .ok acc.flatten (consumed + 1) := by
          simp [readLoop, hb, hmore]
        rw [he] at h
        cases h
        refine ⟨?_, ?_⟩
        · simp [fullBody, effectiveMsgs, hmore, hbnil]
        · intro _ h2
          simpa [effectiveMsgs, hmore, chunkSum, hbnil] using h2
    · by_cases hover1 : 0 < cap ∧ cap < total + m.body.length
      · have : readLoop cap total acc consumed (m :: rest) =
            .tooLarge (consumed + 1) := by
          simp [readLoop, hb, hover1]
        rw [this] at h
        cases h
      · by_cases hmore : m.moreBody = true
        · rw [show readLoop cap total acc consumed (m :: rest) =
              readLoop cap (total + m.body.length) (acc ++ [m.body])
                (consumed + 1) rest by
            simp [readLoop, hb, hover1, hmore]] at h
          obtain ⟨hbody, hsum⟩ :=
            ih cap (total + m.body.length) (acc ++ [m.body]) (consumed + 1)
              b k h
          refine ⟨?_, ?_⟩
          · simp [hbody, fullBody, effectiveMsgs, hmore, chunkSum]
          · intro h1 h2
            have htot' : total + m.body.length ≤ cap := by
              rcases Nat.lt_or_ge cap (total + m.body.length) with hlt | hge
              · exact absurd ⟨h1, hlt⟩ hover1
              · exact hge
            have := hsum h1 htot'
            simp [effectiveMsgs, hmore, chunkSum] at this ⊢
            omega
        · have he : readLoop cap total acc consumed (m :: rest) =
              .ok (acc ++ [m.body]).flatten (consumed + 1) := by
            simp [readLoop, hb, hover1, hmore]
          rw [he] at h
          cases h
          refine ⟨?_, ?_⟩
          · simp [fullBody, effectiveMsgs, hmore]
          · intro h1 h2
            have htot' : total + m.body.length ≤ cap := by
              rcases Nat.lt_or_ge cap (total + m.body.length) with hlt | hge
              · exact absurd ⟨h1, hlt⟩ hover1
              · exact hge
            simpa [effectiveMsgs, hmore, chunkSum] using htot'

/-- C4 counterexample: with `max_body_size = 0` a three-byte body
"exceeds max_body_size" yet `Request.body` returns it in full instead
of raising `payload-too-large` (0 disables the check). -/
theorem c4_zero_cap_counterexample :
    requestBody 0 none [⟨[1, 2, 3], false⟩] = .ok [1, 2, 3] 1 ∧
    chunkSum (effectiveMsgs [⟨[1, 2, 3], false⟩]) = 3 ∧ (0 : Nat) < 3 := by
  decide

/-- C4 (amended): for a positive `max_body_size`: a `Content-Length`
above the cap fails before any `receive` call; an oversize terminated
chunk stream fails exactly at the first message that pushes the
running byte total past the cap; and any successful read returns the
complete body, which fits under the cap — so no handler ever observes
a partial body. -/
theorem c4_body_cap_enforced (cap : Nat) (cl : Option Nat)
    (msgs : List BodyMsg) (hcap : 0 < cap) :
    (∀ L, cl = some L → cap < L → requestBody cap cl msgs = .tooLarge 0) ∧
    ((∀ L, cl = some L → L ≤ cap) → hasTerminator msgs = true →
      cap < chunkSum (effectiveMsgs msgs) →
      ∃ k, 1 ≤ k ∧ requestBody cap cl msgs = .tooLarge k ∧
        cap < chunkSum (msgs.take k) ∧
        chunkSum (msgs.take (k - 1)) ≤ cap) ∧
    (∀ b k, requestBody cap cl msgs = .ok b k →
      b = fullBody msgs ∧ chunkSum (effectiveMsgs msgs) ≤ cap) := by
  refine ⟨?_, ?_, ?_⟩
  · intro L hL hgt
    subst hL
    simp [requestBody, hcap, hgt]
  · intro hcl hterm hover
    obtain ⟨k, hk1, hloop, hgt, hle⟩ :=
      readLoop_oversize msgs cap 0 [] 0 hcap (Nat.zero_le cap) hterm
        (by simpa using hover)
    refine ⟨k, hk1, ?_, by simpa using hgt, by simpa using hle⟩
    match cl with
    | none => simpa [requestBody] using hloop
    | some L =>
      have hnot : ¬ (0 < cap ∧ cap < L) := by
        have := hcl L rfl
        omega
      simpa [requestBody, hnot] using hloop
  · intro b k h
    have hloop : readLoop cap 0 [] 0 msgs = .ok b k := by
      match cl with
      | none => simpa [requestBody] using h
      | some L =>
        by_cases hgt : 0 < cap ∧ cap < L
        · simp [requestBody, hgt] at h
        · simpa [requestBody, hgt] using h
    obtain ⟨hbody, hsum⟩ := readLoop_ok msgs cap 0 [] 0 b k hloop
    exact ⟨by simpa using hbody, by simpa using hsum hcap (Nat.zero_le cap)⟩

/-- C4 witness: the amended cap behavior evaluated at `cap = 5` on a
two-chunk stream of six bytes. -/
theorem c4_body_cap_enforced_witness :
    (0 : Nat) < 5 ∧
    ((∀ L, (none : Option Nat) = some L → 5 < L →
        requestBody 5 none [⟨[1, 2, 3], true⟩, ⟨[4, 5, 6], false⟩] =
          .tooLarge 0) ∧
     ((∀ L, (none : Option Nat) = some L → L ≤ 5) →
       hasTerminator [⟨[1, 2, 3], true⟩, ⟨[4, 5, 6], false⟩] = true →
       5 < chunkSum
         (effectiveMsgs [⟨[1, 2, 3], true⟩, ⟨[4, 5, 6], false⟩]) →
       ∃ k, 1 ≤ k ∧
         requestBody 5 none [⟨[1, 2, 3], true⟩, ⟨[4, 5, 6], false⟩] =
           .tooLarge k ∧
         5 < chunkSum
           (([⟨[1, 2, 3], true⟩, ⟨[4, 5, 6], false⟩] :
              List BodyMsg).take k) ∧
         chunkSum
           (([⟨[1, 2, 3], true⟩, ⟨[4, 5, 6], false⟩] :
              List BodyMsg).take (k - 1)) ≤ 5) ∧
     (∀ b k,
       requestBody 5 none [⟨[1, 2, 3], true⟩, ⟨[4, 5, 6], false⟩] =
         .ok b k →
       b = fullBody [⟨[1, 2, 3], true⟩, ⟨[4, 5, 6], false⟩] ∧
       chunkSum (effectiveMsgs [⟨[1, 2, 3], true⟩, ⟨[4, 5, 6], false⟩]) ≤
         5)) :=
  ⟨by decide,
   c4_body_cap_enforced 5 none [⟨[1, 2, 3], true⟩, ⟨[4, 5, 6], false⟩]
     (by decide)⟩

/-! ### Radix-tree structure lemmas -/

/-- Unfolding: inserting nothing. -/
theorem foldIns_nil (n : RNode) : foldIns n [] = n := rfl

/-- Unfolding: inserting one entry then the rest. -/
theorem foldIns_cons (n : RNode) (e : PendEntry) (rest : List PendEntry) :
    foldIns n (e :: rest) = foldIns (insertNode n e.2.2 e.2.1) rest := rfl

/-- Insertion never changes a node's segment. -/
theorem insertNode_segment (n : RNode) (segs : List Str) (r : MRoute) :
    (insertNode n segs r).segment = n.segment := by
  cases n with
  | node sg ch pc rts =>
    cases segs with
    | nil => rfl
    | cons s rest =>
      simp only [insertNode]
      split
      · rfl
      · split <;> rfl

/-- Folded insertion never changes a node's segment. -/
theorem foldIns_segment (P : List PendEntry) :
    ∀ n : RNode, (foldIns n P).segment = n.segment := by
  induction P with
  | nil => intro n; rfl
  | cons e rest ih =>
    intro n
    rw [foldIns_cons, ih, insertNode_segment]

/-- A non-terminal insertion keeps the node's routes. -/
theorem insertNode_routes_cons (n : RNode) (s : Str) (rest : List Str)
    (r : MRoute) : (insertNode n (s :: rest) r).routes = n.routes := by
  cases n with
  | node sg ch pc rts =>
    simp only [insertNode]
    split
    · rfl
    · split <;> rfl

/-- A terminal insertion appends the route. -/
theorem insertNode_routes_nil (n : RNode) (r : MRoute) :
    (insertNode n [] r).routes = n.routes ++ [r] := by
  cases n; rfl

/-- The routes of a folded insertion: the base node's routes followed
by the routes of the entries that terminate here, in order. -/
theorem foldIns_routes (P : List PendEntry) :
    ∀ n : RNode, (foldIns n P).routes =
      n.routes ++ (P.filter fun e => e.2.2.isEmpty).map fun e => e.2.1 := by
  induction P with
  | nil => intro n; simp [foldIns_nil]
  | cons e rest ih =>
    intro n
    obtain ⟨i, r, segs⟩ := e
    rw [foldIns_cons]
    cases segs with
    | nil =>
      rw [ih, insertNode_routes_nil]
      simp
    | cons s t =>
      rw [ih, insertNode_routes_cons]
      simp

/-- Accessor computation for `RNode.segment`. -/
@[simp] theorem RNode.segment_mk (sg : Str) (ch : List (Str × RNode))
    (pc : Option RNode) (rts : List MRoute) :
    (RNode.node sg ch pc rts).segment = sg := rfl

/-- Accessor computation for `RNode.children`. -/
@[simp] theorem RNode.children_mk (sg : Str) (ch : List (Str × RNode))
    (pc : Option RNode) (rts : List MRoute) :
    (RNode.node sg ch pc rts).children = ch := rfl

/-- Accessor computation for `RNode.paramChild`. -/
@[simp] theorem RNode.paramChild_mk (sg : Str) (ch : List (Str × RNode))
    (pc : Option RNode) (rts : List MRoute) :
    (RNode.node sg ch pc rts).paramChild = pc := rfl

/-- Accessor computation for `RNode.routes`. -/
@[simp] theorem RNode.routes_mk (sg : Str) (ch : List (Str × RNode))
    (pc : Option RNode) (rts : List MRoute) :
    (RNode.node sg ch pc rts).routes = rts := rfl

/-- Replacing the value stored under `s` makes `find?` at `s` return
the new pair, provided the key was present. -/
theorem find_map_replace {β : Type} (ch : List (Str × β)) (s : Str)
    (nc : β) :
    ∀ e0, ch.find? (fun e => e.1 = s) = some e0 →
      (ch.map fun e' => if e'.1 = s then (s, nc) else e').find?
        (fun e => e.1 = s) = some (s, nc) := by
  induction ch with
  | nil => intro e0 h; simp at h
  | cons c rest ih =>
    intro e0 h
    by_cases hc : c.1 = s
    · simp [hc]
    · simp only [List.map_cons, if_neg hc]
      rw [List.find?_cons_of_neg _ (by simpa using hc)] at h ⊢
      exact ih e0 h

/-- Replacing the value stored under a different key `h` does not
change `find?` at `s`. -/
theorem find_map_replace_ne {β : Type} (ch : List (Str × β)) (hk s : Str)
    (nc : β) (hne : hk ≠ s) :
    (ch.map fun e' => if e'.1 = hk then (hk, nc) else e').find?
      (fun e => e.1 = s) = ch.find? (fun e => e.1 = s) := by
  induction ch with
  | nil => simp
  | cons c rest ih =>
    by_cases hc : c.1 = hk
    · have : ¬ ((hk, nc).1 = s) := hne
      simp only [List.map_cons, if_pos hc]
      rw [List.find?_cons_of_neg _ (by simpa using this),
        List.find?_cons_of_neg _ (by simp [hc, hne])]
      exact ih
    · simp only [List.map_cons, if_neg hc]
      by_cases hcs : c.1 = s
      · rw [List.find?_cons_of_pos _ (by simpa using hcs),
          List.find?_cons_of_pos _ (by simpa using hcs)]
      · rw [List.find?_cons_of_neg _ (by simpa using hcs),
          List.find?_cons_of_neg _ (by simpa using hcs)]
        exact ih

/-- `find?` at `s` after appending a pair keyed `s`, when `s` was
absent. -/
theorem find_append_self {β : Type} (ch : List (Str × β)) (s : Str)
    (x : β) (h : ch.find? (fun e => e.1 = s) = none) :
    (ch ++ [(s, x)]).find? (fun e => e.1 = s) = some (s, x) := by
  induction ch with
  | nil => simp
  | cons c rest ih =>
    by_cases hc : c.1 = s
    · rw [List.find?_cons_of_pos _ (by simpa using hc)] at h
      cases h
    · rw [List.find?_cons_of_neg _ (by simpa using hc)] at h
      rw [List.cons_append, List.find?_cons_of_neg _ (by simpa using hc)]
      exact ih h

/-- `find?` at `s` ignores an appended pair with a different key. -/
theorem find_append_ne {β : Type} (ch : List (Str × β)) (hk s : Str)
    (x : β) (hne : hk ≠ s) :
    (ch ++ [(hk, x)]).find? (fun e => e.1 = s) =
      ch.find? (fun e => e.1 = s) := by
  induction ch with
  | nil => simp [hne]
  | cons c rest ih =>
    by_cases hc : c.1 = s
    · rw [List.cons_append, List.find?_cons_of_pos _ (by simpa using hc),
        List.find?_cons_of_pos _ (by simpa using hc)]
    · rw [List.cons_append, List.find?_cons_of_neg _ (by simpa using hc),
        List.find?_cons_of_neg _ (by simpa using hc)]
      exact ih

/-- Terminal insertion: children unchanged. -/
theorem insertNode_children_nil (n : RNode) (r : MRoute) :
    (insertNode n [] r).children = n.children := by
  cases n; rfl

/-- Terminal insertion: parametric child unchanged. -/
theorem insertNode_paramChild_nil (n : RNode) (r : MRoute) :
    (insertNode n [] r).paramChild = n.paramChild := by
  cases n; rfl

/-- Inserting below a parametric segment: children unchanged. -/
theorem insertNode_children_param (n : RNode) (s : Str) (rest : List Str)
    (r : MRoute) (h : isParamSeg s = true) :
    (insertNode n (s :: rest) r).children = n.children := by
  cases n
  simp [insertNode, h]

/-- Inserting below a parametric segment: the parametric child
becomes the (possibly fresh) child with the entry inserted below. -/
theorem insertNode_paramChild_param (n : RNode) (s : Str)
    (rest : List Str) (r : MRoute) (h : isParamSeg s = true) :
    (insertNode n (s :: rest) r).paramChild =
      some (insertNode (n.paramChild.getD (RNode.empty s)) rest r) := by
  cases n
  simp [insertNode, h, RNode.paramChild]

/-- Inserting below a static segment: parametric child unchanged. -/
theorem insertNode_paramChild_static (n : RNode) (s : Str)
    (rest : List Str) (r : MRoute) (h : isParamSeg s = false) :
    (insertNode n (s :: rest) r).paramChild = n.paramChild := by
  cases n
  simp only [insertNode, h, Bool.false_eq_true, if_false]
  split <;> simp

/-- Inserting below a static segment already keyed in the children
dict: in-place update. -/
theorem insertNode_children_static_found (n : RNode) (s : Str)
    (rest : List Str) (r : MRoute) (h : isParamSeg s = false)
    (e0 : Str × RNode)
    (hfind : n.children.find? (fun e => e.1 = s) = some e0) :
    (insertNode n (s :: rest) r).children =
      n.children.map fun e' =>
        if e'.1 = s then (s, insertNode e0.2 rest r) else e' := by
  cases n
  simp only [insertNode, h, RNode.children] at hfind ⊢
  simp only [Bool.false_eq_true, if_false, hfind]

/-- Inserting below a static segment not yet keyed: append a fresh
child. -/
theorem insertNode_children_static_new (n : RNode) (s : Str)
    (rest : List Str) (r : MRoute) (h : isParamSeg s = false)
    (hfind : n.children.find? (fun e => e.1 = s) = none) :
    (insertNode n (s :: rest) r).children =
      n.children ++ [(s, insertNode (RNode.empty s) rest r)] := by
  cases n
  simp only [insertNode, h, RNode.children] at hfind ⊢
  simp only [Bool.false_eq_true, if_false, hfind]

/-- `stTails` ignores a terminal entry. -/
theorem stTails_cons_nil (i : Nat) (r : MRoute) (P : List PendEntry)
    (seg : Str) : stTails ((i, r, []) :: P) seg = stTails P seg := by
  simp [stTails]

/-- `stTails` ignores a parametric-headed entry. -/
theorem stTails_cons_param (i : Nat) (r : MRoute) (h : Str)
    (t : List Str) (P : List PendEntry) (seg : Str)
    (hp : isParamSeg h = true) :
    stTails ((i, r, h :: t) :: P) seg = stTails P seg := by
  simp [stTails, hp]

/-- `stTails` collects a static-headed entry with the matching key. -/
theorem stTails_cons_static_eq (i : Nat) (r : MRoute) (h : Str)
    (t : List Str) (P : List PendEntry) (hp : isParamSeg h = false) :
    stTails ((i, r, h :: t) :: P) h = (i, r, t) :: stTails P h := by
  simp [stTails, hp]

/-- `stTails` ignores a static-headed entry with a different key. -/
theorem stTails_cons_static_ne (i : Nat) (r : MRoute) (h : Str)
    (t : List Str) (P : List PendEntry) (seg : Str)
    (hp : isParamSeg h = false) (hne : h ≠ seg) :
    stTails ((i, r, h :: t) :: P) seg = stTails P seg := by
  simp [stTails, hp, hne]

/-- `pmTails` ignores a terminal entry. -/
theorem pmTails_cons_nil (i : Nat) (r : MRoute) (P : List PendEntry) :
    pmTails ((i, r, []) :: P) = pmTails P := by
  simp [pmTails]

/-- `pmTails` collects a parametric-headed entry. -/
theorem pmTails_cons_param (i : Nat) (r : MRoute) (h : Str)
    (t : List Str) (P : List PendEntry) (hp : isParamSeg h = true) :
    pmTails ((i, r, h :: t) :: P) = (i, r, t) :: pmTails P := by
  simp [pmTails, hp]

/-- `pmTails` ignores a static-headed entry. -/
theorem pmTails_cons_static (i : Nat) (r : MRoute) (h : Str)
    (t : List Str) (P : List PendEntry) (hp : isParamSeg h = false) :
    pmTails ((i, r, h :: t) :: P) = pmTails P := by
  simp [pmTails, hp]

/-- `pmHead` ignores a terminal entry. -/
theorem pmHead_cons_nil (i : Nat) (r : MRoute) (P : List PendEntry) :
    pmHead ((i, r, []) :: P) = pmHead P := by
  simp [pmHead]

/-- `pmHead` returns the first parametric head. -/
theorem pmHead_cons_param (i : Nat) (r : MRoute) (h : Str)
    (t : List Str) (P : List PendEntry) (hp : isParamSeg h = true) :
    pmHead ((i, r, h :: t) :: P) = some h := by
  simp [pmHead, hp]

/-- `pmHead` ignores a static-headed entry. -/
theorem pmHead_cons_static (i : Nat) (r : MRoute) (h : Str)
    (t : List Str) (P : List PendEntry) (hp : isParamSeg h = false) :
    pmHead ((i, r, h :: t) :: P) = pmHead P := by
  simp [pmHead, hp]

/-- The static child keyed `s` of a folded insertion: the base child
(if any), or a fresh node, with the `s`-headed static entries
inserted below it in order. -/
theorem foldIns_children_find (P : List PendEntry) :
    ∀ (n : RNode) (s : Str),
    ((foldIns n P).children.find? fun e => e.1 = s) =
      (match n.children.find? fun e => e.1 = s with
       | some e0 => some (s, foldIns e0.2 (stTails P s))
       | none =>
         match stTails P s with
         | [] => none
         | _ :: _ => some (s, foldIns (RNode.empty s) (stTails P s))) := by
  induction P with
  | nil =>
    intro n s
    cases hf : n.children.find? fun e => e.1 = s with
    | none => simp [foldIns_nil, hf, stTails]
    | some e0 =>
      have hkey : e0.1 = s := by
        have := List.find?_some hf
        simpa using this
      simp only [foldIns_nil, hf, stTails, List.filterMap_nil, foldIns_nil]
      rw [show (s, e0.2) = e0 from by
        cases e0; simp at hkey; simp [hkey]]
  | cons e P ih =>
    intro n s
    obtain ⟨i, r, segs⟩ := e
    rw [foldIns_cons]
    cases segs with
    | nil =>
      rw [ih, stTails_cons_nil]
      rw [insertNode_children_nil]
    | cons h t =>
      by_cases hp : isParamSeg h = true
      · rw [ih, stTails_cons_param i r h t P s hp,
          insertNode_children_param n h t r hp]
      · have hp' : isParamSeg h = false := by simpa using hp
        by_cases hhs : h = s
        · subst hhs
          rw [ih, stTails_cons_static_eq i r h t P hp']
          cases hf : n.children.find? fun e => e.1 = h with
          | some e0 =>
            rw [insertNode_children_static_found n h t r hp' e0 hf]
            rw [find_map_replace n.children h (insertNode e0.2 t r) e0 hf]
            simp only [hf, foldIns_cons]
          | none =>
            rw [insertNode_children_static_new n h t r hp' hf]
            rw [find_append_self n.children h (insertNode (RNode.empty h) t r) hf]
            simp only [hf, foldIns_cons]
        · rw [ih, stTails_cons_static_ne i r h t P s hp' hhs]
          cases hf : n.children.find? fun e => e.1 = h with
          | some e0 =>
            rw [insertNode_children_static_found n h t r hp' e0 hf]
            rw [find_map_replace_ne n.children h s (insertNode e0.2 t r) hhs]
          | none =>
            rw [insertNode_children_static_new n h t r hp' hf]
            rw [find_append_ne n.children h s (insertNode (RNode.empty h) t r) hhs]

/-- The parametric child of a folded insertion: the base child (if
any) — whose segment is already fixed — or a fresh node named by the
first parametric head, with all parametric entries inserted below in
order. -/
theorem foldIns_paramChild (P : List PendEntry) :
    ∀ n : RNode,
    (foldIns n P).paramChild =
      (match n.paramChild with
       | some pc => some (foldIns pc (pmTails P))
       | none =>
         match pmHead P with
         | some h => some (foldIns (RNode.empty h) (pmTails P))
         | none => none) := by
  induction P with
  | nil =>
    intro n
    cases hpc : n.paramChild with
    | none => simp [foldIns_nil, hpc, pmHead]
    | some pc => simp [foldIns_nil, hpc, pmTails]
  | cons e P ih =>
    intro n
    obtain ⟨i, r, segs⟩ := e
    rw [foldIns_cons]
    cases segs with
    | nil =>
      rw [ih, pmTails_cons_nil, pmHead_cons_nil, insertNode_paramChild_nil]
    | cons h t =>
      by_cases hp : isParamSeg h = true
      · rw [ih, pmTails_cons_param i r h t P hp,
          pmHead_cons_param i r h t P hp,
          insertNode_paramChild_param n h t r hp]
        cases hpc : n.paramChild with
        | none => simp only [hpc, Option.getD_none, foldIns_cons]
        | some pc => simp only [hpc, Option.getD_some, foldIns_cons]
      · have hp' : isParamSeg h = false := by simpa using hp
        rw [ih, pmTails_cons_static i r h t P hp',
          pmHead_cons_static i r h t P hp',
          insertNode_paramChild_static n h t r hp']

/-- The DFS of no pending entries has no candidates. -/
theorem dfsCands_nil (psegs : List Str) :
    ∀ params, dfsCands [] psegs params = [] := by
  induction psegs with
  | nil => intro params; simp [dfsCands]
  | cons seg rest ih =>
    intro params
    show dfsCands (stTails [] seg) rest params ++ _ = []
    have h1 : stTails [] seg = [] := rfl
    have h2 : pmHead ([] : List PendEntry) = none := rfl
    rw [h1, ih, h2]
    rfl

/-- Scanning an appended candidate list: the left part first, its
accumulator feeding the right part. -/
theorem scanCands_append (method : Str) (l1 l2 :
    List (Nat × MRoute × List (Str × PVal))) :
    ∀ acc, scanCands method (l1 ++ l2) acc =
      (match scanCands method l1 acc with
       | .ok x => .ok x
       | .error acc' => scanCands method l2 acc') := by
  induction l1 with
  | nil => intro acc; rfl
  | cons c rest ih =>
    intro acc
    show scanCands method (c :: (rest ++ l2)) acc = _
    by_cases hm : method ∈ c.2.1.methods
    · simp [scanCands, hm]
    · simp only [scanCands, if_neg hm]
      exact ih (acc <|> some c.2.1)

/-- Scanning candidates that share one parameter dict equals the
route scan of the source. -/
theorem scanCands_mapped (method : Str) (params : List (Str × PVal))
    (rs : List (Nat × MRoute)) :
    ∀ acc : Option MRoute,
    scanCands method (rs.map fun c => (c.1, c.2, params)) acc =
      scanRoutes method params (rs.map fun c => c.2) acc := by
  induction rs with
  | nil => intro acc; rfl
  | cons c rest ih =>
    intro acc
    by_cases hm : method ∈ c.2.methods
    · simp [scanCands, scanRoutes, hm]
    · simp only [List.map_cons, scanCands, scanRoutes, if_neg hm]
      exact ih (acc <|> some c.2)

/-- A parametric head returned by `pmHead` heads some pending entry. -/
theorem pmHead_isParam (P : List PendEntry) (h : Str) :
    pmHead P = some h →
    isParamSeg h = true ∧ ∃ e ∈ P, ∃ t, e.2.2 = h :: t := by
  induction P with
  | nil => intro hh; simp [pmHead] at hh
  | cons e P ih =>
    intro hh
    obtain ⟨i, r, segs⟩ := e
    cases segs with
    | nil =>
      rw [pmHead_cons_nil] at hh
      obtain ⟨hp, e', he', t, ht⟩ := ih hh
      exact ⟨hp, e', List.mem_cons_of_mem _ he', t, ht⟩
    | cons h0 t0 =>
      by_cases hp : isParamSeg h0 = true
      · rw [pmHead_cons_param i r h0 t0 P hp] at hh
        cases hh
        exact ⟨hp, (i, r, h :: t0), List.mem_cons_self _ _, t0, rfl⟩
      · rw [pmHead_cons_static i r h0 t0 P (by simpa using hp)] at hh
        obtain ⟨hq, e', he', t, ht⟩ := ih hh
        exact ⟨hq, e', List.mem_cons_of_mem _ he', t, ht⟩

/-- A parametric segment cannot be a good static segment (it starts
with a brace). -/
theorem isParam_not_goodStatic (s : Str) (hp : isParamSeg s = true) :
    goodStaticSeg s = false := by
  cases s with
  | nil => simp [isParamSeg] at hp
  | cons c tail =>
    simp only [isParamSeg, Bool.and_eq_true, decide_eq_true_eq] at hp
    obtain ⟨hc, _⟩ := hp
    subst hc
    simp [goodStaticSeg]

/-- Unpacking a good parametric segment: its parse succeeds and the
declared type is known and is not `path`. -/
theorem goodParam_spec (h : Str) (hg : goodParamSeg h = true) :
    ∃ nm oty tid, parseParamSeg h = some (nm, oty) ∧
      typeIdOf (oty.getD (strOf "str")) = some tid ∧ tid ≠ .pPath := by
  cases hparse : parseParamSeg h with
  | none => simp [goodParamSeg, hparse] at hg
  | some pr =>
    obtain ⟨nm, oty⟩ := pr
    cases htid : typeIdOf (oty.getD (strOf "str")) with
    | none => simp [goodParamSeg, hparse, htid] at hg
    | some tid =>
      cases tid with
      | pPath => simp [goodParamSeg, hparse, htid] at hg
      | pInt => exact ⟨nm, oty, .pInt, rfl, htid, by intro hx; cases hx⟩
      | pStr => exact ⟨nm, oty, .pStr, rfl, htid, by intro hx; cases hx⟩
      | pUuid => exact ⟨nm, oty, .pUuid, rfl, htid, by intro hx; cases hx⟩
      | pSlug => exact ⟨nm, oty, .pSlug, rfl, htid, by intro hx; cases hx⟩

/-- Goodness of templates passes to the static tails. -/
theorem good_stTails (P : List PendEntry) (seg : Str)
    (hgood : ∀ e ∈ P, ∀ s ∈ e.2.2, goodSeg s = true) :
    ∀ e ∈ stTails P seg, ∀ s ∈ e.2.2, goodSeg s = true := by
  intro e he s hs
  simp only [stTails, List.mem_filterMap] at he
  obtain ⟨a, ha, hfa⟩ := he
  obtain ⟨i, r, segs⟩ := a
  cases segs with
  | nil => simp at hfa
  | cons h0 t0 =>
    simp only at hfa
    by_cases hcond : (!isParamSeg h0 && decide (h0 = seg)) = true
    · rw [if_pos hcond] at hfa
      cases hfa
      exact hgood _ ha s (List.mem_cons_of_mem _ hs)
    · rw [if_neg hcond] at hfa
      cases hfa

/-- Goodness of templates passes to the parametric tails. -/
theorem good_pmTails (P : List PendEntry)
    (hgood : ∀ e ∈ P, ∀ s ∈ e.2.2, goodSeg s = true) :
    ∀ e ∈ pmTails P, ∀ s ∈ e.2.2, goodSeg s = true := by
  intro e he s hs
  simp only [pmTails, List.mem_filterMap] at he
  obtain ⟨a, ha, hfa⟩ := he
  obtain ⟨i, r, segs⟩ := a
  cases segs with
  | nil => simp at hfa
  | cons h0 t0 =>
    simp only at hfa
    by_cases hcond : isParamSeg h0 = true
    · rw [if_pos hcond] at hfa
      cases hfa
      exact hgood _ ha s (List.mem_cons_of_mem _ hs)
    · rw [if_neg hcond] at hfa
      cases hfa

/-- The depth-first search on the tree built from pending entries
computes exactly the scan of the DFS candidate list. -/
theorem searchRec_foldIns (method : Str) (psegs : List Str) :
    ∀ (P : List PendEntry) (sg : Str) (params : List (Str × PVal))
      (acc : Option MRoute),
    (∀ e ∈ P, ∀ s ∈ e.2.2, goodSeg s = true) →
    searchRec method (foldIns (RNode.empty sg) P) psegs params acc =
      scanCands method (dfsCands P psegs params) acc := by
  induction psegs with
  | nil =>
    intro P sg params acc _
    simp only [searchRec, dfsCands]
    rw [foldIns_routes]
    rw [show (RNode.empty sg).routes = [] from rfl, List.nil_append]
    have hm := scanCands_mapped method params
      ((P.filter fun e => e.2.2.isEmpty).map fun e => (e.1, e.2.1)) acc
    simp only [List.map_map] at hm
    exact hm.symm
  | cons seg rest ih =>
    intro P sg params acc hgood
    have hfind := foldIns_children_find P (RNode.empty sg) seg
    have hpc := foldIns_paramChild P (RNode.empty sg)
    rw [show (RNode.empty sg).children = [] from rfl, List.find?_nil]
      at hfind
    rw [show (RNode.empty sg).paramChild = none from rfl] at hpc
    simp only [searchRec, dfsCands]
    rw [hfind, hpc, scanCands_append]
    have hstatic :
        (match
          (match stTails P seg with
           | [] => none
           | _ :: _ =>
             some (seg, foldIns (RNode.empty seg) (stTails P seg))) with
         | some e => searchRec method e.2 rest params acc
         | none => (Except.error acc : Except (Option MRoute)
             (MRoute × List (Str × PVal)))) =
        scanCands method (dfsCands (stTails P seg) rest params) acc := by
      cases hst : stTails P seg with
      | nil =>
        rw [dfsCands_nil]
        rfl
      | cons x xs =>
        have hg' := good_stTails P seg hgood
        rw [hst] at hg'
        exact ih (x :: xs) seg params acc hg'
    rw [hstatic]
    cases hscan : scanCands method
        (dfsCands (stTails P seg) rest params) acc with
    | ok x => rfl
    | error acc' =>
      cases hph : pmHead P with
      | none => rfl
      | some h =>
        obtain ⟨hp, e, he, t0, ht0⟩ := pmHead_isParam P h hph
        have hgseg : goodSeg h = true :=
          hgood e he h (by rw [ht0]; exact List.mem_cons_self _ _)
        have hgp : goodParamSeg h = true := by
          unfold goodSeg at hgseg
          rw [isParam_not_goodStatic h hp] at hgseg
          simpa using hgseg
        obtain ⟨nm, oty, tid, hparse, htid, _⟩ := goodParam_spec h hgp
        have hseg0 : (foldIns (RNode.empty h) (pmTails P)).segment = h := by
          rw [foldIns_segment]; rfl
        dsimp only
        rw [hseg0, hparse]
        simp only [htid, Option.getD_some]
        by_cases htm : typeMatch tid seg = true
        · rw [if_pos htm, if_pos htm]
          exact ih (pmTails P) h (dictSet params nm (convertVal tid seg))
            acc' (good_pmTails P hgood)
        · rw [if_neg htm, if_neg htm]
          rfl

/-! ### Pattern-compilation lemmas -/

/-- One unfolding step of the scan at a non-brace character. -/
theorem compileAuxF_litchar (g : Nat) (c : Char) (rest : Str)
    (hc : c ≠ '{') :
    compileAuxF (g + 1) (c :: rest) =
      (compileAuxF g rest).map (.lit c :: ·) := by
  simp [compileAuxF, hc]

/-- One unfolding step of the scan at a brace. -/
theorem compileAuxF_brace (g : Nat) (rest : Str) :
    compileAuxF (g + 1) ('{' :: rest) =
      (if (rest.takeWhile isWordChar).isEmpty then
        (compileAuxF g rest).map (.lit '{' :: ·)
      else
        match rest.dropWhile isWordChar with
        | '}' :: rem =>
          (compileAuxF g rem).map
            (.grp (rest.takeWhile isWordChar) .pStr :: ·)
        | ':' :: rest2 =>
          if (rest2.takeWhile isWordChar).isEmpty then
            (compileAuxF g rest).map (.lit '{' :: ·)
          else
            match rest2.dropWhile isWordChar with
            | '}' :: rem2 =>
              match typeIdOf (rest2.takeWhile isWordChar) with
              | some t =>
                (compileAuxF g rem2).map
                  (.grp (rest.takeWhile isWordChar) t :: ·)
              | none => none
            | _ => (compileAuxF g rest).map (.lit '{' :: ·)
        | _ => (compileAuxF g rest).map (.lit '{' :: ·)) := rfl

/-- The scan result does not depend on the fuel, once the fuel covers
the string length. -/
theorem compileAuxF_fuel (f1 : Nat) :
    ∀ (s : Str) (f2 : Nat), s.length ≤ f1 → s.length ≤ f2 →
    compileAuxF f1 s = compileAuxF f2 s := by
  induction f1 with
  | zero =>
    intro s f2 h1 h2
    cases s with
    | nil => cases f2 <;> rfl
    | cons c rest => simp at h1
  | succ g ih =>
    intro s f2 h1 h2
    cases s with
    | nil => cases f2 <;> rfl
    | cons c rest =>
      cases f2 with
      | zero => simp at h2
      | succ g2 =>
        have hrest : rest.length ≤ g := by simp at h1; omega
        have hrest2 : rest.length ≤ g2 := by simp at h2; omega
        have hdwle : (rest.dropWhile isWordChar).length ≤ rest.length :=
          (List.dropWhile_suffix isWordChar).length_le
        by_cases hc : c = '{'
        · subst hc
          rw [compileAuxF_brace g rest, compileAuxF_brace g2 rest]
          by_cases hemp : (rest.takeWhile isWordChar).isEmpty = true
          · simp only [hemp, if_true]
            rw [ih rest g2 hrest hrest2]
          · simp only [hemp, Bool.false_eq_true, if_false]
            split
            · rename_i rem heq
              rw [heq] at hdwle
              simp only [List.length_cons] at hdwle
              rw [ih rem g2 (by omega) (by omega)]
            · rename_i rest2 heq
              rw [heq] at hdwle
              simp only [List.length_cons] at hdwle
              have hdw2le :
                  (rest2.dropWhile isWordChar).length ≤ rest2.length :=
                (List.dropWhile_suffix isWordChar).length_le
              by_cases hemp2 : (rest2.takeWhile isWordChar).isEmpty = true
              · simp only [hemp2, if_true]
                rw [ih rest g2 hrest hrest2]
              · simp only [hemp2, Bool.false_eq_true, if_false]
                split
                · rename_i rem2 heq2
                  rw [heq2] at hdw2le
                  simp only [List.length_cons] at hdw2le
                  cases typeIdOf (rest2.takeWhile isWordChar) with
                  | none => rfl
                  | some t => rw [ih rem2 g2 (by omega) (by omega)]
                · rw [ih rest g2 hrest hrest2]
            · rw [ih rest g2 hrest hrest2]
        · rw [compileAuxF_litchar g c rest hc,
            compileAuxF_litchar g2 c rest hc,
            ih rest g2 hrest hrest2]
/-! ### Segment-shape helpers -/

/-- `takeWhile` swallows exactly an all-`p` block before a failing
character. -/
theorem takeWhile_all_append (p : Char → Bool) (l : Str)
    (hl : l.all p = true) (c : Char) (t : Str) (hc : p c = false) :
    (l ++ c :: t).takeWhile p = l := by
  induction l with
  | nil => simp [List.takeWhile, hc]
  | cons d l ih =>
    simp only [List.all_cons, Bool.and_eq_true] at hl
    simp [List.takeWhile, hl.1, ih hl.2]

/-- `dropWhile` keeps exactly the part from the first failing
character. -/
theorem dropWhile_all_append (p : Char → Bool) (l : Str)
    (hl : l.all p = true) (c : Char) (t : Str) (hc : p c = false) :
    (l ++ c :: t).dropWhile p = c :: t := by
  induction l with
  | nil => simp [List.dropWhile, hc]
  | cons d l ih =>
    simp only [List.all_cons, Bool.and_eq_true] at hl
    simp [List.dropWhile, hl.1, ih hl.2]

/-- Unpacking a successful template-segment parse into the literal
shape of the segment. -/
theorem parseParamSeg_shape (s : Str) (nm : Str) (oty : Option Str)
    (h : parseParamSeg s = some (nm, oty)) :
    nm ≠ [] ∧ nm.all isWordChar = true ∧
    (match oty with
     | none => s = '{' :: nm ++ ['}']
     | some ty => ty ≠ [] ∧ ty.all isWordChar = true ∧
         s = '{' :: nm ++ ':' :: ty ++ ['}']) := by
  cases s with
  | nil => simp [parseParamSeg] at h
  | cons c rest =>
    by_cases hc : c = '{'
    · subst hc
      simp only [parseParamSeg] at h
      by_cases hemp : (rest.takeWhile isWordChar).isEmpty = true
      · rw [if_pos hemp] at h; cases h
      · rw [if_neg hemp] at h
        have hsplit := List.takeWhile_append_dropWhile isWordChar rest
        have hall : (rest.takeWhile isWordChar).all isWordChar = true :=
          List.all_takeWhile
        split at h
        · rename_i heq
          cases h
          refine ⟨by simpa using hemp, hall, ?_⟩
          have hrest : rest = rest.takeWhile isWordChar ++ ['}'] := by
            conv_lhs => rw [← hsplit]
            rw [heq]
          show '{' :: rest = _
          conv_lhs => rw [hrest]
          simp
        · rename_i rest2 heq
          by_cases hemp2 : (rest2.takeWhile isWordChar).isEmpty = true
          · rw [if_pos hemp2] at h; cases h
          · rw [if_neg hemp2] at h
            have hsplit2 :=
              List.takeWhile_append_dropWhile isWordChar rest2
            have hall2 : (rest2.takeWhile isWordChar).all isWordChar =
                true := List.all_takeWhile
            split at h
            · rename_i heq2
              cases h
              refine ⟨by simpa using hemp, hall,
                by simpa using hemp2, hall2, ?_⟩
              have hrest : rest =
                  rest.takeWhile isWordChar ++ ':' :: rest2 := by
                conv_lhs => rw [← hsplit]
                rw [heq]
              have h2 : rest2 = rest2.takeWhile isWordChar ++ ['}'] := by
                conv_lhs => rw [← hsplit2]
                rw [heq2]
              show '{' :: rest = _
              conv_lhs => rw [hrest, h2]
              simp
            · cases h
        · cases h
    · have : parseParamSeg (c :: rest) = none := by
        simp [parseParamSeg, hc]
      rw [this] at h; cases h

/-- A parsed template segment satisfies the brace test `_is_param`. -/
theorem isParamSeg_of_parse (s : Str) (pr : Str × Option Str)
    (h : parseParamSeg s = some pr) : isParamSeg s = true := by
  obtain ⟨nm, oty⟩ := pr
  obtain ⟨-, -, hshape⟩ := parseParamSeg_shape s nm oty h
  cases oty with
  | none =>
    simp only at hshape
    subst hshape
    simp only [isParamSeg, decide_True, Bool.true_and]
    rw [show ('{' :: nm ++ ['}'] : Str) = ('{' :: nm) ++ ['}'] by simp,
      List.getLast?_concat]
    simp
  | some ty =>
    obtain ⟨-, -, hshape⟩ := hshape
    subst hshape
    simp only [isParamSeg, decide_True, Bool.true_and]
    rw [show ('{' :: nm ++ ':' :: ty ++ ['}'] : Str) =
        ('{' :: nm ++ ':' :: ty) ++ ['}'] by simp,
      List.getLast?_concat]
    simp

/-- A good static segment is not a parameter reference: it does not
even start with a brace. -/
theorem parseParamSeg_none_of_static (s : Str)
    (h : goodStaticSeg s = true) : parseParamSeg s = none := by
  cases s with
  | nil => rfl
  | cons c rest =>
    have hc : c ≠ '{' := by
      simp only [goodStaticSeg, Bool.and_eq_true, List.all_eq_true] at h
      have := h.2 c (List.mem_cons_self _ _)
      simp only [Bool.and_eq_true, decide_eq_true_eq] at this
      exact this.1.1.2
    simp [parseParamSeg, hc]

/-- Among good segments, the brace test recognizes exactly the
parameter segments. -/
theorem goodSeg_param_of_isParam (s : Str) (hg : goodSeg s = true)
    (hp : isParamSeg s = true) : goodParamSeg s = true := by
  unfold goodSeg at hg
  rw [isParam_not_goodStatic s hp] at hg
  simpa using hg

/-- Among good segments, a non-parameter segment is a good literal. -/
theorem goodSeg_static_of_not_param (s : Str) (hg : goodSeg s = true)
    (hp : isParamSeg s = false) : goodStaticSeg s = true := by
  unfold goodSeg at hg
  cases hst : goodStaticSeg s
  · rw [hst] at hg
    simp only [Bool.false_or] at hg
    obtain ⟨nm, oty, tid, hparse, -, -⟩ := goodParam_spec s hg
    rw [isParamSeg_of_parse s (nm, oty) hparse] at hp
    cases hp
  · rfl

/-- The separator never occurs inside a `split` field. -/
theorem splitOnChar_sep_not_mem (c : Char) (s : Str) :
    ∀ g ∈ splitOnChar c s, c ∉ g := by
  induction s with
  | nil =>
    intro g hg
    simp only [splitOnChar, List.mem_singleton] at hg
    subst hg
    simp
  | cons d rest ih =>
    intro g hg
    simp only [splitOnChar] at hg
    by_cases hd : d = c
    · rw [if_pos hd] at hg
      rcases List.mem_cons.mp hg with h | h
      · subst h; simp
      · exact ih g h
    · rw [if_neg hd] at hg
      cases hr : splitOnChar c rest with
      | nil =>
        rw [hr] at hg
        simp at hg
        subst hg
        simp only [List.mem_singleton]
        exact fun h' => hd h'.symm
      | cons s0 ss =>
        rw [hr] at hg
        rcases List.mem_cons.mp hg with h | h
        · subst h
          intro hmem
          rcases List.mem_cons.mp hmem with h' | h'
          · exact hd h'.symm
          · exact ih s0 (by rw [hr]; exact List.mem_cons_self _ _) h'
        · exact ih g (by rw [hr]; exact List.mem_cons_of_mem _ h)

/-- Every character of the string is the separator or lies in some
`split` field. -/
theorem mem_splitOnChar_of_mem (c d : Char) (s : Str) (hd : d ∈ s) :
    d = c ∨ ∃ g ∈ splitOnChar c s, d ∈ g := by
  induction s with
  | nil => simp at hd
  | cons e rest ih =>
    rcases List.mem_cons.mp hd with h | h
    · subst h
      by_cases he : d = c
      · exact Or.inl he
      · right
        simp only [splitOnChar, if_neg he]
        cases hr : splitOnChar c rest with
        | nil => exact ⟨[d], List.mem_singleton_self _, List.mem_cons_self _ _⟩
        | cons s0 ss =>
          exact ⟨d :: s0, List.mem_cons_self _ _, List.mem_cons_self _ _⟩
    · rcases ih h with h' | ⟨g, hg, hdg⟩
      · exact Or.inl h'
      · right
        simp only [splitOnChar]
        by_cases he : e = c
        · rw [if_pos he]
          exact ⟨g, List.mem_cons_of_mem _ hg, hdg⟩
        · rw [if_neg he]
          cases hr : splitOnChar c rest with
          | nil => rw [hr] at hg; simp at hg
          | cons s0 ss =>
            rw [hr] at hg
            rcases List.mem_cons.mp hg with h2 | h2
            · subst h2
              exact ⟨e :: g, List.mem_cons_self _ _,
                List.mem_cons_of_mem _ hdg⟩
            · exact ⟨g, List.mem_cons_of_mem _ h2, hdg⟩

/-- Fields produced by `_split` contain no slash. -/
theorem splitSegs_no_slash (p : Str) :
    ∀ g ∈ splitSegs p, ∀ d ∈ g, d ≠ '/' := by
  intro g hg d hdg
  simp only [splitSegs, List.mem_filter] at hg
  intro hd
  subst hd
  exact splitOnChar_sep_not_mem '/' p g hg.1 hdg

/-- Fields produced by `_split` are non-empty. -/
theorem splitSegs_nonempty (p : Str) : ∀ g ∈ splitSegs p, g ≠ [] := by
  intro g hg
  simp only [splitSegs, List.mem_filter] at hg
  intro h
  subst h
  simp at hg

/-- Every non-`path` parameter type rejects strings containing a
slash. -/
theorem typeMatch_no_slash (tid : PatId) (s : Str)
    (hne : tid ≠ PatId.pPath) (hm : typeMatch tid s = true) :
    ∀ c ∈ s, c ≠ '/' := by
  intro c hc hcs
  subst hcs
  cases tid with
  | pPath => exact hne rfl
  | pInt =>
    simp only [typeMatch, Bool.and_eq_true, List.all_eq_true] at hm
    have := hm.2 '/' hc
    simp [isAsciiDigit] at this
  | pStr =>
    simp only [typeMatch, Bool.and_eq_true, List.all_eq_true] at hm
    have := hm.2 '/' hc
    simp at this
  | pUuid =>
    simp only [typeMatch, uuidMatch, Bool.and_eq_true,
      List.all_eq_true] at hm
    rcases mem_splitOnChar_of_mem '-' '/' s hc with h | ⟨g, hg, hmem⟩
    · cases h
    · have := hm.2 g hg
      simp only [List.all_eq_true] at this
      have := this '/' hmem
      simp [isHexDigitChar, hexVal] at this
  | pSlug =>
    simp only [typeMatch, slugMatch, Bool.and_eq_true,
      List.all_eq_true] at hm
    rcases mem_splitOnChar_of_mem '-' '/' s hc with h | ⟨g, hg, hmem⟩
    · cases h
    · have := hm.2 g hg
      simp only [Bool.and_eq_true, List.all_eq_true] at this
      have := this.2 '/' hmem
      simp [isSlugChar, isAsciiDigit] at this

/-- The scan maps an all-literal prefix to literal tokens. -/
theorem compileAuxF_append_lit (x : Str) :
    ∀ (rest : Str) (f f2 : Nat), (∀ c ∈ x, c ≠ '{') →
    (x ++ rest).length ≤ f → rest.length ≤ f2 →
    compileAuxF f (x ++ rest) =
      (compileAuxF f2 rest).map (fun l => x.map RTok.lit ++ l) := by
  induction x with
  | nil =>
    intro rest f f2 _ h1 h2
    simp only [List.nil_append, List.map_nil]
    rw [compileAuxF_fuel f rest f2 (by simpa using h1) h2]
    cases compileAuxF f2 rest <;> simp
  | cons c x ih =>
    intro rest f f2 hx h1 h2
    cases f with
    | zero => simp at h1
    | succ g =>
      rw [List.cons_append, compileAuxF_litchar g c (x ++ rest)
        (hx c (List.mem_cons_self _ _))]
      rw [ih rest g f2 (fun d hd => hx d (List.mem_cons_of_mem _ hd))
        (by simp at h1 ⊢; omega) h2]
      cases compileAuxF f2 rest <;> simp

/-- The scan compiles a parameter segment to one capturing group. -/
theorem compileAuxF_param (s : Str) (nm : Str) (oty : Option Str)
    (tid : PatId) (hp : parseParamSeg s = some (nm, oty))
    (htid : typeIdOf (oty.getD (strOf "str")) = some tid) :
    ∀ (rest : Str) (f f2 : Nat), (s ++ rest).length ≤ f →
    rest.length ≤ f2 →
    compileAuxF f (s ++ rest) =
      (compileAuxF f2 rest).map (fun l => RTok.grp nm tid :: l) := by
  obtain ⟨hnm, hnmall, hshape⟩ := parseParamSeg_shape s nm oty hp
  have hnmemp : nm.isEmpty = false := by
    cases nm with
    | nil => exact absurd rfl hnm
    | cons _ _ => rfl
  cases oty with
  | none =>
    simp only at hshape
    have htid' : tid = PatId.pStr := by
      rw [show typeIdOf ((none : Option Str).getD (strOf "str")) =
        some PatId.pStr from rfl] at htid
      exact (Option.some.inj htid).symm
    subst htid'
    subst hshape
    intro rest f f2 h1 h2
    cases f with
    | zero => simp at h1
    | succ g =>
      have hrl : rest.length ≤ g := by simp at h1; omega
      rw [show ('{' :: nm ++ ['}']) ++ rest =
        '{' :: (nm ++ '}' :: rest) by simp]
      rw [compileAuxF_brace g (nm ++ '}' :: rest)]
      rw [takeWhile_all_append isWordChar nm hnmall '}' rest (by decide),
        dropWhile_all_append isWordChar nm hnmall '}' rest (by decide)]
      rw [if_neg (by simp [hnmemp])]
      show Option.map (fun x => RTok.grp nm PatId.pStr :: x)
        (compileAuxF g rest) = _
      rw [compileAuxF_fuel g rest f2 hrl h2]
  | some ty =>
    obtain ⟨hty, htyall, hshape⟩ := hshape
    have htyemp : ty.isEmpty = false := by
      cases ty with
      | nil => exact absurd rfl hty
      | cons _ _ => rfl
    have htid2 : typeIdOf ty = some tid := htid
    subst hshape
    intro rest f f2 h1 h2
    cases f with
    | zero => simp at h1
    | succ g =>
      have hrl : rest.length ≤ g := by simp at h1; omega
      rw [show ('{' :: nm ++ ':' :: ty ++ ['}']) ++ rest =
        '{' :: (nm ++ ':' :: (ty ++ '}' :: rest)) by simp]
      rw [compileAuxF_brace g (nm ++ ':' :: (ty ++ '}' :: rest))]
      rw [takeWhile_all_append isWordChar nm hnmall ':'
          (ty ++ '}' :: rest) (by decide),
        dropWhile_all_append isWordChar nm hnmall ':'
          (ty ++ '}' :: rest) (by decide)]
      rw [if_neg (by simp [hnmemp])]
      show (if (List.takeWhile isWordChar (ty ++ '}' :: rest)).isEmpty =
          true then
        Option.map (fun x => RTok.lit '{' :: x)
          (compileAuxF g (nm ++ ':' :: (ty ++ '}' :: rest)))
      else
        match List.dropWhile isWordChar (ty ++ '}' :: rest) with
        | '}' :: rem2 =>
          match typeIdOf (List.takeWhile isWordChar (ty ++ '}' :: rest))
            with
          | some t =>
            Option.map (fun x => RTok.grp nm t :: x) (compileAuxF g rem2)
          | none => none
        | _ =>
          Option.map (fun x => RTok.lit '{' :: x)
            (compileAuxF g (nm ++ ':' :: (ty ++ '}' :: rest)))) = _
      rw [takeWhile_all_append isWordChar ty htyall '}' rest (by decide),
        dropWhile_all_append isWordChar ty htyall '}' rest (by decide)]
      rw [if_neg (by simp [htyemp])]
      show (match typeIdOf ty with
        | some t =>
          Option.map (fun x => RTok.grp nm t :: x) (compileAuxF g rest)
        | none => none) = _
      rw [htid2]
      rw [compileAuxF_fuel g rest f2 hrl h2]

/-- The scan compiles a normalized template, segment by segment. -/
theorem compileAuxF_segsPath (segs : List Str) :
    ∀ (f : Nat), segs.all goodSeg = true →
    (segs.flatMap fun s => '/' :: s).length ≤ f →
    compileAuxF f (segs.flatMap fun s => '/' :: s) =
      some (routeToks segs) := by
  induction segs with
  | nil => intro f _ _; cases f <;> rfl
  | cons s segs ih =>
    intro f hg hlen
    simp only [List.all_cons, Bool.and_eq_true] at hg
    rw [show ((s :: segs).flatMap fun s => '/' :: s) =
      '/' :: (s ++ segs.flatMap fun s => '/' :: s) by simp]
    rw [show ((s :: segs).flatMap fun s => '/' :: s) =
      '/' :: (s ++ segs.flatMap fun s => '/' :: s) by simp] at hlen
    cases f with
    | zero => simp at hlen
    | succ g =>
      simp only [List.length_cons, Nat.succ_le_succ_iff] at hlen
      have hlen2 : (segs.flatMap fun s => '/' :: s).length ≤ g := by
        rw [List.length_append] at hlen; omega
      rw [compileAuxF_litchar g '/' _ (by decide)]
      by_cases hp : isParamSeg s = true
      · have hgp := goodSeg_param_of_isParam s hg.1 hp
        obtain ⟨nm, oty, tid, hparse, htid, -⟩ := goodParam_spec s hgp
        rw [compileAuxF_param s nm oty tid hparse htid _ g g hlen hlen2]
        rw [ih g hg.2 hlen2]
        simp [routeToks, segToks, hparse, htid]
      · have hgs := goodSeg_static_of_not_param s hg.1
          (by simpa using hp)
        have hnb : ∀ c ∈ s, c ≠ '{' := by
          intro c hc
          simp only [goodStaticSeg, Bool.and_eq_true,
            List.all_eq_true] at hgs
          have := hgs.2 c hc
          simp only [Bool.and_eq_true, decide_eq_true_eq] at this
          exact this.1.1.2
        rw [compileAuxF_append_lit s _ g g hnb hlen hlen2]
        rw [ih g hg.2 hlen2]
        simp [routeToks, segToks, parseParamSeg_none_of_static s hgs]

/-- Literal tokens contribute no group names. -/
theorem tokNames_map_lit (s : Str) : tokNames (s.map RTok.lit) = [] := by
  induction s with
  | nil => rfl
  | cons c rest ih =>
    rw [List.map_cons]
    rw [show tokNames (RTok.lit c :: rest.map RTok.lit) =
      tokNames (rest.map RTok.lit) from rfl]
    exact ih

/-- The group names of a compiled normalized template are its
parameter names in order. -/
theorem tokNames_routeToks (segs : List Str) :
    tokNames (routeToks segs) =
      segs.filterMap fun s => (parseParamSeg s).map (fun pr => pr.1) := by
  induction segs with
  | nil => rfl
  | cons s segs ih =>
    rw [show routeToks (s :: segs) =
      (RTok.lit '/' :: segToks s) ++ routeToks segs by simp [routeToks]]
    rw [show tokNames ((RTok.lit '/' :: segToks s) ++ routeToks segs) =
      tokNames (RTok.lit '/' :: segToks s) ++ tokNames (routeToks segs)
      from List.filterMap_append _ _ _]
    rw [ih]
    cases hparse : parseParamSeg s with
    | none => simp [segToks, hparse, tokNames, tokNames_map_lit]
    | some pr =>
      obtain ⟨nm, oty⟩ := pr
      simp [segToks, hparse, tokNames]

/-- Full compilation of a normalized nonempty template. -/
theorem compileToks_route (segs : List Str) (hne : segs ≠ [])
    (hg : segs.all goodSeg = true)
    (hnd : (segs.filterMap fun s =>
      (parseParamSeg s).map (fun pr => pr.1)).Nodup) :
    compileToks (pathOfSegs segs) = some (routeToks segs) := by
  have hpath : pathOfSegs segs = segs.flatMap fun s => '/' :: s := by
    rw [pathOfSegs, if_neg (by simpa using hne)]
  rw [compileToks, hpath, compileAux,
    compileAuxF_segsPath segs _ hg (le_refl _)]
  show (if (tokNames (routeToks segs)).Nodup then some (routeToks segs)
    else none) = _
  rw [if_pos (by rw [tokNames_routeToks]; exact hnd)]

/-- Full compilation of the root template `/`. -/
theorem compileToks_root : compileToks (strOf "/") = some [RTok.lit '/'] :=
  rfl

/-! ### Anchored-matching lemmas -/

/-- Matching literal tokens against the same literal text consumes
it. -/
theorem matchToks_lit_append (x : Str) :
    ∀ (ts : List RTok) (cs : Str),
    matchToks (x.map RTok.lit ++ ts) (x ++ cs) = matchToks ts cs := by
  induction x with
  | nil => intro ts cs; rfl
  | cons c x ih =>
    intro ts cs
    rw [List.map_cons, List.cons_append, List.cons_append]
    rw [show matchToks (RTok.lit c :: (x.map RTok.lit ++ ts))
        (c :: (x ++ cs)) = matchToks (x.map RTok.lit ++ ts) (x ++ cs)
      from by simp [matchToks]]
    exact ih ts cs

/-- A compiled template suffix is empty or starts with the slash
literal. -/
theorem routeToks_head (ts : List Str) :
    routeToks ts = [] ∨
      ∃ ts2, routeToks ts = RTok.lit '/' :: ts2 := by
  cases ts with
  | nil => exact Or.inl rfl
  | cons s ts =>
    exact Or.inr ⟨segToks s ++ routeToks ts, by simp [routeToks]⟩

/-- A rendered path suffix is empty or starts with a slash. -/
theorem flatMapSlash_head (qs : List Str) :
    (qs.flatMap fun s => '/' :: s) = [] ∨
      ∃ cs2, (qs.flatMap fun s => '/' :: s) = '/' :: cs2 := by
  cases qs with
  | nil => exact Or.inl rfl
  | cons q qs =>
    exact Or.inr ⟨q ++ qs.flatMap fun s => '/' :: s, by simp⟩

/-- A good literal segment contains no slash. -/
theorem goodStatic_no_slash (s : Str) (h : goodStaticSeg s = true) :
    s.all (· ≠ '/') = true := by
  simp only [goodStaticSeg, Bool.and_eq_true, List.all_eq_true] at h ⊢
  intro c hc
  have := h.2 c hc
  simp only [Bool.and_eq_true, decide_eq_true_eq] at this
  simp [this.1.1.1]

/-- Mismatching a literal segment against a different path segment
fails, whatever well-formed suffixes follow. -/
theorem matchToks_lit_mismatch (ts2 : List RTok) (cs2 : Str)
    (hts : ts2 = [] ∨ ∃ ts3, ts2 = RTok.lit '/' :: ts3)
    (hcs : cs2 = [] ∨ ∃ cs3, cs2 = '/' :: cs3) :
    ∀ (t q : Str), t.all (· ≠ '/') = true → q.all (· ≠ '/') = true →
    t ≠ q → matchToks (t.map RTok.lit ++ ts2) (q ++ cs2) = none := by
  intro t
  induction t with
  | nil =>
    intro q _ hq hne
    cases q with
    | nil => exact absurd rfl hne
    | cons d q2 =>
      have hd : d ≠ '/' := by
        simp only [List.all_cons, Bool.and_eq_true,
          decide_eq_true_eq] at hq
        exact hq.1
      rcases hts with h | ⟨ts3, h⟩
      · subst h; rfl
      · subst h
        rw [List.map_nil, List.nil_append, List.cons_append]
        simp [matchToks, hd]
  | cons c t2 ih =>
    intro q ht hq hne
    have hc : c ≠ '/' := by
      simp only [List.all_cons, Bool.and_eq_true,
        decide_eq_true_eq] at ht
      exact ht.1
    have ht2 : t2.all (· ≠ '/') = true := by
      simp only [List.all_cons, Bool.and_eq_true] at ht
      exact ht.2
    cases q with
    | nil =>
      rcases hcs with h | ⟨cs3, h⟩
      · subst h; rfl
      · subst h
        rw [List.map_cons, List.cons_append, List.nil_append]
        rw [show matchToks (RTok.lit c :: (t2.map RTok.lit ++ ts2))
            ('/' :: cs3) =
            (if '/' = c then
              matchToks (t2.map RTok.lit ++ ts2) cs3 else none)
          from rfl]
        rw [if_neg fun h => hc h.symm]
    | cons d q2 =>
      have hq2 : q2.all (· ≠ '/') = true := by
        simp only [List.all_cons, Bool.and_eq_true] at hq
        exact hq.2
      rw [List.map_cons, List.cons_append, List.cons_append]
      by_cases hcd : c = d
      · subst hcd
        have hne2 : t2 ≠ q2 := by
          intro h; exact hne (by rw [h])
        rw [show matchToks (RTok.lit c :: (t2.map RTok.lit ++ ts2))
            (c :: (q2 ++ cs2)) =
            matchToks (t2.map RTok.lit ++ ts2) (q2 ++ cs2)
          from by simp [matchToks]]
        exact ih q2 ht2 hq2 hne2
      · have hdc : d ≠ c := fun h => hcd h.symm
        simp [matchToks, hdc]

/-- No parameter type matches the empty string. -/
theorem typeMatch_nil (tid : PatId) : typeMatch tid [] = false := by
  cases tid <;> rfl

/-- A matched capture text is non-empty. -/
theorem typeMatch_nonempty (tid : PatId) (s : Str)
    (h : typeMatch tid s = true) : s ≠ [] := by
  intro hs
  subst hs
  rw [typeMatch_nil] at h
  cases h

/-- `findSome?` of an everywhere-`none` function. -/
theorem findSome?_eq_none_all {α β : Type} (f : α → Option β) :
    ∀ (l : List α), (∀ x ∈ l, f x = none) → l.findSome? f = none := by
  intro l
  induction l with
  | nil => intro _; rfl
  | cons a l ih =>
    intro h
    rw [List.findSome?_cons, h a (List.mem_cons_self _ _)]
    exact ih fun x hx => h x (List.mem_cons_of_mem _ hx)

/-- `findSome?` when a single listed argument can produce a value. -/
theorem findSome?_eq_unique {α β : Type} [DecidableEq α]
    (f : α → Option β) (k : α) :
    ∀ (l : List α), k ∈ l → (∀ x ∈ l, x ≠ k → f x = none) →
    l.findSome? f = f k := by
  intro l
  induction l with
  | nil => intro hk _; simp at hk
  | cons a l ih =>
    intro hk h
    by_cases hak : a = k
    · subst hak
      rw [List.findSome?_cons]
      cases hf : f a with
      | some b => rfl
      | none =>
        have hall : ∀ x ∈ l, f x = none := by
          intro x hx
          by_cases hxa : x = a
          · subst hxa; exact hf
          · exact h x (List.mem_cons_of_mem _ hx) hxa
        rw [findSome?_eq_none_all f l hall]
    · have hk2 : k ∈ l := by
        rcases List.mem_cons.mp hk with h' | h'
        · exact absurd h'.symm hak
        · exact h'
      rw [List.findSome?_cons, h a (List.mem_cons_self _ _) hak]
      exact ih hk2 fun x hx => h x (List.mem_cons_of_mem _ hx)

/-- Matching one capturing group at a segment boundary: only the whole
segment can be captured, greedily or not. -/
theorem matchToks_grp (nm : Str) (tid : PatId) (hne : tid ≠ PatId.pPath)
    (ts2 : List RTok) (hts : ts2 = [] ∨ ∃ ts3, ts2 = RTok.lit '/' :: ts3)
    (q : Str) (hq : q.all (· ≠ '/') = true)
    (cs2 : Str) (hcs : cs2 = [] ∨ ∃ cs3, cs2 = '/' :: cs3) :
    matchToks (RTok.grp nm tid :: ts2) (q ++ cs2) =
      if typeMatch tid q = true then
        (matchToks ts2 cs2).map (fun l => (nm, tid, q) :: l)
      else none := by
  have hmem : q.length ∈ (List.range ((q ++ cs2).length + 1)).reverse := by
    simp only [List.mem_reverse, List.mem_range, List.length_append]
    omega
  have hothers : ∀ k ∈ (List.range ((q ++ cs2).length + 1)).reverse,
      k ≠ q.length →
      (if typeMatch tid ((q ++ cs2).take k) = true then
        (matchToks ts2 ((q ++ cs2).drop k)).map
          (fun l => (nm, tid, (q ++ cs2).take k) :: l)
      else none) = none := by
    intro k hk hkne
    by_cases hlt : k < q.length
    · have hdrop : (q ++ cs2).drop k = q.drop k ++ cs2 := by
        rw [List.drop_append_eq_append_drop,
          Nat.sub_eq_zero_of_le (le_of_lt hlt), List.drop_zero]
      have hq2 : (q.drop k).all (· ≠ '/') = true := by
        rw [List.all_eq_true] at hq ⊢
        exact fun c hc => hq c (List.mem_of_mem_drop hc)
      have hne2 : ([] : Str) ≠ q.drop k := by
        intro h
        have := congrArg List.length h
        simp only [List.length_nil, List.length_drop] at this
        omega
      have hmm : matchToks ts2 ((q ++ cs2).drop k) = none := by
        rw [hdrop]
        have := matchToks_lit_mismatch ts2 cs2 hts hcs [] (q.drop k)
          (by simp) hq2 hne2
        simpa using this
      rw [hmm]
      cases typeMatch tid ((q ++ cs2).take k) <;> simp
    · have hgt : q.length < k :=
        lt_of_le_of_ne (not_lt.mp hlt) fun h => hkne h.symm
      have hkle : k ≤ (q ++ cs2).length := by
        simp only [List.mem_reverse, List.mem_range] at hk
        omega
      obtain ⟨cs3, hcs3⟩ : ∃ cs3, cs2 = '/' :: cs3 := by
        rcases hcs with h | h
        · subst h
          simp only [List.append_nil] at hkle
          omega
        · exact h
      have hslash : '/' ∈ (q ++ cs2).take k := by
        subst hcs3
        rw [List.take_append_eq_append_take]
        refine List.mem_append.mpr (Or.inr ?_)
        cases hkq : k - q.length with
        | zero => omega
        | succ m =>
          rw [List.take_succ_cons]
          exact List.mem_cons_self _ _
      rw [if_neg]
      intro htm
      exact (typeMatch_no_slash tid _ hne htm '/' hslash) rfl
  rw [show matchToks (RTok.grp nm tid :: ts2) (q ++ cs2) =
    ((List.range ((q ++ cs2).length + 1)).reverse).findSome? (fun k =>
      if typeMatch tid ((q ++ cs2).take k) = true then
        (matchToks ts2 ((q ++ cs2).drop k)).map
          (fun l => (nm, tid, (q ++ cs2).take k) :: l)
      else none) from rfl]
  rw [findSome?_eq_unique _ q.length _ hmem hothers]
  rw [List.take_left, List.drop_left]

/-- Anchored matching of a compiled normalized template against a
rendered path agrees with per-segment alignment. -/
theorem matchToks_routeToks (segs : List Str) :
    ∀ (psegs : List Str), segs.all goodSeg = true →
    (∀ g ∈ psegs, g ≠ [] ∧ g.all (· ≠ '/') = true) →
    matchToks (routeToks segs) (psegs.flatMap fun s => '/' :: s) =
      alignRaw segs psegs := by
  induction segs with
  | nil =>
    intro psegs _ hp
    cases psegs with
    | nil => rfl
    | cons q qs => rfl
  | cons t ts ih =>
    intro psegs hg hp
    simp only [List.all_cons, Bool.and_eq_true] at hg
    cases psegs with
    | nil =>
      rw [show routeToks (t :: ts) =
        RTok.lit '/' :: (segToks t ++ routeToks ts) by simp [routeToks]]
      rfl
    | cons q qs =>
      rw [show routeToks (t :: ts) =
        RTok.lit '/' :: (segToks t ++ routeToks ts) by simp [routeToks]]
      rw [show ((q :: qs).flatMap fun s => '/' :: s) =
        '/' :: (q ++ qs.flatMap fun s => '/' :: s) by simp]
      rw [show matchToks
          (RTok.lit '/' :: (segToks t ++ routeToks ts))
          ('/' :: (q ++ qs.flatMap fun s => '/' :: s)) =
        matchToks (segToks t ++ routeToks ts)
          (q ++ qs.flatMap fun s => '/' :: s) from by simp [matchToks]]
      have hq := hp q (List.mem_cons_self _ _)
      have hqs : ∀ g ∈ qs, g ≠ [] ∧ g.all (· ≠ '/') = true :=
        fun g hg' => hp g (List.mem_cons_of_mem _ hg')
      have hts2 := routeToks_head ts
      have hcs2 := flatMapSlash_head qs
      by_cases hpt : isParamSeg t = true
      · have hgp := goodSeg_param_of_isParam t hg.1 hpt
        obtain ⟨nm, oty, tid, hparse, htid, htidne⟩ := goodParam_spec t hgp
        rw [show segToks t = [RTok.grp nm tid] by
          simp [segToks, hparse, htid]]
        rw [List.singleton_append]
        rw [matchToks_grp nm tid htidne (routeToks ts) hts2 q hq.2 _ hcs2]
        rw [show alignRaw (t :: ts) (q :: qs) =
          (if typeMatch tid q = true then
            (alignRaw ts qs).map (fun l => (nm, tid, q) :: l)
          else none) from by simp [alignRaw, hparse, htid]]
        by_cases htm : typeMatch tid q = true
        · rw [if_pos htm, if_pos htm, ih qs hg.2 hqs]
        · rw [if_neg htm, if_neg htm]
      · have hgs := goodSeg_static_of_not_param t hg.1
          (by simp at hpt; exact hpt)
        have hparse := parseParamSeg_none_of_static t hgs
        rw [show segToks t = t.map RTok.lit by simp [segToks, hparse]]
        by_cases htq : t = q
        · subst htq
          rw [matchToks_lit_append t (routeToks ts) _]
          rw [ih qs hg.2 hqs]
          rw [show alignRaw (t :: ts) (t :: qs) = alignRaw ts qs from by
            simp [alignRaw, hparse]]
        · rw [matchToks_lit_mismatch (routeToks ts) _ hts2 hcs2 t q
            (goodStatic_no_slash t hgs) hq.2 htq]
          rw [show alignRaw (t :: ts) (q :: qs) = none from by
            simp [alignRaw, hparse, htq]]

/-- A nonempty compiled normalized template never matches the bare
root path. -/
theorem matchToks_routeToks_root (t : Str) (ts : List Str)
    (hg : goodSeg t = true) :
    matchToks (routeToks (t :: ts)) (strOf "/") = none := by
  rw [show routeToks (t :: ts) =
    RTok.lit '/' :: (segToks t ++ routeToks ts) by simp [routeToks]]
  rw [show matchToks
      (RTok.lit '/' :: (segToks t ++ routeToks ts)) (strOf "/") =
    matchToks (segToks t ++ routeToks ts) [] from by
      simp [matchToks, strOf]]
  by_cases hpt : isParamSeg t = true
  · have hgp := goodSeg_param_of_isParam t hg hpt
    obtain ⟨nm, oty, tid, hparse, htid, -⟩ := goodParam_spec t hgp
    rw [show segToks t = [RTok.grp nm tid] by simp [segToks, hparse, htid]]
    rw [List.singleton_append]
    rw [show matchToks (RTok.grp nm tid :: routeToks ts) [] =
      (List.findSome? (fun k =>
        if typeMatch tid (([] : Str).take k) = true then
          (matchToks (routeToks ts) (([] : Str).drop k)).map
            (fun l => (nm, tid, ([] : Str).take k) :: l)
        else none) ((List.range (([] : Str).length + 1)).reverse))
      from rfl]
    rw [show (List.range (([] : Str).length + 1)).reverse = [0] from rfl]
    rw [List.findSome?_cons]
    rw [show (([] : Str).take 0) = ([] : Str) from rfl, typeMatch_nil]
    rfl
  · have hgs := goodSeg_static_of_not_param t hg (by simp at hpt; exact hpt)
    have hparse := parseParamSeg_none_of_static t hgs
    rw [show segToks t = t.map RTok.lit by simp [segToks, hparse]]
    cases ht : t with
    | nil =>
      rw [ht] at hgs
      simp [goodStaticSeg] at hgs
    | cons c t2 => rfl

/-- A path rebuilt from newline-free segments is newline-free. -/
theorem pathOfSegs_no_newline (psegs : List Str)
    (h : ∀ g ∈ psegs, ∀ c ∈ g, c ≠ '\n') : '\n' ∉ pathOfSegs psegs := by
  unfold pathOfSegs
  by_cases hemp : psegs.isEmpty = true
  · rw [if_pos hemp]
    simp [strOf]
  · rw [if_neg hemp]
    intro hc
    obtain ⟨g, hg, hcg⟩ := List.mem_flatMap.mp hc
    rcases List.mem_cons.mp hcg with h' | h'
    · cases h'
    · exact h g hg '\n' h' rfl

/-- On newline-free subjects the `$`-before-final-newline fallback of
`pattern.match` never fires. -/
theorem matchFullPy_eq_matchToks (toks : List RTok) (p : Str)
    (hnl : '\n' ∉ p) : matchFullPy toks p = matchToks toks p := by
  unfold matchFullPy
  cases hm : matchToks toks p with
  | some caps => rfl
  | none =>
    rw [if_neg]
    intro hcontra
    exact hnl (List.mem_of_mem_getLast? hcontra)

/-- Dict-accumulating alignment in terms of raw alignment. -/
theorem alignAcc_alignRaw (ts : List Str) :
    ∀ (ps : List Str) (params : List (Str × PVal)),
    alignAcc ts ps params =
      (alignRaw ts ps).map (fun caps =>
        caps.foldl
          (fun m c => dictSet m c.1 (convertVal c.2.1 c.2.2)) params) := by
  induction ts with
  | nil =>
    intro ps params
    cases ps with
    | nil => rfl
    | cons q qs => rfl
  | cons t ts ih =>
    intro ps params
    cases ps with
    | nil => rfl
    | cons q qs =>
      cases hparse : parseParamSeg t with
      | none =>
        by_cases htq : t = q
        · rw [show alignAcc (t :: ts) (q :: qs) params =
            alignAcc ts qs params from by
              subst htq; simp [alignAcc, hparse]]
          rw [show alignRaw (t :: ts) (q :: qs) = alignRaw ts qs from by
            subst htq; simp [alignRaw, hparse]]
          exact ih qs params
        · rw [show alignAcc (t :: ts) (q :: qs) params = none from by
            simp [alignAcc, hparse, htq]]
          rw [show alignRaw (t :: ts) (q :: qs) = none from by
            simp [alignRaw, hparse, htq]]
          rfl
      | some pr =>
        obtain ⟨nm, oty⟩ := pr
        by_cases htm : typeMatch
            ((typeIdOf (oty.getD (strOf "str"))).getD PatId.pStr) q = true
        · rw [show alignAcc (t :: ts) (q :: qs) params =
            alignAcc ts qs (dictSet params nm
              (convertVal
                ((typeIdOf (oty.getD (strOf "str"))).getD PatId.pStr) q))
            from by simp [alignAcc, hparse, htm]]
          rw [show alignRaw (t :: ts) (q :: qs) =
            (alignRaw ts qs).map (fun l =>
              (nm, (typeIdOf (oty.getD (strOf "str"))).getD PatId.pStr,
                q) :: l) from by simp [alignRaw, hparse, htm]]
          rw [ih]
          cases alignRaw ts qs <;> simp
        · rw [show alignAcc (t :: ts) (q :: qs) params = none from by
            simp [alignAcc, hparse, htm]]
          rw [show alignRaw (t :: ts) (q :: qs) = none from by
            simp [alignRaw, hparse, htm]]
          rfl

/-- Assigning a fresh key appends it. -/
theorem dictSet_fresh (m : List (Str × PVal)) (k : Str) (v : PVal)
    (h : ∀ e ∈ m, e.1 ≠ k) : dictSet m k v = m ++ [(k, v)] := by
  unfold dictSet
  rw [if_neg]
  intro hany
  obtain ⟨e, he, hek⟩ := List.any_eq_true.mp hany
  exact h e he (by simpa using hek)

/-- Folding fresh assignments over a dict appends the bindings in
order. -/
theorem foldl_dictSet_eq_append (caps : List (Str × PatId × Str)) :
    ∀ (m : List (Str × PVal)),
    (∀ c ∈ caps, ∀ e ∈ m, e.1 ≠ c.1) →
    (caps.map (fun c => c.1)).Nodup →
    caps.foldl (fun m c => dictSet m c.1 (convertVal c.2.1 c.2.2)) m =
      m ++ caps.map (fun c => (c.1, convertVal c.2.1 c.2.2)) := by
  induction caps with
  | nil => intro m _ _; simp
  | cons c caps ih =>
    intro m hfresh hnd
    rw [List.foldl_cons]
    rw [dictSet_fresh m c.1 (convertVal c.2.1 c.2.2)
      (hfresh c (List.mem_cons_self _ _))]
    simp only [List.map_cons, List.nodup_cons] at hnd
    rw [ih (m ++ [(c.1, convertVal c.2.1 c.2.2)]) ?_ hnd.2]
    · simp
    · intro c2 hc2 e he
      rcases List.mem_append.mp he with h' | h'
      · exact hfresh c2 (List.mem_cons_of_mem _ hc2) e h'
      · rw [List.mem_singleton] at h'
        subst h'
        intro hcc
        exact hnd.1 (hcc ▸ List.mem_map_of_mem (fun c => c.1) hc2)

/-- The capture names of a successful raw alignment are the template's
parameter names in order. -/
theorem alignRaw_names (ts : List Str) :
    ∀ (ps : List Str) (caps : List (Str × PatId × Str)),
    alignRaw ts ps = some caps →
    caps.map (fun c => c.1) =
      ts.filterMap fun s => (parseParamSeg s).map (fun pr => pr.1) := by
  induction ts with
  | nil =>
    intro ps caps h
    cases ps with
    | nil =>
      rw [show alignRaw [] [] = some [] from rfl] at h
      cases h
      rfl
    | cons q qs =>
      rw [show alignRaw [] (q :: qs) = none from rfl] at h
      cases h
  | cons t ts ih =>
    intro ps caps h
    cases ps with
    | nil =>
      rw [show alignRaw (t :: ts) [] = none from rfl] at h
      cases h
    | cons q qs =>
      cases hparse : parseParamSeg t with
      | none =>
        by_cases htq : t = q
        · rw [show alignRaw (t :: ts) (q :: qs) = alignRaw ts qs from by
            subst htq; simp [alignRaw, hparse]] at h
          rw [List.filterMap_cons, hparse]
          exact ih qs caps h
        · rw [show alignRaw (t :: ts) (q :: qs) = none from by
            simp [alignRaw, hparse, htq]] at h
          cases h
      | some pr =>
        obtain ⟨nm, oty⟩ := pr
        by_cases htm : typeMatch
            ((typeIdOf (oty.getD (strOf "str"))).getD PatId.pStr) q = true
        · rw [show alignRaw (t :: ts) (q :: qs) =
            (alignRaw ts qs).map (fun l =>
              (nm, (typeIdOf (oty.getD (strOf "str"))).getD PatId.pStr,
                q) :: l) from by simp [alignRaw, hparse, htm]] at h
          cases hraw : alignRaw ts qs with
          | none => rw [hraw] at h; cases h
          | some caps2 =>
            rw [hraw] at h
            cases h
            rw [List.filterMap_cons, hparse]
            simp only [List.map_cons]
            rw [ih qs caps2 hraw]
            rfl
        · rw [show alignRaw (t :: ts) (q :: qs) = none from by
            simp [alignRaw, hparse, htm]] at h
          cases h

/-- Dict-accumulating alignment from the empty dict is the raw
alignment with converted captures, provided parameter names are
pairwise distinct. -/
theorem alignAcc_nil_params (ts ps : List Str)
    (hnd : (ts.filterMap fun s =>
      (parseParamSeg s).map (fun pr => pr.1)).Nodup) :
    alignAcc ts ps [] =
      (alignRaw ts ps).map (fun caps =>
        caps.map fun cap => (cap.1, convertVal cap.2.1 cap.2.2)) := by
  rw [alignAcc_alignRaw]
  cases hraw : alignRaw ts ps with
  | none => rfl
  | some caps =>
    simp only [Option.map_some']
    rw [foldl_dictSet_eq_append caps [] (by simp) ?_]
    · rw [List.nil_append]
    · rw [alignRaw_names ts ps caps hraw]
      exact hnd

/-- `Route.match` on normalized templates and paths is per-segment
alignment. -/
theorem routeMatch_eq_alignAcc (r : MRoute) (p : Str)
    (hr : normRouteB r = true) (hp : normPathB p = true) :
    routeMatch r p = alignAcc (splitSegs r.path) (splitSegs p) [] := by
  simp only [normRouteB, Bool.and_eq_true, beq_iff_eq,
    decide_eq_true_eq] at hr
  obtain ⟨⟨hgood, hpatheq⟩, hnd⟩ := hr
  simp only [normPathB, Bool.and_eq_true, beq_iff_eq] at hp
  obtain ⟨hpeq, hnonl⟩ := hp
  have hsegsP : ∀ g ∈ splitSegs p, g ≠ [] ∧ g.all (· ≠ '/') = true := by
    intro g hg
    refine ⟨splitSegs_nonempty p g hg, ?_⟩
    rw [List.all_eq_true]
    intro c hc
    simp [splitSegs_no_slash p g hg c hc]
  have hnl : '\n' ∉ p := by
    rw [hpeq]
    apply pathOfSegs_no_newline
    intro g hg c hc
    rw [List.all_eq_true] at hnonl
    have := hnonl g hg
    rw [List.all_eq_true] at this
    have := this c hc
    simpa using this
  cases hsegsR : splitSegs r.path with
  | nil =>
    have hpath : r.path = strOf "/" := by
      rw [hpatheq, hsegsR]
      rfl
    simp only [routeMatch, hpath, compileToks_root]
    rw [matchFullPy_eq_matchToks _ _ hnl]
    cases hsegsP2 : splitSegs p with
    | nil =>
      have hpp : p = strOf "/" := by
        rw [hpeq, hsegsP2]
        rfl
      rw [hpp]
      rfl
    | cons q qs =>
      have hqmem : q ∈ splitSegs p := by
        rw [hsegsP2]
        exact List.mem_cons_self _ _
      have hqne := (hsegsP q hqmem).1
      have hppp : p = (q :: qs).flatMap fun s => '/' :: s := by
        rw [hpeq, hsegsP2, pathOfSegs, if_neg (by simp)]
      rw [hppp]
      rw [show ((q :: qs).flatMap fun s => '/' :: s) =
        '/' :: (q ++ qs.flatMap fun s => '/' :: s) by simp]
      rw [show matchToks [RTok.lit '/']
          ('/' :: (q ++ qs.flatMap fun s => '/' :: s)) =
        matchToks [] (q ++ qs.flatMap fun s => '/' :: s) from by
          simp [matchToks]]
      rw [show matchToks [] (q ++ qs.flatMap fun s => '/' :: s) =
          none from by
        cases hq0 : q with
        | nil => exact absurd hq0 hqne
        | cons c q2 => rfl]
      rfl
  | cons t ts =>
    have hgood2 : (t :: ts).all goodSeg = true := by
      rw [← hsegsR]; exact hgood
    have hnd2 : ((t :: ts).filterMap fun s =>
        (parseParamSeg s).map (fun pr => pr.1)).Nodup := by
      rw [← hsegsR]; exact hnd
    have hpatheq2 : r.path = pathOfSegs (t :: ts) := by
      rw [hpatheq, hsegsR]
    simp only [routeMatch, hpatheq2,
      compileToks_route (t :: ts) (by simp) hgood2 hnd2]
    rw [matchFullPy_eq_matchToks _ _ hnl]
    cases hsegsP2 : splitSegs p with
    | nil =>
      have hpp : p = strOf "/" := by
        rw [hpeq, hsegsP2]
        rfl
      rw [hpp, matchToks_routeToks_root t ts (by
        simp only [List.all_cons, Bool.and_eq_true] at hgood2
        exact hgood2.1)]
      rfl
    | cons q qs =>
      have hppp : p = (q :: qs).flatMap fun s => '/' :: s := by
        rw [hpeq, hsegsP2, pathOfSegs, if_neg (by simp)]
      have hsegsP3 : ∀ g ∈ q :: qs, g ≠ [] ∧ g.all (· ≠ '/') = true := by
        rw [← hsegsP2]; exact hsegsP
      rw [hppp, matchToks_routeToks (t :: ts) (q :: qs) hgood2 hsegsP3]
      rw [alignAcc_nil_params (t :: ts) (q :: qs) hnd2]

/-! ### Consistency and provenance of the pending-entry walk -/

/-- Two consistent suffixes with parametric heads share the head. -/
theorem tailsCons_zero (h1 h2 : Str) (t1 t2 : List Str)
    (hc : tailsCons (h1 :: t1) (h2 :: t2))
    (hp1 : isParamSeg h1 = true) (hp2 : isParamSeg h2 = true) :
    h1 = h2 := by
  have := hc 0 (by rfl) ?_ ?_
  · simpa using this
  · simpa using hp1
  · simpa using hp2

/-- Consistency descends through a shared literal segment. -/
theorem tailsCons_static_step (s : Str) (t1 t2 : List Str)
    (hc : tailsCons (s :: t1) (s :: t2)) : tailsCons t1 t2 := by
  intro i heq hp1 hp2
  have := hc (i + 1) ?_ ?_ ?_
  · simpa [List.getD_cons_succ] using this
  · rw [List.take_succ_cons, List.take_succ_cons]
    simp only [branchPrefixEquivB, Bool.and_eq_true, beq_iff_eq,
      List.length_cons, List.zip_cons_cons, List.all_cons] at heq ⊢
    refine ⟨by omega, ?_, heq.2⟩
    simp [branchEquivB]
  · simpa [List.getD_cons_succ] using hp1
  · simpa [List.getD_cons_succ] using hp2

/-- Consistency descends through two parametric segments. -/
theorem tailsCons_param_step (h1 h2 : Str) (t1 t2 : List Str)
    (hp1 : isParamSeg h1 = true) (hp2 : isParamSeg h2 = true)
    (hc : tailsCons (h1 :: t1) (h2 :: t2)) : tailsCons t1 t2 := by
  intro i heq hq1 hq2
  have := hc (i + 1) ?_ ?_ ?_
  · simpa [List.getD_cons_succ] using this
  · rw [List.take_succ_cons, List.take_succ_cons]
    simp only [branchPrefixEquivB, Bool.and_eq_true, beq_iff_eq,
      List.length_cons, List.zip_cons_cons, List.all_cons] at heq ⊢
    refine ⟨by omega, ?_, heq.2⟩
    simp [branchEquivB, hp1, hp2]
  · simpa [List.getD_cons_succ] using hq1
  · simpa [List.getD_cons_succ] using hq2

/-- Membership in the static tails: the entry descends from a pending
entry headed by exactly the key segment. -/
theorem mem_stTails (P : List PendEntry) (seg : Str) (e : PendEntry)
    (he : e ∈ stTails P seg) :
    isParamSeg seg = false ∧ (e.1, e.2.1, seg :: e.2.2) ∈ P := by
  simp only [stTails, List.mem_filterMap] at he
  obtain ⟨a, ha, hfa⟩ := he
  obtain ⟨i, r, segs⟩ := a
  cases segs with
  | nil => simp at hfa
  | cons h0 t0 =>
    simp only at hfa
    by_cases hcond : (!isParamSeg h0 && decide (h0 = seg)) = true
    · rw [if_pos hcond] at hfa
      cases hfa
      simp only [Bool.and_eq_true, Bool.not_eq_true',
        decide_eq_true_eq] at hcond
      obtain ⟨hnp, heq⟩ := hcond
      subst heq
      exact ⟨hnp, ha⟩
    · rw [if_neg hcond] at hfa
      cases hfa

/-- Membership in the parametric tails: the entry descends from a
pending entry with a parametric head. -/
theorem mem_pmTails (P : List PendEntry) (e : PendEntry)
    (he : e ∈ pmTails P) :
    ∃ hd, isParamSeg hd = true ∧ (e.1, e.2.1, hd :: e.2.2) ∈ P := by
  simp only [pmTails, List.mem_filterMap] at he
  obtain ⟨a, ha, hfa⟩ := he
  obtain ⟨i, r, segs⟩ := a
  cases segs with
  | nil => simp at hfa
  | cons h0 t0 =>
    simp only at hfa
    by_cases hcond : isParamSeg h0 = true
    · rw [if_pos hcond] at hfa
      cases hfa
      exact ⟨h0, hcond, ha⟩
    · rw [if_neg hcond] at hfa
      cases hfa

/-- When `pmHead` finds nothing, no pending entry has a parametric
head. -/
theorem pmHead_none (P : List PendEntry) (h : pmHead P = none) :
    ∀ e ∈ P, ∀ h0 t0, e.2.2 = h0 :: t0 → isParamSeg h0 = false := by
  intro e he h0 t0 ht
  have hall := List.findSome?_eq_none_iff.mp h e he
  rw [ht] at hall
  by_cases hp : isParamSeg h0 = true
  · rw [show (match h0 :: t0 with
      | h :: _ => if isParamSeg h = true then some h else none
      | [] => none) = if isParamSeg h0 = true then some h0 else none
      from rfl, if_pos hp] at hall
    cases hall
  · simp at hp
    exact hp

/-- Every depth-first candidate descends from some pending entry. -/
theorem dfsCands_prov (psegs : List Str) :
    ∀ (P : List PendEntry) (params : List (Str × PVal))
      (c : Nat × MRoute × List (Str × PVal)),
    c ∈ dfsCands P psegs params → ∃ tl, (c.1, c.2.1, tl) ∈ P := by
  induction psegs with
  | nil =>
    intro P params c hc
    simp only [dfsCands, List.mem_map] at hc
    obtain ⟨e, he, hec⟩ := hc
    refine ⟨e.2.2, ?_⟩
    rw [← hec]
    exact (List.mem_filter.mp he).1
  | cons seg rest ih =>
    intro P params c hc
    simp only [dfsCands] at hc
    rcases List.mem_append.mp hc with h | h
    · obtain ⟨tl, htl⟩ := ih (stTails P seg) params c h
      exact ⟨seg :: tl, (mem_stTails P seg _ htl).2⟩
    · cases hph : pmHead P with
      | none => rw [hph] at h; simp at h
      | some h0 =>
        simp only [hph] at h
        cases hparse : parseParamSeg h0 with
        | none => simp only [hparse] at h; simp at h
        | some pr =>
          obtain ⟨nm, oty⟩ := pr
          simp only [hparse] at h
          by_cases htm : typeMatch
              ((typeIdOf (oty.getD (strOf "str"))).getD PatId.pStr) seg
              = true
          · rw [if_pos htm] at h
            obtain ⟨tl, htl⟩ := ih (pmTails P) _ c h
            obtain ⟨hd, -, hmem⟩ := mem_pmTails P _ htl
            exact ⟨hd :: tl, hmem⟩
          · rw [if_neg htm] at h
            simp at h

/-! ### The shape order and insertion sort -/

/-- The shape order is irreflexive. -/
theorem kindsLt_irrefl : ∀ k, kindsLt k k = false := by
  intro k
  induction k with
  | nil => rfl
  | cons a as ih => cases a <;> simp [kindsLt, ih]

/-- The shape order is asymmetric. -/
theorem kindsLt_asymm : ∀ k1 k2, kindsLt k1 k2 = true →
    kindsLt k2 k1 = true → False := by
  intro k1
  induction k1 with
  | nil =>
    intro k2 h12 h21
    cases k2 with
    | nil => simp [kindsLt] at h12
    | cons b bs => simp [kindsLt] at h21
  | cons a as ih =>
    intro k2 h12 h21
    cases k2 with
    | nil => simp [kindsLt] at h12
    | cons b bs =>
      cases a <;> cases b <;> simp_all [kindsLt]

/-- The shape order is transitive. -/
theorem kindsLt_trans : ∀ k1 k2 k3, kindsLt k1 k2 = true →
    kindsLt k2 k3 = true → kindsLt k1 k3 = true := by
  intro k1
  induction k1 with
  | nil =>
    intro k2 k3 h12 h23
    cases k2 with
    | nil => simp [kindsLt] at h12
    | cons b bs =>
      cases k3 with
      | nil => simp [kindsLt] at h23
      | cons c cs => simp [kindsLt]
  | cons a as ih =>
    intro k2 k3 h12 h23
    cases k2 with
    | nil => simp [kindsLt] at h12
    | cons b bs =>
      cases k3 with
      | nil => simp [kindsLt] at h23
      | cons c cs =>
        cases a <;> cases b <;> cases c <;> simp_all [kindsLt] <;>
          exact ih bs cs h12 h23

/-- The shape order is total up to equality. -/
theorem kindsLt_total : ∀ k1 k2, kindsLt k1 k2 = true ∨
    kindsLt k2 k1 = true ∨ k1 = k2 := by
  intro k1
  induction k1 with
  | nil =>
    intro k2
    cases k2 with
    | nil => exact Or.inr (Or.inr rfl)
    | cons b bs => exact Or.inl (by simp [kindsLt])
  | cons a as ih =>
    intro k2
    cases k2 with
    | nil => exact Or.inr (Or.inl (by simp [kindsLt]))
    | cons b bs =>
      cases a <;> cases b
      · rcases ih bs with h | h | h
        · exact Or.inl (by simp [kindsLt, h])
        · exact Or.inr (Or.inl (by simp [kindsLt, h]))
        · exact Or.inr (Or.inr (by rw [h]))
      · exact Or.inl (by simp [kindsLt])
      · exact Or.inr (Or.inl (by simp [kindsLt]))
      · rcases ih bs with h | h | h
        · exact Or.inl (by simp [kindsLt, h])
        · exact Or.inr (Or.inl (by simp [kindsLt, h]))
        · exact Or.inr (Or.inr (by rw [h]))

/-- The shape order ignores a common prefix. -/
theorem kindsLt_append_common : ∀ K a b,
    kindsLt (K ++ a) (K ++ b) = kindsLt a b := by
  intro K a b
  induction K with
  | nil => rfl
  | cons x K ih => cases x <;> simp [kindsLt, ih]

/-- The candidate order is asymmetric. -/
theorem candLt_asymm (x y : Nat × MRoute × List (Str × PVal))
    (hxy : candLt x y = true) (hyx : candLt y x = true) : False := by
  simp only [candLt, Bool.or_eq_true, Bool.and_eq_true, beq_iff_eq,
    decide_eq_true_eq] at hxy hyx
  rcases hxy with h1 | ⟨he1, hi1⟩
  · rcases hyx with h2 | ⟨he2, -⟩
    · exact kindsLt_asymm _ _ h1 h2
    · rw [he2] at h1
      rw [kindsLt_irrefl] at h1
      cases h1
  · rcases hyx with h2 | ⟨-, hi2⟩
    · rw [he1] at h2
      rw [kindsLt_irrefl] at h2
      cases h2
    · omega

/-- The candidate order is transitive. -/
theorem candLt_trans (x y z : Nat × MRoute × List (Str × PVal))
    (hxy : candLt x y = true) (hyz : candLt y z = true) :
    candLt x z = true := by
  simp only [candLt, Bool.or_eq_true, Bool.and_eq_true, beq_iff_eq,
    decide_eq_true_eq] at hxy hyz ⊢
  rcases hxy with h1 | ⟨he1, hi1⟩
  · rcases hyz with h2 | ⟨he2, -⟩
    · exact Or.inl (kindsLt_trans _ _ _ h1 h2)
    · rw [he2] at h1
      exact Or.inl h1
  · rcases hyz with h2 | ⟨he2, hi2⟩
    · rw [← he1] at h2
      exact Or.inl h2
    · exact Or.inr ⟨he1.trans he2, by omega⟩

/-- Candidates with distinct registration indices are comparable. -/
theorem candLt_total_ne (x y : Nat × MRoute × List (Str × PVal))
    (hne : x.1 ≠ y.1) : candLt x y = true ∨ candLt y x = true := by
  rcases kindsLt_total (segKinds x.2.1) (segKinds y.2.1) with h | h | h
  · exact Or.inl (by simp [candLt, h])
  · exact Or.inr (by simp [candLt, h])
  · rcases Nat.lt_or_ge x.1 y.1 with hi | hi
    · exact Or.inl (by simp [candLt, h, hi])
    · have : y.1 < x.1 := lt_of_le_of_ne hi fun hh => hne hh.symm
      exact Or.inr (by simp [candLt, h, this])

/-- Membership in an insertion step. -/
theorem mem_insSorted {α : Type} (lt : α → α → Bool) (x z : α) :
    ∀ l, z ∈ insSorted lt x l ↔ z = x ∨ z ∈ l := by
  intro l
  induction l with
  | nil => simp [insSorted]
  | cons y ys ih =>
    by_cases h : lt x y = true
    · simp only [insSorted, if_pos h]
      constructor
      · intro hz
        rcases List.mem_cons.mp hz with h' | h'
        · exact Or.inl h'
        · exact Or.inr h'
      · intro hz
        rcases hz with h' | h'
        · exact List.mem_cons.mpr (Or.inl h')
        · exact List.mem_cons.mpr (Or.inr h')
    · simp only [insSorted, if_neg h]
      constructor
      · intro hz
        rcases List.mem_cons.mp hz with h' | h'
        · exact Or.inr (List.mem_cons.mpr (Or.inl h'))
        · rcases (ih.mp h') with h2 | h2
          · exact Or.inl h2
          · exact Or.inr (List.mem_cons.mpr (Or.inr h2))
      · intro hz
        rcases hz with h' | h'
        · exact List.mem_cons.mpr (Or.inr (ih.mpr (Or.inl h')))
        · rcases List.mem_cons.mp h' with h2 | h2
          · exact List.mem_cons.mpr (Or.inl h2)
          · exact List.mem_cons.mpr (Or.inr (ih.mpr (Or.inr h2)))

/-- An insertion step is a permutation of consing. -/
theorem insSorted_perm {α : Type} (lt : α → α → Bool) (x : α) :
    ∀ l, List.Perm (insSorted lt x l) (x :: l) := by
  intro l
  induction l with
  | nil => exact List.Perm.refl _
  | cons y ys ih =>
    by_cases h : lt x y = true
    · rw [insSorted, if_pos h]
    · rw [insSorted, if_neg h]
      exact (List.Perm.cons y ih).trans (List.Perm.swap x y ys)

/-- Insertion sort permutes its input. -/
theorem sortByLt_perm {α : Type} (lt : α → α → Bool) :
    ∀ l, List.Perm (sortByLt lt l) l := by
  intro l
  induction l with
  | nil => exact List.Perm.refl _
  | cons x l ih =>
    exact (insSorted_perm lt x (sortByLt lt l)).trans (List.Perm.cons x ih)

/-- An insertion step preserves sortedness when the new element is
comparable with every listed one. -/
theorem insSorted_pairwise {α : Type} (lt : α → α → Bool)
    (htrans : ∀ a b c, lt a b = true → lt b c = true → lt a c = true)
    (x : α) :
    ∀ l, l.Pairwise (fun a b => lt a b = true) →
    (∀ y ∈ l, lt x y = true ∨ lt y x = true) →
    (insSorted lt x l).Pairwise (fun a b => lt a b = true) := by
  intro l
  induction l with
  | nil => intro _ _; simp [insSorted]
  | cons y ys ih =>
    intro hl htot
    rw [List.pairwise_cons] at hl
    by_cases h : lt x y = true
    · rw [insSorted, if_pos h]
      rw [List.pairwise_cons]
      refine ⟨?_, List.pairwise_cons.mpr hl⟩
      intro z hz
      rcases List.mem_cons.mp hz with h' | h'
      · rw [h']; exact h
      · exact htrans x y z h (hl.1 z h')
    · rw [insSorted, if_neg h]
      rw [List.pairwise_cons]
      constructor
      · intro z hz
        rcases (mem_insSorted lt x z ys).mp hz with h' | h'
        · rcases htot y (List.mem_cons_self _ _) with h2 | h2
          · exact absurd h2 h
          · rw [h']; exact h2
        · exact hl.1 z h'
      · exact ih hl.2 fun z hz => htot z (List.mem_cons_of_mem _ hz)

/-- Insertion sort sorts, when elements are pairwise comparable. -/
theorem sortByLt_pairwise {α : Type} (lt : α → α → Bool)
    (htrans : ∀ a b c, lt a b = true → lt b c = true → lt a c = true) :
    ∀ l, l.Pairwise (fun a b => lt a b = true ∨ lt b a = true) →
    (sortByLt lt l).Pairwise (fun a b => lt a b = true) := by
  intro l
  induction l with
  | nil => intro _; simp [sortByLt]
  | cons x l ih =>
    intro htot
    rw [List.pairwise_cons] at htot
    exact insSorted_pairwise lt htrans x (sortByLt lt l) (ih htot.2)
      fun y hy => htot.1 y ((sortByLt_perm lt l).mem_iff.mp hy)

/-- Two sorted lists that are permutations of each other coincide. -/
theorem sorted_perm_eq {α : Type} (lt : α → α → Bool)
    (hasym : ∀ a b, lt a b = true → lt b a = true → False) :
    ∀ (l1 l2 : List α), List.Perm l1 l2 →
    l1.Pairwise (fun a b => lt a b = true) →
    l2.Pairwise (fun a b => lt a b = true) → l1 = l2 := by
  intro l1
  induction l1 with
  | nil =>
    intro l2 hp _ _
    exact (hp.symm.eq_nil).symm
  | cons x l1 ih =>
    intro l2 hp h1 h2
    cases l2 with
    | nil => cases hp.eq_nil
    | cons y l2 =>
      rw [List.pairwise_cons] at h1 h2
      have hxy : x = y := by
        by_contra hne
        have hx2 : x ∈ y :: l2 := hp.mem_iff.mp (List.mem_cons_self _ _)
        have hx2' : x ∈ l2 := by
          rcases List.mem_cons.mp hx2 with h' | h'
          · exact absurd h' hne
          · exact h'
        have hy1 : y ∈ x :: l1 :=
          hp.symm.mem_iff.mp (List.mem_cons_self _ _)
        have hy1' : y ∈ l1 := by
          rcases List.mem_cons.mp hy1 with h' | h'
          · exact absurd h'.symm hne
          · exact h'
        exact hasym x y (h1.1 y hy1') (h2.1 x hx2')
      subst hxy
      rw [ih l2 hp.cons_inv h1.2 h2.2]

/-! ### Invariants of the pending lists -/

/-- `filterMap` with an index-preserving function keeps index
sortedness. -/
theorem pairwise_fst_filterMap {α β : Type} (f : α → Option β)
    (g1 : α → Nat) (g2 : β → Nat)
    (hf : ∀ a x, f a = some x → g2 x = g1 a) :
    ∀ (l : List α), l.Pairwise (fun a b => g1 a < g1 b) →
    (l.filterMap f).Pairwise (fun a b => g2 a < g2 b) := by
  intro l h
  rw [List.pairwise_filterMap]
  refine h.imp ?_
  intro a b hab x hx y hy
  rw [hf a x (Option.mem_def.mp hx), hf b y (Option.mem_def.mp hy)]
  exact hab

/-- Static tails keep index sortedness. -/
theorem pairwise_fst_stTails (P : List PendEntry) (seg : Str)
    (h : P.Pairwise (fun a b => a.1 < b.1)) :
    (stTails P seg).Pairwise (fun a b => a.1 < b.1) := by
  refine pairwise_fst_filterMap _ (fun e : PendEntry => e.1)
    (fun e : PendEntry => e.1) ?_ P h
  intro a x hx
  obtain ⟨i, r, segs⟩ := a
  cases segs with
  | nil => simp at hx
  | cons h0 t0 =>
    simp only at hx
    by_cases hcond : (!isParamSeg h0 && decide (h0 = seg)) = true
    · rw [if_pos hcond] at hx
      cases hx
      rfl
    · rw [if_neg hcond] at hx
      cases hx

/-- Parametric tails keep index sortedness. -/
theorem pairwise_fst_pmTails (P : List PendEntry)
    (h : P.Pairwise (fun a b => a.1 < b.1)) :
    (pmTails P).Pairwise (fun a b => a.1 < b.1) := by
  refine pairwise_fst_filterMap _ (fun e : PendEntry => e.1)
    (fun e : PendEntry => e.1) ?_ P h
  intro a x hx
  obtain ⟨i, r, segs⟩ := a
  cases segs with
  | nil => simp at hx
  | cons h0 t0 =>
    simp only at hx
    by_cases hcond : isParamSeg h0 = true
    · rw [if_pos hcond] at hx
      cases hx
      rfl
    · rw [if_neg hcond] at hx
      cases hx

/-- Indices listed by `enumFrom` are at least the start index. -/
theorem mem_enumFrom_le {α : Type} :
    ∀ (l : List α) (k : Nat) (e : Nat × α),
    e ∈ List.enumFrom k l → k ≤ e.1 := by
  intro l
  induction l with
  | nil => intro k e he; simp at he
  | cons x xs ih =>
    intro k e he
    rcases List.mem_cons.mp he with h | h
    · rw [h]
    · have := ih (k + 1) e h
      omega

/-- `enumFrom` indexes strictly increasingly. -/
theorem enumFrom_pairwise_fst {α : Type} :
    ∀ (l : List α) (k : Nat),
    (List.enumFrom k l).Pairwise (fun a b => a.1 < b.1) := by
  intro l
  induction l with
  | nil => intro k; simp
  | cons x xs ih =>
    intro k
    rw [show List.enumFrom k (x :: xs) =
      (k, x) :: List.enumFrom (k + 1) xs from rfl, List.pairwise_cons]
    refine ⟨fun e he => ?_, ih (k + 1)⟩
    have := mem_enumFrom_le xs (k + 1) e he
    simp only
    omega

/-- The payload of an `enumFrom` entry is listed. -/
theorem mem_enumFrom_snd {α : Type} :
    ∀ (l : List α) (k : Nat) (e : Nat × α),
    e ∈ List.enumFrom k l → e.2 ∈ l := by
  intro l
  induction l with
  | nil => intro k e he; simp at he
  | cons x xs ih =>
    intro k e he
    rcases List.mem_cons.mp he with h | h
    · rw [h]
      exact List.mem_cons_self _ _
    · exact List.mem_cons_of_mem _ (ih (k + 1) e h)

/-- Shape bookkeeping descends into the static tails. -/
theorem kinds_stTails (P : List PendEntry) (seg : Str) (K : List Bool)
    (h : ∀ e ∈ P, segKinds e.2.1 = K ++ e.2.2.map isParamSeg) :
    ∀ e ∈ stTails P seg,
    segKinds e.2.1 = (K ++ [false]) ++ e.2.2.map isParamSeg := by
  intro e he
  obtain ⟨hnp, hmem⟩ := mem_stTails P seg e he
  have hk := h _ hmem
  simp only [List.map_cons] at hk
  rw [hk, hnp]
  simp

/-- Shape bookkeeping descends into the parametric tails. -/
theorem kinds_pmTails (P : List PendEntry) (K : List Bool)
    (h : ∀ e ∈ P, segKinds e.2.1 = K ++ e.2.2.map isParamSeg) :
    ∀ e ∈ pmTails P,
    segKinds e.2.1 = (K ++ [true]) ++ e.2.2.map isParamSeg := by
  intro e he
  obtain ⟨hd, hp, hmem⟩ := mem_pmTails P e he
  have hk := h _ hmem
  simp only [List.map_cons] at hk
  rw [hk, hp]
  simp

/-- Pairwise consistency descends into the static tails. -/
theorem tailsCons_stTails (P : List PendEntry) (seg : Str)
    (h : ∀ e1 ∈ P, ∀ e2 ∈ P, tailsCons e1.2.2 e2.2.2) :
    ∀ e1 ∈ stTails P seg, ∀ e2 ∈ stTails P seg,
    tailsCons e1.2.2 e2.2.2 := by
  intro e1 he1 e2 he2
  exact tailsCons_static_step seg _ _
    (h _ (mem_stTails P seg e1 he1).2 _ (mem_stTails P seg e2 he2).2)

/-- Pairwise consistency descends into the parametric tails. -/
theorem tailsCons_pmTails (P : List PendEntry)
    (h : ∀ e1 ∈ P, ∀ e2 ∈ P, tailsCons e1.2.2 e2.2.2) :
    ∀ e1 ∈ pmTails P, ∀ e2 ∈ pmTails P, tailsCons e1.2.2 e2.2.2 := by
  intro e1 he1 e2 he2
  obtain ⟨hd1, hp1, hmem1⟩ := mem_pmTails P e1 he1
  obtain ⟨hd2, hp2, hmem2⟩ := mem_pmTails P e2 he2
  exact tailsCons_param_step hd1 hd2 _ _ hp1 hp2 (h _ hmem1 _ hmem2)

/-- Under pairwise consistency, every parametric head equals the one
`pmHead` selects. -/
theorem pmHead_common (P : List PendEntry) (h : Str)
    (hph : pmHead P = some h)
    (hcons : ∀ e1 ∈ P, ∀ e2 ∈ P, tailsCons e1.2.2 e2.2.2) :
    ∀ e ∈ P, ∀ h0 t0, e.2.2 = h0 :: t0 → isParamSeg h0 = true →
    h0 = h := by
  obtain ⟨hp, e0, he0, t0', ht0'⟩ := pmHead_isParam P h hph
  intro e he h0 t0 ht hp0
  have hc := hcons e he e0 he0
  rw [ht, ht0'] at hc
  exact tailsCons_zero h0 h t0 t0' hc hp0 hp

/-- Without a parametric head there are no parametric tails. -/
theorem pmTails_eq_nil_of_pmHead_none (P : List PendEntry)
    (h : pmHead P = none) : pmTails P = [] := by
  induction P with
  | nil => rfl
  | cons e P ih =>
    obtain ⟨i, r, segs⟩ := e
    cases segs with
    | nil =>
      rw [pmHead_cons_nil] at h
      rw [pmTails_cons_nil]
      exact ih h
    | cons h0 t0 =>
      by_cases hp : isParamSeg h0 = true
      · rw [pmHead_cons_param i r h0 t0 P hp] at h
        cases h
      · have hp' : isParamSeg h0 = false := by simpa using hp
        rw [pmHead_cons_static i r h0 t0 P hp'] at h
        rw [pmTails_cons_static i r h0 t0 P hp']
        exact ih h

/-- One step of the alignment-candidate list. -/
theorem alignCands_cons (e : PendEntry) (P : List PendEntry)
    (psegs : List Str) (params : List (Str × PVal)) :
    alignCands (e :: P) psegs params =
      (match alignAcc e.2.2 psegs params with
       | some ps => (e.1, e.2.1, ps) :: alignCands P psegs params
       | none => alignCands P psegs params) := by
  unfold alignCands
  rw [List.filterMap_cons]
  cases alignAcc e.2.2 psegs params <;> rfl

/-- Alignment candidates on an exhausted path are the pending entries
with exhausted templates. -/
theorem alignCands_nil (P : List PendEntry)
    (params : List (Str × PVal)) :
    alignCands P [] params =
      (P.filter fun e => e.2.2.isEmpty).map
        fun e => (e.1, e.2.1, params) := by
  induction P with
  | nil => rfl
  | cons e P ih =>
    rw [alignCands_cons]
    obtain ⟨i, r, segs⟩ := e
    cases segs with
    | nil =>
      rw [show alignAcc [] ([] : List Str) params = some params from rfl]
      rw [show List.filter (fun e => e.2.2.isEmpty)
          ((i, r, ([] : List Str)) :: P) =
        (i, r, ([] : List Str)) :: List.filter (fun e => e.2.2.isEmpty) P
        from by simp [List.filter_cons]]
      rw [List.map_cons, ih]
    | cons h0 t0 =>
      rw [show alignAcc (h0 :: t0) ([] : List Str) params = none from rfl]
      rw [show List.filter (fun e => e.2.2.isEmpty)
          ((i, r, h0 :: t0) :: P) =
        List.filter (fun e => e.2.2.isEmpty) P from by
          simp [List.filter_cons]]
      exact ih

/-- A position with a parametric segment is inside the list. -/
theorem lt_length_of_isParam_getD (l : List Str) (i : Nat)
    (h : isParamSeg (l.getD i []) = true) : i < l.length := by
  by_contra hge
  rw [List.getD_eq_default] at h
  · cases h
  · omega

/-- The registered consistency condition yields suffix consistency of
full templates. -/
theorem tailsCons_of_paramConsistent (routes : List MRoute)
    (h : paramConsistentB routes = true) (r1 : MRoute) (hr1 : r1 ∈ routes)
    (r2 : MRoute) (hr2 : r2 ∈ routes) :
    tailsCons (splitSegs r1.path) (splitSegs r2.path) := by
  intro i heq hp1 hp2
  have hlen1 := lt_length_of_isParam_getD _ _ hp1
  have hlen2 := lt_length_of_isParam_getD _ _ hp2
  rw [paramConsistentB, List.all_eq_true] at h
  have h1 := h r1 hr1
  rw [List.all_eq_true] at h1
  have h2 := h1 r2 hr2
  rw [List.all_eq_true] at h2
  have h3 := h2 i (by
    rw [List.mem_range]
    omega)
  simp only [Bool.or_eq_true, Bool.not_eq_true', beq_iff_eq] at h3
  rcases h3 with ((h' | h') | h') | h'
  · rw [heq] at h'; cases h'
  · rw [hp1] at h'; cases h'
  · rw [hp2] at h'; cases h'
  · exact h'

/-- Splitting the alignment candidates of one path segment: the
static-descending entries and the parametric ones, as a permutation
(entries interleave in pending order). -/
theorem alignCands_split (seg : Str) (rest : List Str)
    (nm : Str) (oty : Option Str) (tid : PatId)
    (htid : typeIdOf (oty.getD (strOf "str")) = some tid) :
    ∀ (P : List PendEntry) (params : List (Str × PVal)),
    (∀ e ∈ P, ∀ s ∈ e.2.2, goodSeg s = true) →
    (∀ e ∈ P, ∀ h0 t0, e.2.2 = h0 :: t0 → isParamSeg h0 = true →
      parseParamSeg h0 = some (nm, oty)) →
    List.Perm (alignCands P (seg :: rest) params)
      (alignCands (stTails P seg) rest params ++
       (if typeMatch tid seg = true then
         alignCands (pmTails P) rest
           (dictSet params nm (convertVal tid seg))
        else [])) := by
  intro P
  induction P with
  | nil =>
    intro params _ _
    rw [show stTails [] seg = [] from rfl, show pmTails [] = [] from rfl]
    rw [show alignCands [] (seg :: rest) params = [] from rfl,
      show alignCands [] rest params = [] from rfl]
    cases typeMatch tid seg <;> simp [alignCands]
  | cons e P ih =>
    intro params hgood hhead
    have hgood' : ∀ e2 ∈ P, ∀ s ∈ e2.2.2, goodSeg s = true :=
      fun e2 he2 => hgood e2 (List.mem_cons_of_mem _ he2)
    have hhead' : ∀ e2 ∈ P, ∀ h0 t0, e2.2.2 = h0 :: t0 →
        isParamSeg h0 = true → parseParamSeg h0 = some (nm, oty) :=
      fun e2 he2 => hhead e2 (List.mem_cons_of_mem _ he2)
    obtain ⟨i, r, segs⟩ := e
    cases segs with
    | nil =>
      rw [alignCands_cons]
      rw [show alignAcc [] (seg :: rest) params = none from rfl]
      rw [stTails_cons_nil, pmTails_cons_nil]
      exact ih params hgood' hhead'
    | cons h0 t0 =>
      by_cases hp : isParamSeg h0 = true
      · have hparse := hhead (i, r, h0 :: t0) (List.mem_cons_self _ _)
          h0 t0 rfl hp
        rw [alignCands_cons]
        rw [stTails_cons_param i r h0 t0 P seg hp,
          pmTails_cons_param i r h0 t0 P hp]
        have hstep : alignAcc (h0 :: t0) (seg :: rest) params =
            (if typeMatch tid seg = true then
              alignAcc t0 rest
                (dictSet params nm (convertVal tid seg))
            else none) := by
          simp [alignAcc, hparse, htid]
        rw [hstep]
        by_cases htm : typeMatch tid seg = true
        · rw [if_pos htm, if_pos htm, alignCands_cons]
          have ihx := ih params hgood' hhead'
          rw [if_pos htm] at ihx
          cases halign : alignAcc t0 rest
              (dictSet params nm (convertVal tid seg)) with
          | some ps =>
            refine (List.Perm.cons (i, r, ps) ihx).trans ?_
            exact List.perm_middle.symm
          | none => exact ihx
        · rw [if_neg htm, if_neg htm]
          have ihx := ih params hgood' hhead'
          rw [if_neg htm] at ihx
          simpa using ihx
      · have hgs := goodSeg_static_of_not_param h0
          (hgood (i, r, h0 :: t0) (List.mem_cons_self _ _) h0
            (List.mem_cons_self _ _))
          (by simpa using hp)
        have hp' : isParamSeg h0 = false := by simpa using hp
        have hparse0 := parseParamSeg_none_of_static h0 hgs
        rw [alignCands_cons, pmTails_cons_static i r h0 t0 P hp']
        by_cases hseg : h0 = seg
        · subst hseg
          rw [stTails_cons_static_eq i r h0 t0 P hp']
          have hstep : alignAcc (h0 :: t0) (h0 :: rest) params =
              alignAcc t0 rest params := by
            simp [alignAcc, hparse0]
          rw [hstep, alignCands_cons]
          cases halign : alignAcc t0 rest params with
          | some ps =>
            rw [List.cons_append]
            exact List.Perm.cons (i, r, ps) (ih params hgood' hhead')
          | none => exact ih params hgood' hhead'
        · rw [stTails_cons_static_ne i r h0 t0 P seg hp' hseg]
          have hstep : alignAcc (h0 :: t0) (seg :: rest) params =
              none := by
            simp [alignAcc, hparse0, hseg]
          rw [hstep]
          exact ih params hgood' hhead'

/-- The depth-first candidates are a permutation of the pending-order
alignment candidates. -/
theorem dfsCands_perm_alignCands (psegs : List Str) :
    ∀ (P : List PendEntry) (params : List (Str × PVal)),
    (∀ e ∈ P, ∀ s ∈ e.2.2, goodSeg s = true) →
    (∀ e1 ∈ P, ∀ e2 ∈ P, tailsCons e1.2.2 e2.2.2) →
    List.Perm (dfsCands P psegs params) (alignCands P psegs params) := by
  induction psegs with
  | nil =>
    intro P params _ _
    rw [alignCands_nil]
    exact List.Perm.refl _
  | cons seg rest ih =>
    intro P params hgood hcons
    cases hph : pmHead P with
    | none =>
      have hpmnil := pmTails_eq_nil_of_pmHead_none P hph
      have hheadnone : ∀ e ∈ P, ∀ h0 t0, e.2.2 = h0 :: t0 →
          isParamSeg h0 = true → parseParamSeg h0 = some ([], none) := by
        intro e he h0 t0 ht hp0
        have := pmHead_none P hph e he h0 t0 ht
        rw [this] at hp0
        cases hp0
      have hsplit := alignCands_split seg rest [] none PatId.pStr rfl
        P params hgood hheadnone
      rw [hpmnil] at hsplit
      rw [show (if typeMatch PatId.pStr seg = true then
          alignCands [] rest
            (dictSet params [] (convertVal PatId.pStr seg))
        else []) = [] from by cases typeMatch PatId.pStr seg <;>
          simp [alignCands]] at hsplit
      rw [List.append_nil] at hsplit
      simp only [dfsCands, hph]
      rw [List.append_nil]
      exact (ih (stTails P seg) params (good_stTails P seg hgood)
        (tailsCons_stTails P seg hcons)).trans hsplit.symm
    | some h =>
      obtain ⟨hp, e0, he0, t00, ht00⟩ := pmHead_isParam P h hph
      have hgp : goodParamSeg h = true :=
        goodSeg_param_of_isParam h
          (hgood e0 he0 h (by rw [ht00]; exact List.mem_cons_self _ _)) hp
      obtain ⟨nm, oty, tid, hparse, htid, -⟩ := goodParam_spec h hgp
      have hhead : ∀ e ∈ P, ∀ h0 t0, e.2.2 = h0 :: t0 →
          isParamSeg h0 = true → parseParamSeg h0 = some (nm, oty) := by
        intro e he h0 t0 ht hp0
        rw [pmHead_common P h hph hcons e he h0 t0 ht hp0]
        exact hparse
      have hsplit := alignCands_split seg rest nm oty tid htid
        P params hgood hhead
      simp only [dfsCands, hph, hparse, htid, Option.getD_some]
      by_cases htm : typeMatch tid seg = true
      · rw [if_pos htm] at hsplit ⊢
        refine (List.Perm.append
          (ih (stTails P seg) params (good_stTails P seg hgood)
            (tailsCons_stTails P seg hcons))
          (ih (pmTails P) (dictSet params nm (convertVal tid seg))
            (good_pmTails P hgood)
            (tailsCons_pmTails P hcons))).trans hsplit.symm
      · rw [if_neg htm] at hsplit ⊢
        rw [List.append_nil] at hsplit ⊢
        exact (ih (stTails P seg) params (good_stTails P seg hgood)
          (tailsCons_stTails P seg hcons)).trans hsplit.symm

/-- The depth-first candidate list is sorted by the candidate order:
static subtrees precede parametric ones, and registration order
breaks ties. -/
theorem dfsCands_sorted (psegs : List Str) :
    ∀ (P : List PendEntry) (K : List Bool) (params : List (Str × PVal)),
    P.Pairwise (fun a b => a.1 < b.1) →
    (∀ e ∈ P, segKinds e.2.1 = K ++ e.2.2.map isParamSeg) →
    (dfsCands P psegs params).Pairwise
      (fun a b => candLt a b = true) := by
  induction psegs with
  | nil =>
    intro P K params hidx hkinds
    show ((P.filter fun e => e.2.2.isEmpty).map
      fun e => (e.1, e.2.1, params)).Pairwise _
    rw [List.pairwise_map]
    have hfilt : (P.filter fun e => e.2.2.isEmpty).Pairwise
        (fun a b => a.1 < b.1) := hidx.filter _
    refine hfilt.imp_of_mem ?_
    intro a b ha hb hab
    have hka := hkinds a (List.mem_of_mem_filter ha)
    have hkb := hkinds b (List.mem_of_mem_filter hb)
    have hea' := List.of_mem_filter ha
    have heb' := List.of_mem_filter hb
    simp only at hea' heb'
    have hea : a.2.2 = [] := List.isEmpty_iff.mp hea'
    have heb : b.2.2 = [] := List.isEmpty_iff.mp heb'
    rw [hea] at hka
    rw [heb] at hkb
    simp only [List.map_nil, List.append_nil] at hka hkb
    show candLt (a.1, a.2.1, params) (b.1, b.2.1, params) = true
    simp [candLt, hka, hkb, hab]
  | cons seg rest ih =>
    intro P K params hidx hkinds
    have hsorted_st := ih (stTails P seg) (K ++ [false]) params
      (pairwise_fst_stTails P seg hidx) (kinds_stTails P seg K hkinds)
    have hcross : ∀ a ∈ dfsCands (stTails P seg) rest params,
        ∀ (b : Nat × MRoute × List (Str × PVal))
          (par2 : List (Str × PVal)),
        b ∈ dfsCands (pmTails P) rest par2 → candLt a b = true := by
      intro a ha b par2 hb
      obtain ⟨tla, hmema⟩ := dfsCands_prov rest (stTails P seg) params a ha
      obtain ⟨tlb, hmemb⟩ := dfsCands_prov rest (pmTails P) par2 b hb
      have hka := kinds_stTails P seg K hkinds _ hmema
      have hkb := kinds_pmTails P K hkinds _ hmemb
      have hlt : kindsLt (segKinds a.2.1) (segKinds b.2.1) = true := by
        rw [show segKinds a.2.1 =
          segKinds (a.1, a.2.1, tla).2.1 from rfl, hka]
        rw [show segKinds b.2.1 =
          segKinds (b.1, b.2.1, tlb).2.1 from rfl, hkb]
        rw [show ((K ++ [false]) ++
            List.map isParamSeg (a.1, a.2.1, tla).2.2) =
          K ++ (false :: List.map isParamSeg tla) by simp]
        rw [show ((K ++ [true]) ++
            List.map isParamSeg (b.1, b.2.1, tlb).2.2) =
          K ++ (true :: List.map isParamSeg tlb) by simp]
        rw [kindsLt_append_common]
        simp [kindsLt]
      simp [candLt, hlt]
    cases hph : pmHead P with
    | none =>
      simp only [dfsCands, hph]
      rw [List.append_nil]
      exact hsorted_st
    | some h =>
      simp only [dfsCands, hph]
      cases hparse : parseParamSeg h with
      | none =>
        simp only [hparse]
        rw [List.append_nil]
        exact hsorted_st
      | some pr =>
        obtain ⟨nm, oty⟩ := pr
        simp only [hparse]
        by_cases htm : typeMatch
            ((typeIdOf (oty.getD (strOf "str"))).getD PatId.pStr) seg
            = true
        · rw [if_pos htm]
          rw [List.pairwise_append]
          refine ⟨hsorted_st,
            ih (pmTails P) (K ++ [true]) _
              (pairwise_fst_pmTails P hidx) (kinds_pmTails P K hkinds),
            ?_⟩
          intro a ha b hb
          exact hcross a ha b _ hb
        · rw [if_neg htm]
          rw [List.append_nil]
          exact hsorted_st

/-- The candidate scan in terms of `find?`: the first method match
wins; otherwise the first candidate (if any) feeds the accumulator. -/
theorem scanCands_spec (method : Str) :
    ∀ (cands : List (Nat × MRoute × List (Str × PVal)))
      (acc : Option MRoute),
    scanCands method cands acc =
      (match cands.find? (fun c => method ∈ c.2.1.methods) with
       | some c => Except.ok (c.2.1, c.2.2)
       | none =>
         Except.error (acc <|> (cands.head?.map fun c => c.2.1))) := by
  intro cands
  induction cands with
  | nil =>
    intro acc
    show Except.error acc = _
    cases acc <;> rfl
  | cons c rest ih =>
    intro acc
    by_cases hm : method ∈ c.2.1.methods
    · rw [show scanCands method (c :: rest) acc =
        Except.ok (c.2.1, c.2.2) from by simp [scanCands, hm]]
      rw [List.find?_cons_of_pos _ (by simpa using hm)]
    · rw [show scanCands method (c :: rest) acc =
        scanCands method rest (acc <|> some c.2.1) from by
          simp [scanCands, hm]]
      rw [ih (acc <|> some c.2.1)]
      rw [List.find?_cons_of_neg _ (by simpa using hm)]
      cases hf : rest.find? (fun c => method ∈ c.2.1.methods) with
      | some c2 => rfl
      | none =>
        rw [show ((acc <|> some c.2.1) <|>
            rest.head?.map (fun c => c.2.1)) = (acc <|> some c.2.1) from by
          cases acc <;> rfl]
        rfl

/-- Dropping the indices of an enumerated fold. -/
theorem foldl_enumFrom_snd {α β : Type} (F : β → α → β) :
    ∀ (l : List α) (k : Nat) (b : β),
    (List.enumFrom k l).foldl (fun nd p => F nd p.2) b = l.foldl F b := by
  intro l
  induction l with
  | nil => intro k b; rfl
  | cons x xs ih =>
    intro k b
    rw [show List.enumFrom k (x :: xs) =
      (k, x) :: List.enumFrom (k + 1) xs from rfl]
    rw [List.foldl_cons, List.foldl_cons]
    exact ih (k + 1) (F b x)

/-- A freshly built tree is the fold of the pending entries over an
empty root. -/
theorem buildTree_eq_foldIns (routes : List MRoute) :
    buildTree routes = foldIns (RNode.empty []) (entriesOf routes) := by
  unfold buildTree foldIns entriesOf
  rw [List.foldl_map]
  rw [show List.enum routes = List.enumFrom 0 routes from rfl]
  rw [foldl_enumFrom_snd
    (fun nd r => insertNode nd (splitSegs r.path) r) routes 0
    (RNode.empty [])]
  rfl

/-- The routes of the pending entries of a route list are listed. -/
theorem entriesOf_route_mem (routes : List MRoute) (e : PendEntry)
    (he : e ∈ entriesOf routes) :
    e.2.1 ∈ routes ∧ e.2.2 = splitSegs e.2.1.path := by
  unfold entriesOf at he
  obtain ⟨q, hq, hqe⟩ := List.mem_map.mp he
  have hmem : q.2 ∈ routes := mem_enumFrom_snd routes 0 q hq
  rw [← hqe]
  exact ⟨hmem, rfl⟩

/-- Template goodness of the initial pending entries. -/
theorem entriesOf_good (routes : List MRoute)
    (hall : routes.all normRouteB = true) :
    ∀ e ∈ entriesOf routes, ∀ s ∈ e.2.2, goodSeg s = true := by
  intro e he s hs
  obtain ⟨hmem, htail⟩ := entriesOf_route_mem routes e he
  rw [List.all_eq_true] at hall
  have hnr := hall e.2.1 hmem
  simp only [normRouteB, Bool.and_eq_true] at hnr
  have := hnr.1.1
  rw [List.all_eq_true] at this
  rw [htail] at hs
  exact this s hs

/-- The alignment candidates of the initial pending entries are the
linear-scan match candidates. -/
theorem alignCands_entriesOf (routes : List MRoute) (p : Str)
    (hall : routes.all normRouteB = true) (hp : normPathB p = true) :
    alignCands (entriesOf routes) (splitSegs p) [] =
      matchCandidates routes p := by
  unfold alignCands entriesOf matchCandidates
  rw [List.filterMap_map]
  refine List.filterMap_congr ?_
  intro a ha
  have hmem : a.2 ∈ routes := mem_enumFrom_snd routes 0 a ha
  have hnr : normRouteB a.2 = true := by
    rw [List.all_eq_true] at hall
    exact hall a.2 hmem
  simp only [Function.comp]
  rw [routeMatch_eq_alignAcc a.2 p hnr hp]

/-- The depth-first candidates over a normalized route set equal the
sorted linear-scan candidates. -/
theorem dfsCands_eq_sorted (routes : List MRoute) (p : Str)
    (hall : routes.all normRouteB = true)
    (hpc : paramConsistentB routes = true)
    (hp : normPathB p = true) :
    dfsCands (entriesOf routes) (splitSegs p) [] =
      sortByLt candLt (matchCandidates routes p) := by
  have hgood := entriesOf_good routes hall
  have hcons : ∀ e1 ∈ entriesOf routes, ∀ e2 ∈ entriesOf routes,
      tailsCons e1.2.2 e2.2.2 := by
    intro e1 he1 e2 he2
    obtain ⟨hm1, ht1⟩ := entriesOf_route_mem routes e1 he1
    obtain ⟨hm2, ht2⟩ := entriesOf_route_mem routes e2 he2
    rw [ht1, ht2]
    exact tailsCons_of_paramConsistent routes hpc _ hm1 _ hm2
  have hidx : (entriesOf routes).Pairwise (fun a b => a.1 < b.1) := by
    unfold entriesOf
    rw [List.pairwise_map]
    exact enumFrom_pairwise_fst routes 0
  have hkinds : ∀ e ∈ entriesOf routes,
      segKinds e.2.1 = [] ++ e.2.2.map isParamSeg := by
    intro e he
    obtain ⟨-, ht⟩ := entriesOf_route_mem routes e he
    rw [ht]
    simp [segKinds]
  have hperm1 := dfsCands_perm_alignCands (splitSegs p)
    (entriesOf routes) [] hgood hcons
  have hsorted1 := dfsCands_sorted (splitSegs p) (entriesOf routes) [] []
    hidx hkinds
  have hmc := alignCands_entriesOf routes p hall hp
  have hmcidx : (matchCandidates routes p).Pairwise
      (fun a b => a.1 < b.1) := by
    unfold matchCandidates
    refine pairwise_fst_filterMap _ (fun q : Nat × MRoute => q.1)
      (fun c : Nat × MRoute × List (Str × PVal) => c.1) ?_ _
      (enumFrom_pairwise_fst routes 0)
    intro a x hx
    cases hr : routeMatch a.2 p with
    | none => rw [hr] at hx; cases hx
    | some ps =>
      rw [hr] at hx
      cases hx
      rfl
  have htotal : (matchCandidates routes p).Pairwise
      (fun a b => candLt a b = true ∨ candLt b a = true) :=
    hmcidx.imp fun hab => candLt_total_ne _ _ (Nat.ne_of_lt hab)
  have hsorted2 := sortByLt_pairwise candLt candLt_trans _ htotal
  have hperm2 : List.Perm (dfsCands (entriesOf routes) (splitSegs p) [])
      (sortByLt candLt (matchCandidates routes p)) := by
    rw [← hmc]
    exact hperm1.trans
      (sortByLt_perm candLt (alignCands (entriesOf routes)
        (splitSegs p) [])).symm
  exact sorted_perm_eq candLt candLt_asymm _ _ hperm2 hsorted1 hsorted2

/-- C1 (amended): for every route set of normalized templates with
consistent parameter segments, and every request with a normalized
path, radix-tree resolution returns exactly what the linear scan of
the registered routes with `Route.match` returns — same route, same
extracted parameters — where the linear scan visits candidates in
static-before-parametric shape order (position by position) and in
registration order on equal shapes; when at least one route matches
the path but none matches the method both sides fail with
method-not-allowed, otherwise with not-found. -/
theorem c1_radix_equals_linear_normalized (routes : List MRoute)
    (path method : Str)
    (hall : routes.all normRouteB = true)
    (hpc : paramConsistentB routes = true)
    (hpath : normPathB path = true) :
    searchTree (buildTree routes) path method =
      linearResolve routes path method := by
  unfold searchTree linearResolve
  rw [buildTree_eq_foldIns,
    searchRec_foldIns method (splitSegs path) (entriesOf routes) [] []
      none (entriesOf_good routes hall),
    dfsCands_eq_sorted routes path hall hpc hpath,
    scanCands_spec]
  cases hL : sortByLt candLt (matchCandidates routes path) with
  | nil => rfl
  | cons c0 rest =>
    show _ = (match (c0 :: rest).find?
        (fun c => method ∈ c.2.1.methods) with
      | some c => SearchOutcome.found c.2.1 c.2.2
      | none =>
        if (c0 :: rest).isEmpty = true then SearchOutcome.notFound
        else SearchOutcome.methodNotAllowed)
    cases hf : (c0 :: rest).find? (fun c => method ∈ c.2.1.methods) with
    | some c => rfl
    | none => rfl

/-- Witness for C1: a static route and a parametric route; the static
one wins the tie on `/a`, on both sides. -/
theorem c1_radix_equals_linear_normalized_witness :
    ([slashARoute, paramStrRoute].all normRouteB = true) ∧
    (paramConsistentB [slashARoute, paramStrRoute] = true) ∧
    (normPathB (strOf "/a") = true) ∧
    searchTree (buildTree [slashARoute, paramStrRoute]) (strOf "/a")
        (strOf "GET") =
      linearResolve [slashARoute, paramStrRoute] (strOf "/a")
        (strOf "GET") :=
  ⟨by decide, by decide, by decide,
    c1_radix_equals_linear_normalized [slashARoute, paramStrRoute]
      (strOf "/a") (strOf "GET") (by decide) (by decide) (by decide)⟩

end Thor
